import Mathlib

set_option linter.unusedSectionVars false

/-!
# A shallow embedding of `conceptLogic/conceptLogic/conceptLogic.py`

This file embeds the core concept store of the python-conceptlogic repository
(the `ConceptLogic` class, the `Concept` constructor and lifecycle, the
`ConceptIdentity` constructor, and the `exportSemanticData` /
`importSemanticData` algorithms) and proves properties of it.

Modelling conventions, chosen to track the Python source line by line:

* A `Concept` object is an index (`Nat`) into an arena `concepts : List ConceptRecord`;
  object identity in Python corresponds to index equality here.  Weak references
  are modelled as ordinary references: no garbage collection happens during the
  executions studied here, which matches the liveness side conditions of the claims.
* Python `dict`s are association lists (`List (key × value)`); insertion appends /
  updates in place exactly as `dict` assignment does, and `k in d` is
  `(alookup d k).isSome`.
* Exceptions are the `PyError` type.  An operation returns `PyOutcome State A`:
  either `.ok finalState value` or `.raised stateAtRaise err` — the state is kept
  on a raise because Python mutations performed before an exception persist.
  `.unboundLocalError` models Python's `UnboundLocalError` (a local variable read
  before assignment), `.typeError` models calling `None`, `.attributeError` models
  reading a missing attribute, `.keyError` a failed `dict[...]` lookup,
  `.fuelExhausted` is a model artifact for the two worklist loops (the theorems
  show it never occurs for the fuel the entry points supply).
* The per-implementation capability functions (`getContentFromData`,
  `getDataFromContent`, `getConnectionsFromContent`, `contentValid`) are pure
  functions; their Python `conceptLogic` argument is dropped because the embedded
  executions never depend on it.  `implementationSupported` is modelled by its
  verdict for the store under study (`Option Bool`, `none` = attribute is `None`).
  The presence of the `initializeConcept` hook is a `Bool`; each invocation of the
  hook is recorded in the ghost trace `initTrace`.
* A `ConceptIdentity.contentCreationFunction` is modelled as a pure function of
  the store state; every invocation additionally increments the ghost counter
  `factoryCalls`, so theorems can observe how often content factories run.
* The store-level injected resolver
  `_getConceptImplementationAndContentFromSemanticConnectionsFunction` is a
  function of the state and the connection set; it may signal
  `semanticConnectionsNotValid` or `semanticConnectionsNotSufficient`.
* Python `set` iteration order is unspecified; the embedding fixes one order
  (lists, popping from the head, deduplicating with `eraseDups`), which models
  one admissible execution of each loop.
-/

namespace ConceptLogicPy

/-- Exceptions of the embedded program.  The first group models the explicit
`raise Exception(...)` sites of `conceptLogic.py`, the second group models
Python runtime errors, the last two model the two signal classes
`semanticConnectionsNotValid` / `semanticConnectionsNotSufficient`.
`fuelExhausted` is a model artifact of the worklist loops. -/
inductive PyError where
  | invalidContent
  | unsupportedImplementation
  | duplicateIdentity
  | duplicateContent
  | rawWithoutIdentity
  | preexistingLoadedConcept
  | typeError
  | attributeError
  | unboundLocalError
  | keyError
  | assertionError
  | notValid
  | notSufficient
  | fuelExhausted
  deriving DecidableEq

/-- Result of an embedded operation: final state and value, or the state at the
moment an exception was raised together with the exception. -/
inductive PyOutcome (σ : Type u) (α : Type v) where
  | ok : σ → α → PyOutcome σ α
  | raised : σ → PyError → PyOutcome σ α
  deriving DecidableEq

/-- The state present in an outcome (Python state survives exceptions). -/
def PyOutcome.state {σ : Type u} {α : Type v} : PyOutcome σ α → σ
  | .ok s _ => s
  | .raised s _ => s

/-- Association-list lookup, modelling `d[k]` / `d.get(k)` on a Python dict. -/
def alookup {α : Type u} {β : Type v} [DecidableEq α] : List (α × β) → α → Option β
  | [], _ => none
  | (k, v) :: rest, a => if k = a then some v else alookup rest a

/-- Association-list assignment `d[k] = v`: updates in place if the key exists,
otherwise appends (Python dicts preserve insertion order). -/
def aupdate {α : Type u} {β : Type v} [DecidableEq α] : List (α × β) → α → β → List (α × β)
  | [], a, b => [(a, b)]
  | (k, v) :: rest, a, b => if k = a then (a, b) :: rest else (k, v) :: aupdate rest a b

/-- A `SemanticConnection`: a `(subject, predicate, object)` triple whose slots are
either a Concept (an arena index) or `None` (a hole). -/
abbrev SemanticConnection := Option Nat × Option Nat × Option Nat

/-- One record of the concept arena: the fields `_conceptImplementation`,
`_content`, `_conceptIdentity`, `_raw` of a `Concept` object. -/
structure ConceptRecord (Content ImplId IdentId : Type) where
  implementation : ImplId
  content : Option Content
  identity : Option IdentId
  raw : Bool
  deriving DecidableEq

/-- The mutable state of one `ConceptLogic` object.  `concepts` is the arena of
all `Concept` objects ever constructed; `loadedConcepts` and
`identifiedConcepts` are the two per-implementation indexes; `factoryCalls` and
`initTrace` are ghost instrumentation (see the header comment). -/
structure ConceptLogicState (Content ImplId IdentId : Type) where
  concepts : List (ConceptRecord Content ImplId IdentId)
  loadedConcepts : List (ImplId × List (Content × Nat))
  identifiedConcepts : List (ImplId × List (IdentId × Nat))
  nonRawImplementations : List ImplId
  activated : Bool
  factoryCalls : Nat
  initTrace : List Nat
  deriving DecidableEq

/-- A fresh `ConceptLogic` store before any concept was loaded (the result of
`ConceptLogic.__init__` with no initial identities). -/
def emptyConceptLogicState (Content ImplId IdentId : Type) :
    ConceptLogicState Content ImplId IdentId :=
  { concepts := [], loadedConcepts := [], identifiedConcepts := []
    nonRawImplementations := [], activated := false, factoryCalls := 0, initTrace := [] }

/-- The capability bundle of one `ConceptImplementation` object (see the header
comment for how the optional functions are modelled). -/
structure ConceptImplementation (Content Data : Type) where
  getContentFromData : Option (Data → Content)
  getDataFromContent : Option (Content → Data)
  getConnectionsFromContent : Option (Content → List SemanticConnection)
  contentValid : Option (Content → Bool)
  initializeConcept : Bool
  implementationSupported : Option Bool

/-- A `ConceptIdentity`: an implementation reference plus the deferred
`contentCreationFunction` (modelled as a pure function of the store state). -/
structure ConceptIdentity (Content ImplId IdentId : Type) where
  implementation : ImplId
  contentCreationFunction : ConceptLogicState Content ImplId IdentId → Content

/-- Outcome of the injected connections resolver: it may signal that the
connection set is not valid or not (yet) sufficient. -/
inductive ResolveSignal where
  | notValid
  | notSufficient
  deriving DecidableEq

/-- The immutable environment of a store: the implementation objects (looked up
by their dictionary key `ImplId`), the identity objects (looked up by
`IdentId`), and the injected store-level connections resolver. -/
structure ConceptLogicEnv (Content Data ImplId IdentId : Type) where
  impls : ImplId → ConceptImplementation Content Data
  idents : IdentId → ConceptIdentity Content ImplId IdentId
  resolveConnections : ConceptLogicState Content ImplId IdentId →
    List SemanticConnection → Except ResolveSignal (ImplId × Content)

section Operations

variable {Content Data ImplId IdentId Ref : Type}
variable [DecidableEq Content] [DecidableEq Data] [DecidableEq ImplId]
variable [DecidableEq IdentId] [DecidableEq Ref]


/-- `ConceptLogic._getImplementationDicts`: returns (after possibly creating)
the pair of per-implementation dicts.  The embedded version returns the updated
state; callers re-read the dicts from it.  Source lines 77-90:
an `assert` guards that either both or neither dict exists; if neither exists
and `implementationSupported` is present and rejects the store, an exception is
raised; otherwise both dicts are created empty. -/
def getImplementationDicts (e : (ConceptLogicEnv Content Data ImplId IdentId)) (impl : ImplId) (s : (ConceptLogicState Content ImplId IdentId)) :
    PyOutcome (ConceptLogicState Content ImplId IdentId) Unit :=
  match alookup s.identifiedConcepts impl, alookup s.loadedConcepts impl with
  | some _, some _ => .ok s ()
  | none, none =>
      if (e.impls impl).implementationSupported = some false then
        .raised s .unsupportedImplementation
      else
        .ok { s with identifiedConcepts := aupdate s.identifiedConcepts impl []
                     loadedConcepts := aupdate s.loadedConcepts impl [] } ()
  | _, _ => .raised s .assertionError

/-- The `Concept.__init__` constructor (source lines 301-323).  Steps, in source
order: if an identity is given, register the concept in
`_identifiedConcepts[impl]` (a direct dict access: `keyError` if the
implementation entry is missing), raising if the identity is already taken;
if `raw`, require an identity and store no content; otherwise register the
content in `_loadedConcepts[impl]`, raising on a duplicate, and run the
`initializeConcept` hook if the implementation has one (recorded in
`initTrace`).  Returns the new concept's arena index.
`conceptRegisterIdentity` is the identity-registration block (source lines
307-311). -/
def conceptRegisterIdentity (impl : ImplId) (identity? : Option IdentId) (idx : Nat)
    (s : (ConceptLogicState Content ImplId IdentId)) : PyOutcome (ConceptLogicState Content ImplId IdentId) Unit :=
  match identity? with
  | none => .ok s ()
  | some ident =>
    match alookup s.identifiedConcepts impl with
    | none => .raised s .keyError
    | some d =>
      if (alookup d ident).isSome then .raised s .duplicateIdentity
      else .ok { s with identifiedConcepts :=
                  aupdate s.identifiedConcepts impl (aupdate d ident idx) } ()

def conceptInit (e : (ConceptLogicEnv Content Data ImplId IdentId)) (content? : Option Content) (impl : ImplId)
    (identity? : Option IdentId) (raw : Bool) (s : (ConceptLogicState Content ImplId IdentId)) :
    PyOutcome (ConceptLogicState Content ImplId IdentId) Nat :=
  let idx := s.concepts.length
  match conceptRegisterIdentity impl identity? idx s with
  | .raised s1 err => .raised s1 err
  | .ok s1 _ =>
    if raw then
      match identity? with
      | none => .raised s1 .rawWithoutIdentity
      | some _ =>
        .ok { s1 with concepts := s1.concepts ++
                [{ implementation := impl, content := none
                   identity := identity?, raw := true }] } idx
    else
      match content? with
      | none =>
        -- not reachable from the modelled call sites: every non-raw
        -- construction in `conceptLogic.py` passes an actual content value
        .raised s1 .typeError
      | some c =>
        match alookup s1.loadedConcepts impl with
        | none => .raised s1 .keyError
        | some d =>
          if (alookup d c).isSome then .raised s1 .duplicateContent
          else
            let s2 := { s1 with
              concepts := s1.concepts ++
                [{ implementation := impl, content := some c
                   identity := identity?, raw := false }]
              loadedConcepts := aupdate s1.loadedConcepts impl (aupdate d c idx) }
            if (e.impls impl).initializeConcept then
              .ok { s2 with initTrace := s2.initTrace ++ [idx] } idx
            else
              .ok s2 idx

/-- `ConceptLogic.getConceptFromIdentity` (source lines 124-159), transcribed
with its two slips intact:

* in the branch that resolves an existing raw concept, after the content is
  computed and `_raw` is cleared, the source reads the local name `content`
  which was never assigned in that branch — `UnboundLocalError` (line 140);
* in the branch where the factory's content already belongs to a loaded
  concept, the identity is attached by overwriting `concept._conceptIdentity`
  unconditionally (lines 150-156). -/
def getConceptFromIdentity (e : (ConceptLogicEnv Content Data ImplId IdentId)) (identId : IdentId) (s : (ConceptLogicState Content ImplId IdentId)) :
    PyOutcome (ConceptLogicState Content ImplId IdentId) Nat :=
  let ci := e.idents identId
  let impl := ci.implementation
  match getImplementationDicts e impl s with
  | .raised s1 err => .raised s1 err
  | .ok s1 _ =>
    let byIdent := (alookup s1.identifiedConcepts impl).getD []
    let byContent := (alookup s1.loadedConcepts impl).getD []
    match alookup byIdent identId with
    | some k =>
      match s1.concepts[k]? with
      | none => .raised s1 .keyError
      | some record =>
        if record.raw then
          -- concept._content = conceptIdentity.contentCreationFunction(self)
          -- concept._raw = False
          let c := ci.contentCreationFunction s1
          let s2 := { s1 with factoryCalls := s1.factoryCalls + 1
                              concepts := s1.concepts.set k
                                { record with content := some c, raw := false } }
          -- `if content in conceptByContent:` — the local variable `content`
          -- was never assigned in this branch: UnboundLocalError.
          .raised s2 .unboundLocalError
        else
          .ok s1 k
    | none =>
      let c := ci.contentCreationFunction s1
      let s2 := { s1 with factoryCalls := s1.factoryCalls + 1 }
      match alookup byContent c with
      | some k =>
        match s2.concepts[k]? with
        | none => .raised s2 .keyError
        | some record =>
          -- concept._conceptIdentity = conceptIdentity  (unconditional)
          -- conceptByIdentity[conceptIdentity] = concept
          .ok { s2 with
                concepts := s2.concepts.set k { record with identity := some identId }
                identifiedConcepts := aupdate s2.identifiedConcepts impl
                  (aupdate byIdent identId k) } k
      | none =>
        conceptInit e (some c) impl (some identId) false s2

/-- The loop body of `getConceptFromContent` lines 100-102: force
`getConceptFromIdentity` for every identity currently registered for the
implementation. -/
def forceLoadIdentified (e : (ConceptLogicEnv Content Data ImplId IdentId)) : List IdentId → (ConceptLogicState Content ImplId IdentId) → PyOutcome (ConceptLogicState Content ImplId IdentId) Unit
  | [], s => .ok s ()
  | identId :: rest, s =>
    match getConceptFromIdentity e identId s with
    | .raised s' err => .raised s' err
    | .ok s' _ => forceLoadIdentified e rest s'

/-- The block of `getConceptFromContent` source lines 99-103: on the first
identity-less load of an implementation, force `getConceptFromIdentity` for
every registered identity, then mark the implementation in
`_nonRawImplementations`. -/
def nonRawStep (e : (ConceptLogicEnv Content Data ImplId IdentId)) (impl : ImplId) (s : (ConceptLogicState Content ImplId IdentId)) : PyOutcome (ConceptLogicState Content ImplId IdentId) Unit :=
  if impl ∈ s.nonRawImplementations then .ok s ()
  else
    match forceLoadIdentified e
        (((alookup s.identifiedConcepts impl).getD []).map Prod.fst) s with
    | .raised s2 err => .raised s2 err
    | .ok s2 _ =>
      .ok { s2 with nonRawImplementations := impl :: s2.nonRawImplementations } ()

/-- `ConceptLogic.getConceptFromContent` (source lines 92-108).  Note the first
statement calls `conceptImplementation.contentValid(content, self)` without a
`None` guard: if the implementation has no validity predicate this is a call of
`None` — `TypeError`. -/
def getConceptFromContent (e : (ConceptLogicEnv Content Data ImplId IdentId)) (impl : ImplId) (c : Content) (s : (ConceptLogicState Content ImplId IdentId)) :
    PyOutcome (ConceptLogicState Content ImplId IdentId) Nat :=
  match (e.impls impl).contentValid with
  | none => .raised s .typeError
  | some valid =>
    if valid c = false then .raised s .invalidContent
    else
      match getImplementationDicts e impl s with
      | .raised s1 err => .raised s1 err
      | .ok s1 _ =>
        match nonRawStep e impl s1 with
        | .raised s2 err => .raised s2 err
        | .ok s2 _ =>
          match alookup ((alookup s2.loadedConcepts impl).getD []) c with
          | some k => .ok s2 k
          | none => conceptInit e (some c) impl none false s2

/-- `ConceptLogic.getConceptFromData` (source lines 110-115): decode, then
delegate to the content path.  A missing `getContentFromData` is a call of
`None`. -/
def getConceptFromData (e : (ConceptLogicEnv Content Data ImplId IdentId)) (impl : ImplId) (d : Data) (s : (ConceptLogicState Content ImplId IdentId)) :
    PyOutcome (ConceptLogicState Content ImplId IdentId) Nat :=
  match (e.impls impl).getContentFromData with
  | none => .raised s .typeError
  | some dec => getConceptFromContent e impl (dec d) s

/-- `ConceptLogic.getConceptFromSemanticConnections` (source lines 117-122):
apply the injected resolver, then delegate to the content path. -/
def getConceptFromSemanticConnections (e : (ConceptLogicEnv Content Data ImplId IdentId)) (conns : List SemanticConnection)
    (s : (ConceptLogicState Content ImplId IdentId)) : PyOutcome (ConceptLogicState Content ImplId IdentId) Nat :=
  match e.resolveConnections s conns with
  | .error .notValid => .raised s .notValid
  | .error .notSufficient => .raised s .notSufficient
  | .ok (impl, c) => getConceptFromContent e impl c s

/-- `ConceptLogic.getRawConceptFromIdentity` (source lines 161-175).  Note that
`_getImplementationDicts` has already created the `_loadedConcepts` entry for
the implementation, so the subsequent membership test
`implementation in self._loadedConcepts` is true and the final raw-construction
statement is unreachable; it is transcribed nonetheless. -/
def getRawConceptFromIdentity (e : (ConceptLogicEnv Content Data ImplId IdentId)) (identId : IdentId) (s : (ConceptLogicState Content ImplId IdentId)) :
    PyOutcome (ConceptLogicState Content ImplId IdentId) Nat :=
  let impl := (e.idents identId).implementation
  match getImplementationDicts e impl s with
  | .raised s1 err => .raised s1 err
  | .ok s1 _ =>
    match alookup ((alookup s1.identifiedConcepts impl).getD []) identId with
    | some k => .ok s1 k
    | none =>
      -- `if implementation in self._loadedConcepts or self._activated:`
      if (alookup s1.loadedConcepts impl).isSome || s1.activated then
        getConceptFromIdentity e identId s1
      else
        conceptInit e none impl (some identId) true s1

/-- Inner loop of `ConceptLogic.activate` over one implementation's identity
dict: resolve every concept that is still raw. -/
def activateInner (e : (ConceptLogicEnv Content Data ImplId IdentId)) : List (IdentId × Nat) → (ConceptLogicState Content ImplId IdentId) → PyOutcome (ConceptLogicState Content ImplId IdentId) Unit
  | [], s => .ok s ()
  | (identId, k) :: rest, s =>
    if (s.concepts[k]?.map (·.raw)).getD false then
      match getConceptFromIdentity e identId s with
      | .raised s' err => .raised s' err
      | .ok s' _ => activateInner e rest s'
    else activateInner e rest s

/-- Outer loop of `ConceptLogic.activate` over `_identifiedConcepts`. -/
def activateOuter (e : (ConceptLogicEnv Content Data ImplId IdentId)) : List (ImplId × List (IdentId × Nat)) → (ConceptLogicState Content ImplId IdentId) →
    PyOutcome (ConceptLogicState Content ImplId IdentId) Unit
  | [], s => .ok s ()
  | (_, byIdent) :: rest, s =>
    match activateInner e byIdent s with
    | .raised s' err => .raised s' err
    | .ok s' _ => activateOuter e rest s'

/-- `ConceptLogic.activate` (source lines 271-281). -/
def activate (e : (ConceptLogicEnv Content Data ImplId IdentId)) (s : (ConceptLogicState Content ImplId IdentId)) : PyOutcome (ConceptLogicState Content ImplId IdentId) Unit :=
  if s.activated then .ok s ()
  else
    match activateOuter e s.identifiedConcepts s with
    | .raised s' err => .raised s' err
    | .ok s' _ => .ok { s' with activated := true } ()

/-- The `Concept.content` property (source lines 346-354): if the concept is
raw, first resolve it through `getConceptFromIdentity` (an absent identity
would make that call fail on an attribute access), then return `_content`. -/
def conceptContent (e : (ConceptLogicEnv Content Data ImplId IdentId)) (k : Nat) (s : (ConceptLogicState Content ImplId IdentId)) : PyOutcome (ConceptLogicState Content ImplId IdentId) Content :=
  match s.concepts[k]? with
  | none => .raised s .keyError
  | some record =>
    if record.raw then
      match record.identity with
      | none => .raised s .attributeError
      | some identId =>
        match getConceptFromIdentity e identId s with
        | .raised s' err => .raised s' err
        | .ok s' _ =>
          match s'.concepts[k]? >>= (·.content) with
          | some c => .ok s' c
          | none => .raised s' .typeError   -- not reachable
    else
      match record.content with
      | some c => .ok s c
      | none => .raised s .typeError        -- non-raw concepts carry content

/-- A `SemanticData` value: the byte-payload map `byteDataInfoByReference`
(reference to implementation and bytes) and the reference-triple set. -/
abbrev SemanticData (Ref ImplId Data : Type) :=
  List (Ref × ImplId × Data) × List (Ref × Ref × Ref)

/-- The local working data of `exportSemanticData`.  The write-only Python set
`exportedConcepts` (never read by the algorithm) is omitted. -/
structure ExportState (Data ImplId Ref : Type) where
  referenceByConcept : List (Nat × Ref)
  byteDataInfoByReference : List (Ref × ImplId × Data)
  referenceTriples : List (Ref × Ref × Ref)
  conceptsToExport : List Nat

/-- One slot of `newReferenceTriple` (source lines 207-219): a hole becomes the
popped concept's own reference; an unassigned concept gets a fresh reference
from the naming function and joins the work list. -/
def exportSlot (nc : Nat → Ref) (ref : Ref) (slot : Option Nat)
    (es : ExportState Data ImplId Ref) : Ref × ExportState Data ImplId Ref :=
  match slot with
  | none => (ref, es)
  | some j =>
    match alookup es.referenceByConcept j with
    | some r => (r, es)
    | none =>
      (nc j, { es with referenceByConcept := aupdate es.referenceByConcept j (nc j)
                       conceptsToExport := es.conceptsToExport ++ [j] })

/-- Process one `SemanticConnection` of the popped concept: substitute all three
slots and add the resulting reference triple to the (set-valued) output. -/
def exportConnection (nc : Nat → Ref) (ref : Ref) (conn : SemanticConnection)
    (es : ExportState Data ImplId Ref) : ExportState Data ImplId Ref :=
  let p1 := exportSlot nc ref conn.1 es
  let p2 := exportSlot nc ref conn.2.1 p1.2
  let p3 := exportSlot nc ref conn.2.2 p2.2
  if (p1.1, p2.1, p3.1) ∈ p3.2.referenceTriples then p3.2
  else { p3.2 with referenceTriples := p3.2.referenceTriples ++ [(p1.1, p2.1, p3.1)] }

/-- Fold `exportConnection` over the connection list of the popped concept. -/
def exportConnectionList (nc : Nat → Ref) (ref : Ref) :
    List SemanticConnection → ExportState Data ImplId Ref → ExportState Data ImplId Ref
  | [], es => es
  | conn :: rest, es => exportConnectionList nc ref rest (exportConnection nc ref conn es)

/-- The worklist loop of `ConceptLogic.exportSemanticData` (source lines
194-223), popping from the head of `conceptsToExport` (one admissible order of
Python's `set.pop`).  A byte-encodable concept is recorded as an opaque leaf;
otherwise its connections are substituted and emitted.  `fuel` is a model
artifact; the entry point supplies enough (see the export lemmas). -/
def exportLoop (e : (ConceptLogicEnv Content Data ImplId IdentId)) (nc : Nat → Ref) :
    Nat → ExportState Data ImplId Ref → (ConceptLogicState Content ImplId IdentId) →
    PyOutcome (ConceptLogicState Content ImplId IdentId) (SemanticData Ref ImplId Data)
  | 0, _, s => .raised s .fuelExhausted
  | fuel + 1, es, s =>
    match es.conceptsToExport with
    | [] => .ok s (es.byteDataInfoByReference, es.referenceTriples)
    | k :: restWork =>
      match alookup es.referenceByConcept k with
      | none => .raised s .keyError
      | some ref =>
        match s.concepts[k]? with
        | none => .raised s .keyError
        | some record =>
          match (e.impls record.implementation).getDataFromContent with
          | some enc =>
            match conceptContent e k s with
            | .raised s' err => .raised s' err
            | .ok s' c =>
              exportLoop e nc fuel
                { es with conceptsToExport := restWork
                          byteDataInfoByReference :=
                            aupdate es.byteDataInfoByReference ref
                              (record.implementation, enc c) } s'
          | none =>
            match (e.impls record.implementation).getConnectionsFromContent with
            | none => .raised s .typeError
            | some connsOf =>
              match conceptContent e k s with
              | .raised s' err => .raised s' err
              | .ok s' c =>
                exportLoop e nc fuel
                  (exportConnectionList nc ref (connsOf c)
                    { es with conceptsToExport := restWork }) s'

/-- `ConceptLogic.exportSemanticData` (source lines 177-224).  The
`nameConvention` argument is modelled as a pure function of the concept (the
default counter is one instance once injectivity is assumed).  Every concept of
the (deduplicated) input set is first assigned a reference, then the worklist
runs. -/
def exportSemanticData (e : (ConceptLogicEnv Content Data ImplId IdentId)) (concepts : List Nat) (nc : Nat → Ref)
    (s : (ConceptLogicState Content ImplId IdentId)) : PyOutcome (ConceptLogicState Content ImplId IdentId) (SemanticData Ref ImplId Data) :=
  let initial := concepts.dedup
  exportLoop e nc (s.concepts.length + initial.length + 1)
    { referenceByConcept := initial.map (fun k => (k, nc k))
      byteDataInfoByReference := [], referenceTriples := [], conceptsToExport := initial } s

/-- The three-way rewrite of all triples containing `r` into hole-marked
connection templates (source lines 250-253); the set union is modelled by
`dedup`. -/
def semanticConnectionReferences (trips : List (Ref × Ref × Ref)) (r : Ref) :
    List (Option Ref × Option Ref × Option Ref) :=
  (((trips.filter (fun t => decide (t.1 = r))).map
      (fun t => ((none : Option Ref), some t.2.1, some t.2.2))) ++
   ((trips.filter (fun t => decide (t.2.1 = r))).map
      (fun t => (some t.1, (none : Option Ref), some t.2.2))) ++
   ((trips.filter (fun t => decide (t.2.2 = r))).map
      (fun t => (some t.1, some t.2.1, (none : Option Ref))))).dedup

/-- Substitute one slot of a connection template: a hole stays a hole, a
reference becomes the already-imported concept, or the whole connection is
dropped (`none`) when the reference is not imported yet. -/
def resolveSlotRef (cbr : List (Ref × Nat)) : Option Ref → Option (Option Nat)
  | none => some none
  | some r => (alookup cbr r).map some

/-- The connection set handed to the resolver for one pending reference
(source lines 254-258): templates whose non-hole slots are all imported,
deduplicated (`frozenset`). -/
def importConnections (cbr : List (Ref × Nat))
    (scr : List (Option Ref × Option Ref × Option Ref)) : List SemanticConnection :=
  (scr.filterMap (fun t =>
    match resolveSlotRef cbr t.1, resolveSlotRef cbr t.2.1, resolveSlotRef cbr t.2.2 with
    | some a, some b, some c => some (a, b, c)
    | _, _, _ => none)).dedup

/-- The byte phase of `importSemanticData` (source lines 241-244): import every
byte payload and strike its reference from the pending set. -/
def importBytePhase (e : (ConceptLogicEnv Content Data ImplId IdentId)) :
    List (Ref × ImplId × Data) → List (Ref × Nat) → List Ref → (ConceptLogicState Content ImplId IdentId) →
    PyOutcome (ConceptLogicState Content ImplId IdentId) (List (Ref × Nat) × List Ref)
  | [], cbr, unimp, s => .ok s (cbr, unimp)
  | (r, impl, d) :: rest, cbr, unimp, s =>
    match getConceptFromData e impl d s with
    | .raised s' err => .raised s' err
    | .ok s' k =>
      importBytePhase e rest (aupdate cbr r k)
        (if r ∈ unimp then unimp.erase r else unimp) s'

/-- The fixpoint loop of `importSemanticData` (source lines 247-268), popping
from the head of `untestedReferences`.  Only the `semanticConnectionsNotSufficient`
signal is caught; on success the reference is struck from the pending set
(a failing `set.remove` would be a `KeyError`) and every still-pending
co-occurring reference is re-queued.  `fuel` is a model artifact; the entry
point supplies enough (proved below). -/
def importLoop (e : (ConceptLogicEnv Content Data ImplId IdentId)) (trips : List (Ref × Ref × Ref)) :
    Nat → List (Ref × Nat) → List Ref → List Ref → (ConceptLogicState Content ImplId IdentId) →
    PyOutcome (ConceptLogicState Content ImplId IdentId) (List (Ref × Nat))
  | 0, _, _, _, s => .raised s .fuelExhausted
  | _ + 1, cbr, _, [], s => .ok s cbr
  | fuel + 1, cbr, unimp, r :: restUntested, s =>
    let scr := semanticConnectionReferences trips r
    match getConceptFromSemanticConnections e (importConnections cbr scr) s with
    | .raised s' err =>
      if err = .notSufficient then importLoop e trips fuel cbr unimp restUntested s'
      else .raised s' err
    | .ok s' k =>
      if r ∈ unimp then
        let unimp' := unimp.erase r
        let connected := ((scr.flatMap (fun t => [t.1, t.2.1, t.2.2])).filterMap id).filter
          (fun x => decide (x ∈ unimp'))
        importLoop e trips fuel (aupdate cbr r k) unimp'
          (restUntested ++ (connected.dedup.filter (fun x => decide (x ∉ restUntested)))) s'
      else .raised s' .keyError

/-- `ConceptLogic.importSemanticData` (source lines 226-269).  The pending set
is every reference occurring in a triple; the byte phase runs first, then the
fixpoint loop over the remaining references.  The three precomputed
triple-index dicts are modelled by `semanticConnectionReferences` filtering the
triple list directly (every processed reference occurs in the triples, so the
dict lookups never fail).  The fuel supplied to the loop is shown sufficient in
the theorems below. -/
def importSemanticData (e : (ConceptLogicEnv Content Data ImplId IdentId)) (sd : SemanticData Ref ImplId Data) (s : (ConceptLogicState Content ImplId IdentId)) :
    PyOutcome (ConceptLogicState Content ImplId IdentId) (List (Ref × Nat)) :=
  let unimp0 := (sd.2.flatMap (fun t => [t.1, t.2.1, t.2.2])).dedup
  match importBytePhase e sd.1 [] unimp0 s with
  | .raised s' err => .raised s' err
  | .ok s' (cbr, unimp) =>
    importLoop e sd.2 ((unimp0.length + 1) * (unimp0.length + 1)) cbr unimp unimp s'

/-- `ConceptIdentity.__init__` (source lines 450-457).  The collision check
iterates the global `conceptLogicSet` and evaluates
`conceptImplementation in conceptLogic.loadedConcepts` — but `ConceptLogic`
objects have no attribute `loadedConcepts` (the field is `_loadedConcepts` and
the class defines no `__getattr__`), so the first iteration raises
`AttributeError` whatever the implementation and whatever is loaded. -/
def conceptIdentityInit (impl : ImplId)
    (factory : ConceptLogicState Content ImplId IdentId → Content)
    (conceptLogicSet : List (ConceptLogicState Content ImplId IdentId)) :
    Except PyError (ConceptIdentity Content ImplId IdentId) :=
  match conceptLogicSet with
  | [] => .ok { implementation := impl, contentCreationFunction := factory }
  | _ :: _ => .error .attributeError

end Operations

/-!
## Concrete instantiation used by the evaluation theorems

All five type parameters are instantiated with `Nat`.
-/

/-- A small implementation table: key 1 has no validity predicate
(`contentValid = None`), key 2 has a predicate accepting exactly content `1`,
every other key is a plain byte-codec implementation accepting everything. -/
def natImpl : Nat → ConceptImplementation Nat Nat
  | 1 => { getContentFromData := some id, getDataFromContent := some id
           getConnectionsFromContent := none, contentValid := none
           initializeConcept := false, implementationSupported := none }
  | 2 => { getContentFromData := some id, getDataFromContent := some id
           getConnectionsFromContent := none
           contentValid := some (fun c => decide (c = 1))
           initializeConcept := false, implementationSupported := none }
  | _ => { getContentFromData := some id, getDataFromContent := some id
           getConnectionsFromContent := none, contentValid := some (fun _ => true)
           initializeConcept := false, implementationSupported := none }

/-- Two identities of implementation 0: identity 0's content factory yields 42,
identity 1's yields 99. -/
def natIdents : Nat → ConceptIdentity Nat Nat Nat
  | 1 => { implementation := 0, contentCreationFunction := fun _ => 99 }
  | _ => { implementation := 0, contentCreationFunction := fun _ => 42 }

/-- Concrete environment; the injected resolver always signals
`semanticConnectionsNotSufficient`. -/
def natEnv : ConceptLogicEnv Nat Nat Nat Nat :=
  { impls := natImpl, idents := natIdents
    resolveConnections := fun _ _ => .error .notSufficient }

/-- A store holding one raw Concept for identity 0 (implementation 0): the
state `getRawConceptFromIdentity` was documented to create for a fresh
identity. -/
def rawStore : ConceptLogicState Nat Nat Nat :=
  { concepts := [{ implementation := 0, content := none, identity := some 0, raw := true }]
    loadedConcepts := [(0, [])], identifiedConcepts := [(0, [(0, 0)])]
    nonRawImplementations := [], activated := false, factoryCalls := 0, initTrace := [] }

/-- A store holding one resolved Concept with content 42 and identity 1
attached; identity 0's factory also yields 42, so resolving identity 0 finds
this concept by content. -/
def identifiedStore : ConceptLogicState Nat Nat Nat :=
  { concepts := [{ implementation := 0, content := some 42, identity := some 1, raw := false }]
    loadedConcepts := [(0, [(42, 0)])], identifiedConcepts := [(0, [(1, 0)])]
    nonRawImplementations := [0], activated := false, factoryCalls := 0, initTrace := [] }

/-- Like `identifiedStore` but the resolved Concept carries identity 2. -/
def identifiedStoreB : ConceptLogicState Nat Nat Nat :=
  { concepts := [{ implementation := 0, content := some 42, identity := some 2, raw := false }]
    loadedConcepts := [(0, [(42, 0)])], identifiedConcepts := [(0, [(2, 0)])]
    nonRawImplementations := [0], activated := false, factoryCalls := 0, initTrace := [] }

/-- The store state a re-entrant call observes while identity 0's content
factory is being evaluated by `getConceptFromIdentity` on a fresh store: the
per-implementation dicts exist but no concept is registered yet (the source
registers nothing before invoking the factory in the identity-not-present
branch). -/
def midResolutionState : ConceptLogicState Nat Nat Nat :=
  { concepts := [], loadedConcepts := [(0, [])], identifiedConcepts := [(0, [])]
    nonRawImplementations := [], activated := false, factoryCalls := 0, initTrace := [] }

/-- A one-triple `SemanticData` value with no byte payloads; none of its three
references is resolvable by `natEnv`'s always-insufficient resolver. -/
def demoImportData : SemanticData Nat Nat Nat := ([], [(1, 2, 3)])

/-!
## Vocabulary for the round-trip theorem (claim C3)

The round-trip statement quantifies over a source store together with a
description of the concepts reachable from the exported set: their contents,
implementations, byte payloads and connection lists, an acyclicity rank, and a
reference naming.  The following definitions give that statement its
vocabulary; `RoundTripHyps` collects the hypotheses (the claim's side
conditions: resolved concepts, acyclic reachability through byte-encodable
leaves with exactly one hole per connection, same implementations with
mutually inverse codecs, and a resolver that reconstructs a concept's content
from its own connection pattern and treats an incomplete pattern as
NotSufficient).
-/

section RoundTripDefs

variable {Content Data ImplId IdentId Ref : Type}
variable [DecidableEq Content] [DecidableEq Data] [DecidableEq ImplId]
variable [DecidableEq IdentId] [DecidableEq Ref]

/-- The non-hole slots of a `SemanticConnection`. -/
def connSlots (conn : SemanticConnection) : List Nat :=
  ([conn.1, conn.2.1, conn.2.2]).filterMap id

/-- A connection has exactly one hole (the glossary shape of a
`SemanticConnection`: exactly the concept's own position is a hole). -/
def oneHole (conn : SemanticConnection) : Prop :=
  (([conn.1, conn.2.1, conn.2.2]).filter (fun s => s.isNone)).length = 1

/-- Reference substitution of one slot as performed by the Exporter: the hole
becomes the exporting concept's reference, a concept slot becomes that
concept's reference. -/
def substSlot (nc : Nat → Ref) (k : Nat) : Option Nat → Ref
  | none => nc k
  | some j => nc j

/-- The exported reference triple of one connection of concept `k`. -/
def substTriple (nc : Nat → Ref) (k : Nat) (conn : SemanticConnection) :
    Ref × Ref × Ref :=
  (substSlot nc k conn.1, substSlot nc k conn.2.1, substSlot nc k conn.2.2)

/-- The content pattern of a connection of the source store: holes stay holes,
concept slots are replaced by the concept's content under `cOf`. -/
def connContentOf (cOf : Nat → Content) (conn : SemanticConnection) :
    Option Content × Option Content × Option Content :=
  (conn.1.map cOf, conn.2.1.map cOf, conn.2.2.map cOf)

/-- The content patterns of a concept's own connection list. -/
def ownPatterns (cOf : Nat → Content) (cnOf : Nat → List SemanticConnection)
    (k : Nat) : List (Option Content × Option Content × Option Content) :=
  (cnOf k).map (connContentOf cOf)

/-- The content a slot of a resolver argument denotes in store `st` (`none`
slots are holes; a concept slot denotes its record's content, undefined if the
index is dangling or the record raw). -/
def slotPatternAt (st : ConceptLogicState Content ImplId IdentId) :
    Option Nat → Option (Option Content)
  | none => some none
  | some j => (st.concepts[j]? >>= (·.content)).map some

/-- The content pattern of one resolver-argument connection in store `st`. -/
def connPatternAt (st : ConceptLogicState Content ImplId IdentId)
    (conn : SemanticConnection) :
    Option (Option Content × Option Content × Option Content) :=
  match slotPatternAt st conn.1, slotPatternAt st conn.2.1, slotPatternAt st conn.2.2 with
  | some a, some b, some c => some (a, b, c)
  | _, _, _ => none

/-- The content patterns of a resolver argument in store `st`. -/
def patternsAt (st : ConceptLogicState Content ImplId IdentId)
    (T : List SemanticConnection) :
    List (Option Content × Option Content × Option Content) :=
  T.filterMap (connPatternAt st)

/-- The hypotheses of the round-trip theorem.  `R` lists the concepts of the
source store `s0` closed under connection references; `cOf`, `iOf`, `isByte`,
`dOf`, `cnOf` describe their contents, implementations, byte payloads and
connection lists; `rank` witnesses acyclicity; `nc` is the reference naming.
The `resolver` field states the round-trip contract of the injected
connections resolver: presented with connections whose content patterns are
all true connections of concept `k`, it reconstructs `k`'s implementation and
content when the whole own pattern is present and signals NotSufficient
otherwise. -/
structure RoundTripHyps (e : ConceptLogicEnv Content Data ImplId IdentId)
    (s0 : ConceptLogicState Content ImplId IdentId) (R : List Nat) (nc : Nat → Ref)
    (rank : Nat → Nat) (cOf : Nat → Content) (iOf : Nat → ImplId)
    (isByte : Nat → Bool) (dOf : Nat → Data)
    (cnOf : Nat → List SemanticConnection) : Prop where
  rnd : R.Nodup
  arena : ∀ k ∈ R, ∃ ido, s0.concepts[k]? =
    some { implementation := iOf k, content := some (cOf k), identity := ido, raw := false }
  ncInj : ∀ j ∈ R, ∀ k ∈ R, nc j = nc k → j = k
  byteEnc : ∀ k ∈ R, isByte k = true →
    ∃ enc, (e.impls (iOf k)).getDataFromContent = some enc ∧ enc (cOf k) = dOf k
  byteDec : ∀ k ∈ R, isByte k = true →
    ∃ dec, (e.impls (iOf k)).getContentFromData = some dec ∧ dec (dOf k) = cOf k
  connNoByte : ∀ k ∈ R, isByte k = false → (e.impls (iOf k)).getDataFromContent = none
  connFn : ∀ k ∈ R, isByte k = false →
    ∃ F, (e.impls (iOf k)).getConnectionsFromContent = some F ∧ F (cOf k) = cnOf k
  valid : ∀ k ∈ R, ∃ v, (e.impls (iOf k)).contentValid = some v ∧ v (cOf k) = true
  supported : ∀ k ∈ R, (e.impls (iOf k)).implementationSupported ≠ some false
  connNonempty : ∀ k ∈ R, isByte k = false → cnOf k ≠ []
  connHole : ∀ k ∈ R, isByte k = false → ∀ conn ∈ cnOf k, oneHole conn
  connClosed : ∀ k ∈ R, isByte k = false → ∀ conn ∈ cnOf k, ∀ j ∈ connSlots conn,
    j ∈ R ∧ rank j < rank k
  distinct : ∀ j ∈ R, ∀ k ∈ R, cOf j = cOf k → j = k
  resolver : ∀ k ∈ R, isByte k = false →
    ∀ (st : ConceptLogicState Content ImplId IdentId) (T : List SemanticConnection),
    (∀ conn ∈ T, (connPatternAt st conn).isSome) →
    (∀ p ∈ patternsAt st T, p ∈ ownPatterns cOf cnOf k) →
    ((∀ p ∈ ownPatterns cOf cnOf k, p ∈ patternsAt st T) →
        e.resolveConnections st T = .ok (iOf k, cOf k)) ∧
    (¬(∀ p ∈ ownPatterns cOf cnOf k, p ∈ patternsAt st T) →
        e.resolveConnections st T = .error .notSufficient)

/-- The keys of the Exporter's `referenceByConcept` dict. -/
def keysOf {Ref : Type} (es : ExportState Data ImplId Ref) : List Nat :=
  es.referenceByConcept.map Prod.fst

/-- Well-formedness of the importing store maintained by the Importer run: no
identities are registered, the content index is consistent with the arena, and
the two per-implementation dicts exist for exactly the same implementations. -/
def StoreInv (st : ConceptLogicState Content ImplId IdentId) : Prop :=
  (∀ i d, alookup st.identifiedConcepts i = some d → d = []) ∧
  (∀ i d c k, alookup st.loadedConcepts i = some d → alookup d c = some k →
    ∃ rec, st.concepts[k]? = some rec ∧ rec.implementation = i ∧ rec.content = some c) ∧
  (∀ i, (alookup st.identifiedConcepts i).isSome ↔ (alookup st.loadedConcepts i).isSome)

/-- The worklist invariant of `exportLoop`: every assigned reference is the
naming of its concept and the concept is in `R`; assigned keys and the
worklist are duplicate-free; the worklist is assigned; every assigned concept
no longer on the worklist has been processed (its byte entry written, or all
its connection triples emitted with every slot assigned); and the two outputs
contain exactly such entries. -/
def ExportInv {Ref : Type} (R : List Nat) (nc : Nat → Ref) (iOf : Nat → ImplId)
    (isByte : Nat → Bool) (dOf : Nat → Data) (cnOf : Nat → List SemanticConnection)
    [DecidableEq Ref] (es : ExportState Data ImplId Ref) : Prop :=
  (∀ p ∈ es.referenceByConcept, p.2 = nc p.1 ∧ p.1 ∈ R) ∧
  (keysOf es).Nodup ∧
  es.conceptsToExport.Nodup ∧
  (∀ k ∈ es.conceptsToExport, k ∈ keysOf es) ∧
  (∀ k ∈ keysOf es, k ∉ es.conceptsToExport →
    (isByte k = true → alookup es.byteDataInfoByReference (nc k) = some (iOf k, dOf k)) ∧
    (isByte k = false → ∀ conn ∈ cnOf k, substTriple nc k conn ∈ es.referenceTriples ∧
      ∀ j ∈ connSlots conn, j ∈ keysOf es)) ∧
  (∀ p ∈ es.byteDataInfoByReference, ∃ k, k ∈ keysOf es ∧ k ∉ es.conceptsToExport ∧
    isByte k = true ∧ p = (nc k, iOf k, dOf k)) ∧
  (∀ t ∈ es.referenceTriples, ∃ k conn, k ∈ keysOf es ∧ isByte k = false ∧
    conn ∈ cnOf k ∧ t = substTriple nc k conn)

end RoundTripDefs

/-!
## A concrete two-concept round-trip instance

Concept 0 is a byte-encodable leaf (implementation 10, content 100, identity
codecs); concept 1 is a connection concept (implementation 11, content 101)
whose single connection references concept 0 twice.  References are named by
the concept index itself.
-/

/-- The connections resolver of the concrete instance: if concept 1's full
content pattern is present it reconstructs concept 1, otherwise it signals
NotSufficient. -/
def rtResolve (st : ConceptLogicState Nat Nat Nat) (T : List SemanticConnection) :
    Except ResolveSignal (Nat × Nat) :=
  if ((none, some 100, some 100) :
      Option Nat × Option Nat × Option Nat) ∈ patternsAt st T then .ok (11, 101)
  else .error .notSufficient

/-- The environment of the concrete round-trip instance. -/
def rtE : ConceptLogicEnv Nat Nat Nat Nat :=
  { impls := fun i =>
      if i = 11 then
        { getContentFromData := none, getDataFromContent := none
          getConnectionsFromContent :=
            some (fun c => if c = 101 then [((none : Option Nat), some 0, some 0)] else [])
          contentValid := some (fun _ => true)
          initializeConcept := false, implementationSupported := none }
      else
        { getContentFromData := some id, getDataFromContent := some id
          getConnectionsFromContent := none, contentValid := some (fun _ => true)
          initializeConcept := false, implementationSupported := none }
    idents := fun _ => { implementation := 0, contentCreationFunction := fun _ => 0 }
    resolveConnections := rtResolve }

/-- The source store of the concrete round-trip instance: concept 0 (byte
leaf, content 100) and concept 1 (connection concept, content 101), both
resolved. -/
def rtS0 : ConceptLogicState Nat Nat Nat :=
  { concepts := [{ implementation := 10, content := some 100, identity := none
                   raw := false },
                 { implementation := 11, content := some 101, identity := none
                   raw := false }]
    loadedConcepts := [], identifiedConcepts := [], nonRawImplementations := []
    activated := false, factoryCalls := 0, initTrace := [] }

/-!
## Basic lemmas about the dictionary model
-/

theorem alookup_aupdate_self {α : Type u} {β : Type v} [DecidableEq α]
    (l : List (α × β)) (a : α) (b : β) : alookup (aupdate l a b) a = some b := by
  induction l with
  | nil => simp [aupdate, alookup]
  | cons hd tl ih =>
    obtain ⟨k, v⟩ := hd
    by_cases h : k = a <;> simp [aupdate, alookup, h, ih]

theorem alookup_aupdate_ne {α : Type u} {β : Type v} [DecidableEq α]
    (l : List (α × β)) {a a' : α} (b : β) (h : a' ≠ a) :
    alookup (aupdate l a b) a' = alookup l a' := by
  induction l with
  | nil => simp [aupdate, alookup, Ne.symm h]
  | cons hd tl ih =>
    obtain ⟨k, v⟩ := hd
    by_cases hk : k = a
    · subst hk
      simp [aupdate, alookup, Ne.symm h]
    · simp [aupdate, alookup, hk, ih]

theorem alookup_aupdate_isSome {α : Type u} {β : Type v} [DecidableEq α]
    {l : List (α × β)} {i a : α} (b : β) (h : (alookup l i).isSome) :
    (alookup (aupdate l a b) i).isSome := by
  by_cases hia : i = a
  · subst hia; simp [alookup_aupdate_self]
  · rwa [alookup_aupdate_ne l b hia]

section Lemmas

variable {Content Data ImplId IdentId Ref : Type}
variable [DecidableEq Content] [DecidableEq Data] [DecidableEq ImplId]
variable [DecidableEq IdentId] [DecidableEq Ref]


theorem getImplementationDicts_of_present (e : (ConceptLogicEnv Content Data ImplId IdentId)) (impl : ImplId) (s : (ConceptLogicState Content ImplId IdentId))
    {di : List (IdentId × Nat)} {dl : List (Content × Nat)}
    (h1 : alookup s.identifiedConcepts impl = some di)
    (h2 : alookup s.loadedConcepts impl = some dl) :
    getImplementationDicts e impl s = .ok s () := by
  simp [getImplementationDicts, h1, h2]

theorem getImplementationDicts_ok_present {e : (ConceptLogicEnv Content Data ImplId IdentId)} {impl : ImplId} {s s' : (ConceptLogicState Content ImplId IdentId)} {u : Unit}
    (h : getImplementationDicts e impl s = .ok s' u) :
    (alookup s'.identifiedConcepts impl).isSome ∧ (alookup s'.loadedConcepts impl).isSome := by
  unfold getImplementationDicts at h
  split at h
  · obtain ⟨rfl, -⟩ := by simpa using h
    constructor <;> simp_all
  · split at h
    · simp at h
    · obtain ⟨rfl, -⟩ := by simpa using h
      constructor <;> simp [alookup_aupdate_self]
  · simp at h

theorem getImplementationDicts_ok_fields {e : (ConceptLogicEnv Content Data ImplId IdentId)} {impl : ImplId} {s s' : (ConceptLogicState Content ImplId IdentId)} {u : Unit}
    (h : getImplementationDicts e impl s = .ok s' u) :
    s'.concepts = s.concepts ∧ s'.nonRawImplementations = s.nonRawImplementations ∧
    s'.activated = s.activated ∧ s'.factoryCalls = s.factoryCalls ∧
    s'.initTrace = s.initTrace ∧
    (∀ i d, alookup s.identifiedConcepts i = some d → alookup s'.identifiedConcepts i = some d) ∧
    (∀ i d, alookup s.loadedConcepts i = some d → alookup s'.loadedConcepts i = some d) := by
  unfold getImplementationDicts at h
  split at h
  · obtain ⟨rfl, -⟩ := by simpa using h
    simp
  · rename_i hid hlo
    split at h
    · simp at h
    · obtain ⟨rfl, -⟩ := by simpa using h
      refine ⟨rfl, rfl, rfl, rfl, rfl, ?_, ?_⟩ <;> intro i d hd
      · rcases eq_or_ne i impl with rfl | hne
        · simp_all
        · simpa [alookup_aupdate_ne _ _ hne] using hd
      · rcases eq_or_ne i impl with rfl | hne
        · simp_all
        · simpa [alookup_aupdate_ne _ _ hne] using hd
  · simp at h

theorem conceptRegisterIdentity_shape (impl : ImplId) (identity? : Option IdentId)
    (idx : Nat) (s : (ConceptLogicState Content ImplId IdentId)) :
    ∃ ic, (conceptRegisterIdentity impl identity? idx s).state =
      { s with identifiedConcepts := ic } := by
  unfold conceptRegisterIdentity
  rcases identity? with _ | ident
  · exact ⟨s.identifiedConcepts, rfl⟩
  · dsimp only
    rcases h : alookup s.identifiedConcepts impl with _ | d
    · exact ⟨s.identifiedConcepts, rfl⟩
    · dsimp only
      by_cases hh : (alookup d ident).isSome
      · rw [if_pos hh]
        exact ⟨s.identifiedConcepts, rfl⟩
      · rw [if_neg hh]
        exact ⟨aupdate s.identifiedConcepts impl (aupdate d ident idx), rfl⟩

theorem conceptRegisterIdentity_ok {impl : ImplId} {identity? : Option IdentId}
    {idx : Nat} {s s1 : (ConceptLogicState Content ImplId IdentId)} {u : Unit}
    (h : conceptRegisterIdentity impl identity? idx s = .ok s1 u) :
    ∃ ic, s1 = { s with identifiedConcepts := ic } ∧
      (∀ i, (alookup s.identifiedConcepts i).isSome → (alookup ic i).isSome) := by
  unfold conceptRegisterIdentity at h
  rcases identity? with _ | ident
  · simp only [PyOutcome.ok.injEq] at h
    obtain ⟨rfl, -⟩ := h
    exact ⟨s.identifiedConcepts, rfl, fun i hi => hi⟩
  · dsimp only at h
    rcases hid : alookup s.identifiedConcepts impl with _ | d <;> rw [hid] at h <;>
      dsimp only at h
    · simp at h
    · by_cases hh : (alookup d ident).isSome
      · rw [if_pos hh] at h
        simp at h
      · rw [if_neg hh] at h
        simp only [PyOutcome.ok.injEq] at h
        obtain ⟨rfl, -⟩ := h
        exact ⟨_, rfl, fun i hi => alookup_aupdate_isSome _ hi⟩

theorem conceptInit_state_shape (e : (ConceptLogicEnv Content Data ImplId IdentId)) (c? : Option Content) (impl : ImplId)
    (identity? : Option IdentId) (raw : Bool) (s : (ConceptLogicState Content ImplId IdentId)) :
    ∃ cs lc ic it, (conceptInit e c? impl identity? raw s).state =
      { s with concepts := cs, loadedConcepts := lc, identifiedConcepts := ic
               initTrace := it } := by
  unfold conceptInit
  dsimp only
  obtain ⟨ic, hic⟩ := conceptRegisterIdentity_shape impl identity? s.concepts.length s
  cases hreg : conceptRegisterIdentity impl identity? s.concepts.length s with
  | raised s1 err =>
    rw [hreg] at hic
    exact ⟨s.concepts, s.loadedConcepts, ic, s.initTrace, by simpa [PyOutcome.state] using hic⟩
  | ok s1 u =>
    rw [hreg] at hic
    simp only [PyOutcome.state] at hic
    dsimp only
    subst hic
    repeat' split
    all_goals simp only [PyOutcome.state]
    all_goals exact ⟨_, _, _, _, rfl⟩

theorem conceptInit_state_factoryCalls (e : (ConceptLogicEnv Content Data ImplId IdentId)) (c? : Option Content) (impl : ImplId)
    (identity? : Option IdentId) (raw : Bool) (s : (ConceptLogicState Content ImplId IdentId)) :
    (conceptInit e c? impl identity? raw s).state.factoryCalls = s.factoryCalls := by
  obtain ⟨cs, lc, ic, it, h⟩ := conceptInit_state_shape e c? impl identity? raw s
  rw [h]

theorem conceptInit_ok_mono {e : (ConceptLogicEnv Content Data ImplId IdentId)} {c? : Option Content} {impl : ImplId}
    {identity? : Option IdentId} {raw : Bool} {s s' : (ConceptLogicState Content ImplId IdentId)} {k : Nat}
    (h : conceptInit e c? impl identity? raw s = .ok s' k) :
    s'.nonRawImplementations = s.nonRawImplementations ∧
    (∀ i, (alookup s.identifiedConcepts i).isSome → (alookup s'.identifiedConcepts i).isSome) ∧
    (∀ i, (alookup s.loadedConcepts i).isSome → (alookup s'.loadedConcepts i).isSome) := by
  unfold conceptInit at h
  dsimp only at h
  cases hreg : conceptRegisterIdentity impl identity? s.concepts.length s with
  | raised s1 err =>
    rw [hreg] at h
    simp at h
  | ok s1 u =>
    rw [hreg] at h
    dsimp only at h
    obtain ⟨ic, rfl, hpres⟩ := conceptRegisterIdentity_ok hreg
    split at h
    · split at h
      · simp at h
      · simp only [PyOutcome.ok.injEq] at h
        obtain ⟨rfl, -⟩ := h
        exact ⟨rfl, fun i hi => hpres i hi, fun i hi => hi⟩
    · split at h
      · simp at h
      · split at h
        · simp at h
        · rename_i d hd
          split at h
          · simp at h
          · split at h <;>
            · simp only [PyOutcome.ok.injEq] at h
              obtain ⟨rfl, -⟩ := h
              exact ⟨rfl, fun i hi => hpres i hi,
                fun i hi => alookup_aupdate_isSome _ hi⟩

theorem conceptInit_none_ok {e : (ConceptLogicEnv Content Data ImplId IdentId)} {c : Content} {impl : ImplId} {s s' : (ConceptLogicState Content ImplId IdentId)} {k : Nat}
    (h : conceptInit e (some c) impl none false s = .ok s' k) :
    ∃ d, alookup s.loadedConcepts impl = some d ∧
      s'.loadedConcepts = aupdate s.loadedConcepts impl (aupdate d c k) ∧
      s'.identifiedConcepts = s.identifiedConcepts ∧
      s'.nonRawImplementations = s.nonRawImplementations := by
  unfold conceptInit conceptRegisterIdentity at h
  dsimp only at h
  rw [if_neg Bool.false_ne_true] at h
  cases hd : alookup s.loadedConcepts impl with
  | none => rw [hd] at h; simp at h
  | some d =>
    rw [hd] at h
    dsimp only at h
    by_cases hc : (alookup d c).isSome
    · rw [if_pos hc] at h; simp at h
    · rw [if_neg hc] at h
      by_cases hi : (e.impls impl).initializeConcept = true
      · rw [if_pos hi] at h
        simp only [PyOutcome.ok.injEq] at h
        obtain ⟨rfl, rfl⟩ := h
        exact ⟨d, rfl, rfl, rfl, rfl⟩
      · rw [if_neg hi] at h
        simp only [PyOutcome.ok.injEq] at h
        obtain ⟨rfl, rfl⟩ := h
        exact ⟨d, rfl, rfl, rfl, rfl⟩

theorem getConceptFromIdentity_ok_mono {e : (ConceptLogicEnv Content Data ImplId IdentId)} {identId : IdentId} {s s' : (ConceptLogicState Content ImplId IdentId)} {k : Nat}
    (h : getConceptFromIdentity e identId s = .ok s' k) :
    s'.nonRawImplementations = s.nonRawImplementations ∧
    (∀ i, (alookup s.identifiedConcepts i).isSome → (alookup s'.identifiedConcepts i).isSome) ∧
    (∀ i, (alookup s.loadedConcepts i).isSome → (alookup s'.loadedConcepts i).isSome) := by
  unfold getConceptFromIdentity at h
  dsimp only at h
  cases hd : getImplementationDicts e (e.idents identId).implementation s with
  | raised s1 err => rw [hd] at h; simp at h
  | ok s1 u =>
    rw [hd] at h
    dsimp only at h
    obtain ⟨-, hn1, -, hf1, -, hidp, hlop⟩ := getImplementationDicts_ok_fields hd
    have pid1 : ∀ i, (alookup s.identifiedConcepts i).isSome →
        (alookup s1.identifiedConcepts i).isSome := by
      intro i hi
      obtain ⟨d, hd'⟩ := Option.isSome_iff_exists.mp hi
      rw [hidp i d hd']
      rfl
    have plo1 : ∀ i, (alookup s.loadedConcepts i).isSome →
        (alookup s1.loadedConcepts i).isSome := by
      intro i hi
      obtain ⟨d, hd'⟩ := Option.isSome_iff_exists.mp hi
      rw [hlop i d hd']
      rfl
    split at h
    · split at h
      · simp at h
      · split at h
        · simp at h
        · simp only [PyOutcome.ok.injEq] at h
          obtain ⟨rfl, rfl⟩ := h
          exact ⟨hn1, pid1, plo1⟩
    · split at h
      · split at h
        · simp at h
        · simp only [PyOutcome.ok.injEq] at h
          obtain ⟨rfl, rfl⟩ := h
          exact ⟨hn1, fun i hi => alookup_aupdate_isSome _ (pid1 i hi), plo1⟩
      · obtain ⟨hn2, pid2, plo2⟩ := conceptInit_ok_mono h
        exact ⟨hn2.trans hn1, fun i hi => pid2 i (pid1 i hi), fun i hi => plo2 i (plo1 i hi)⟩

theorem forceLoadIdentified_ok_mono {e : (ConceptLogicEnv Content Data ImplId IdentId)} : ∀ {ids : List IdentId} {s s' : (ConceptLogicState Content ImplId IdentId)} {u : Unit},
    forceLoadIdentified e ids s = .ok s' u →
    s'.nonRawImplementations = s.nonRawImplementations ∧
    (∀ i, (alookup s.identifiedConcepts i).isSome → (alookup s'.identifiedConcepts i).isSome) ∧
    (∀ i, (alookup s.loadedConcepts i).isSome → (alookup s'.loadedConcepts i).isSome) := by
  intro ids
  induction ids with
  | nil =>
    intro s s' u h
    simp only [forceLoadIdentified, PyOutcome.ok.injEq] at h
    obtain ⟨rfl, -⟩ := h
    exact ⟨rfl, fun i hi => hi, fun i hi => hi⟩
  | cons identId rest ih =>
    intro s s' u h
    unfold forceLoadIdentified at h
    cases hg : getConceptFromIdentity e identId s with
    | raised s1 err => rw [hg] at h; simp at h
    | ok s1 k =>
      rw [hg] at h
      obtain ⟨hn1, pid1, plo1⟩ := getConceptFromIdentity_ok_mono hg
      obtain ⟨hn2, pid2, plo2⟩ := ih h
      exact ⟨hn2.trans hn1, fun i hi => pid2 i (pid1 i hi), fun i hi => plo2 i (plo1 i hi)⟩

theorem nonRawStep_of_mem {e : (ConceptLogicEnv Content Data ImplId IdentId)} {impl : ImplId} {s : (ConceptLogicState Content ImplId IdentId)}
    (h : impl ∈ s.nonRawImplementations) : nonRawStep e impl s = .ok s () := by
  unfold nonRawStep
  rw [if_pos h]

theorem nonRawStep_ok {e : (ConceptLogicEnv Content Data ImplId IdentId)} {impl : ImplId} {s s2 : (ConceptLogicState Content ImplId IdentId)} {u : Unit}
    (h : nonRawStep e impl s = .ok s2 u) :
    impl ∈ s2.nonRawImplementations ∧
    (∀ i, (alookup s.identifiedConcepts i).isSome → (alookup s2.identifiedConcepts i).isSome) ∧
    (∀ i, (alookup s.loadedConcepts i).isSome → (alookup s2.loadedConcepts i).isSome) := by
  unfold nonRawStep at h
  by_cases hm : impl ∈ s.nonRawImplementations
  · rw [if_pos hm] at h
    simp only [PyOutcome.ok.injEq] at h
    obtain ⟨rfl, -⟩ := h
    exact ⟨hm, fun i hi => hi, fun i hi => hi⟩
  · rw [if_neg hm] at h
    cases hf : forceLoadIdentified e (((alookup s.identifiedConcepts impl).getD []).map Prod.fst) s with
    | raised s1 err => rw [hf] at h; simp at h
    | ok s1 u1 =>
      rw [hf] at h
      dsimp only at h
      simp only [PyOutcome.ok.injEq] at h
      obtain ⟨rfl, -⟩ := h
      obtain ⟨-, pid1, plo1⟩ := forceLoadIdentified_ok_mono hf
      exact ⟨List.mem_cons_self _ _, fun i hi => pid1 i hi, fun i hi => plo1 i hi⟩

/-!
### Which errors the store operations can raise

The fixpoint loop of the Importer catches exactly
`semanticConnectionsNotSufficient`; the following lemmas show that no store
operation other than the resolver dispatch can produce that signal (with the
codec, validity and factory functions modelled as pure), and that the
`fuelExhausted` model artifact never originates in a store operation. -/

theorem conceptRegisterIdentity_raised {impl : ImplId} {identity? : Option IdentId}
    {idx : Nat} {s s' : (ConceptLogicState Content ImplId IdentId)} {err : PyError}
    (h : conceptRegisterIdentity impl identity? idx s = .raised s' err) :
    err ≠ PyError.notSufficient ∧ err ≠ PyError.fuelExhausted := by
  unfold conceptRegisterIdentity at h
  rcases identity? with _ | ident
  · simp at h
  · dsimp only at h
    rcases hid : alookup s.identifiedConcepts impl with _ | d <;> rw [hid] at h <;>
      dsimp only at h
    · simp only [PyOutcome.raised.injEq] at h
      obtain ⟨rfl, rfl⟩ := h
      exact ⟨by decide, by decide⟩
    · split at h
      · simp only [PyOutcome.raised.injEq] at h
        obtain ⟨rfl, rfl⟩ := h
        exact ⟨by decide, by decide⟩
      · simp at h

theorem conceptInit_raised {e : (ConceptLogicEnv Content Data ImplId IdentId)} {c? : Option Content} {impl : ImplId}
    {identity? : Option IdentId} {raw : Bool} {s s' : (ConceptLogicState Content ImplId IdentId)} {err : PyError}
    (h : conceptInit e c? impl identity? raw s = .raised s' err) :
    err ≠ PyError.notSufficient ∧ err ≠ PyError.fuelExhausted := by
  unfold conceptInit at h
  dsimp only at h
  cases hreg : conceptRegisterIdentity impl identity? s.concepts.length s with
  | raised s1 e1 =>
    rw [hreg] at h
    dsimp only at h
    simp only [PyOutcome.raised.injEq] at h
    obtain ⟨rfl, rfl⟩ := h
    exact conceptRegisterIdentity_raised hreg
  | ok s1 u =>
    rw [hreg] at h
    dsimp only at h
    split at h
    · split at h
      · simp only [PyOutcome.raised.injEq] at h
        obtain ⟨rfl, rfl⟩ := h
        exact ⟨by decide, by decide⟩
      · simp at h
    · split at h
      · simp only [PyOutcome.raised.injEq] at h
        obtain ⟨rfl, rfl⟩ := h
        exact ⟨by decide, by decide⟩
      · split at h
        · simp only [PyOutcome.raised.injEq] at h
          obtain ⟨rfl, rfl⟩ := h
          exact ⟨by decide, by decide⟩
        · split at h
          · simp only [PyOutcome.raised.injEq] at h
            obtain ⟨rfl, rfl⟩ := h
            exact ⟨by decide, by decide⟩
          · split at h <;> simp at h

theorem getImplementationDicts_raised {e : (ConceptLogicEnv Content Data ImplId IdentId)} {impl : ImplId} {s s' : (ConceptLogicState Content ImplId IdentId)} {err : PyError}
    (h : getImplementationDicts e impl s = .raised s' err) :
    err ≠ PyError.notSufficient ∧ err ≠ PyError.fuelExhausted := by
  unfold getImplementationDicts at h
  split at h
  · simp at h
  · split at h
    · simp only [PyOutcome.raised.injEq] at h
      obtain ⟨rfl, rfl⟩ := h
      exact ⟨by decide, by decide⟩
    · simp at h
  · simp only [PyOutcome.raised.injEq] at h
    obtain ⟨rfl, rfl⟩ := h
    exact ⟨by decide, by decide⟩

theorem getConceptFromIdentity_raised {e : (ConceptLogicEnv Content Data ImplId IdentId)} {identId : IdentId} {s s' : (ConceptLogicState Content ImplId IdentId)} {err : PyError}
    (h : getConceptFromIdentity e identId s = .raised s' err) :
    err ≠ PyError.notSufficient ∧ err ≠ PyError.fuelExhausted := by
  unfold getConceptFromIdentity at h
  dsimp only at h
  cases hd : getImplementationDicts e (e.idents identId).implementation s with
  | raised s1 e1 =>
    rw [hd] at h
    dsimp only at h
    simp only [PyOutcome.raised.injEq] at h
    obtain ⟨rfl, rfl⟩ := h
    exact getImplementationDicts_raised hd
  | ok s1 u =>
    rw [hd] at h
    dsimp only at h
    split at h
    · split at h
      · simp only [PyOutcome.raised.injEq] at h
        obtain ⟨rfl, rfl⟩ := h
        exact ⟨by decide, by decide⟩
      · split at h
        · simp only [PyOutcome.raised.injEq] at h
          obtain ⟨rfl, rfl⟩ := h
          exact ⟨by decide, by decide⟩
        · simp at h
    · split at h
      · split at h
        · simp only [PyOutcome.raised.injEq] at h
          obtain ⟨rfl, rfl⟩ := h
          exact ⟨by decide, by decide⟩
        · simp at h
      · exact conceptInit_raised h

theorem forceLoadIdentified_raised {e : (ConceptLogicEnv Content Data ImplId IdentId)} : ∀ {ids : List IdentId} {s s' : (ConceptLogicState Content ImplId IdentId)} {err : PyError},
    forceLoadIdentified e ids s = .raised s' err →
    err ≠ PyError.notSufficient ∧ err ≠ PyError.fuelExhausted := by
  intro ids
  induction ids with
  | nil =>
    intro s s' err h
    simp [forceLoadIdentified] at h
  | cons identId rest ih =>
    intro s s' err h
    unfold forceLoadIdentified at h
    cases hg : getConceptFromIdentity e identId s with
    | raised s1 e1 =>
      rw [hg] at h
      dsimp only at h
      simp only [PyOutcome.raised.injEq] at h
      obtain ⟨rfl, rfl⟩ := h
      exact getConceptFromIdentity_raised hg
    | ok s1 k =>
      rw [hg] at h
      dsimp only at h
      exact ih h

theorem nonRawStep_raised {e : (ConceptLogicEnv Content Data ImplId IdentId)} {impl : ImplId} {s s' : (ConceptLogicState Content ImplId IdentId)} {err : PyError}
    (h : nonRawStep e impl s = .raised s' err) :
    err ≠ PyError.notSufficient ∧ err ≠ PyError.fuelExhausted := by
  unfold nonRawStep at h
  split at h
  · simp at h
  · cases hf : forceLoadIdentified e
        (((alookup s.identifiedConcepts impl).getD []).map Prod.fst) s with
    | raised s1 e1 =>
      rw [hf] at h
      dsimp only at h
      simp only [PyOutcome.raised.injEq] at h
      obtain ⟨rfl, rfl⟩ := h
      exact forceLoadIdentified_raised hf
    | ok s1 u =>
      rw [hf] at h
      dsimp only at h
      simp at h

theorem getConceptFromContent_raised {e : (ConceptLogicEnv Content Data ImplId IdentId)} {impl : ImplId} {c : Content} {s s' : (ConceptLogicState Content ImplId IdentId)}
    {err : PyError} (h : getConceptFromContent e impl c s = .raised s' err) :
    err ≠ PyError.notSufficient ∧ err ≠ PyError.fuelExhausted := by
  unfold getConceptFromContent at h
  cases hv : (e.impls impl).contentValid with
  | none =>
    rw [hv] at h
    dsimp only at h
    simp only [PyOutcome.raised.injEq] at h
    obtain ⟨rfl, rfl⟩ := h
    exact ⟨by decide, by decide⟩
  | some valid =>
    rw [hv] at h
    dsimp only at h
    split at h
    · simp only [PyOutcome.raised.injEq] at h
      obtain ⟨rfl, rfl⟩ := h
      exact ⟨by decide, by decide⟩
    · cases hd : getImplementationDicts e impl s with
      | raised s1 e1 =>
        rw [hd] at h
        dsimp only at h
        simp only [PyOutcome.raised.injEq] at h
        obtain ⟨rfl, rfl⟩ := h
        exact getImplementationDicts_raised hd
      | ok s1 u =>
        rw [hd] at h
        dsimp only at h
        cases hn : nonRawStep e impl s1 with
        | raised s2 e2 =>
          rw [hn] at h
          dsimp only at h
          simp only [PyOutcome.raised.injEq] at h
          obtain ⟨rfl, rfl⟩ := h
          exact nonRawStep_raised hn
        | ok s2 u2 =>
          rw [hn] at h
          dsimp only at h
          split at h
          · simp at h
          · exact conceptInit_raised h

theorem getConceptFromData_raised {e : (ConceptLogicEnv Content Data ImplId IdentId)} {impl : ImplId} {d : Data} {s s' : (ConceptLogicState Content ImplId IdentId)}
    {err : PyError} (h : getConceptFromData e impl d s = .raised s' err) :
    err ≠ PyError.notSufficient ∧ err ≠ PyError.fuelExhausted := by
  unfold getConceptFromData at h
  cases hg : (e.impls impl).getContentFromData with
  | none =>
    rw [hg] at h
    dsimp only at h
    simp only [PyOutcome.raised.injEq] at h
    obtain ⟨rfl, rfl⟩ := h
    exact ⟨by decide, by decide⟩
  | some dec =>
    rw [hg] at h
    dsimp only at h
    exact getConceptFromContent_raised h

theorem getConceptFromSemanticConnections_raised {e : (ConceptLogicEnv Content Data ImplId IdentId)} {conns : List SemanticConnection}
    {s s' : (ConceptLogicState Content ImplId IdentId)} {err : PyError}
    (h : getConceptFromSemanticConnections e conns s = .raised s' err) :
    err ≠ PyError.fuelExhausted := by
  unfold getConceptFromSemanticConnections at h
  cases hr : e.resolveConnections s conns with
  | error sig =>
    cases sig <;> rw [hr] at h <;> dsimp only at h <;>
      · simp only [PyOutcome.raised.injEq] at h
        obtain ⟨rfl, rfl⟩ := h
        decide
  | ok pair =>
    obtain ⟨impl, c⟩ := pair
    rw [hr] at h
    dsimp only at h
    exact (getConceptFromContent_raised h).2

theorem importBytePhase_raised {e : (ConceptLogicEnv Content Data ImplId IdentId)} :
    ∀ {entries : List (Ref × ImplId × Data)} {cbr : List (Ref × Nat)} {unimp : List Ref}
      {s s' : (ConceptLogicState Content ImplId IdentId)} {err : PyError},
    importBytePhase e entries cbr unimp s = .raised s' err →
    err ≠ PyError.notSufficient ∧ err ≠ PyError.fuelExhausted := by
  intro entries
  induction entries with
  | nil =>
    intro cbr unimp s s' err h
    simp [importBytePhase] at h
  | cons entry rest ih =>
    intro cbr unimp s s' err h
    obtain ⟨r, impl, d⟩ := entry
    unfold importBytePhase at h
    cases hg : getConceptFromData e impl d s with
    | raised s1 e1 =>
      rw [hg] at h
      dsimp only at h
      simp only [PyOutcome.raised.injEq] at h
      obtain ⟨rfl, rfl⟩ := h
      exact getConceptFromData_raised hg
    | ok s1 k =>
      rw [hg] at h
      dsimp only at h
      exact ih h

theorem importBytePhase_ok_sublist {e : (ConceptLogicEnv Content Data ImplId IdentId)} :
    ∀ {entries : List (Ref × ImplId × Data)} {cbr : List (Ref × Nat)} {unimp : List Ref}
      {s s' : (ConceptLogicState Content ImplId IdentId)} {out : List (Ref × Nat) × List Ref},
    importBytePhase e entries cbr unimp s = .ok s' out → List.Sublist out.2 unimp := by
  intro entries
  induction entries with
  | nil =>
    intro cbr unimp s s' out h
    simp only [importBytePhase, PyOutcome.ok.injEq] at h
    obtain ⟨rfl, rfl⟩ := h
    exact List.Sublist.refl _
  | cons entry rest ih =>
    intro cbr unimp s s' out h
    obtain ⟨r, impl, d⟩ := entry
    unfold importBytePhase at h
    cases hg : getConceptFromData e impl d s with
    | raised s1 e1 =>
      rw [hg] at h
      dsimp only at h
      simp at h
    | ok s1 k =>
      rw [hg] at h
      dsimp only at h
      refine (ih h).trans ?_
      split
      · exact List.erase_sublist _ _
      · exact List.Sublist.refl _

theorem importLoop_raised {e : (ConceptLogicEnv Content Data ImplId IdentId)} {trips : List (Ref × Ref × Ref)} (N : Nat) :
    ∀ (fuel : Nat) (cbr : List (Ref × Nat)) (unimp untested : List Ref) (s : (ConceptLogicState Content ImplId IdentId)),
      untested.Nodup → untested ⊆ unimp → unimp.Nodup → unimp.length ≤ N →
      unimp.length * (N + 1) + untested.length < fuel →
      ∀ (s' : (ConceptLogicState Content ImplId IdentId)) (err : PyError),
        importLoop e trips fuel cbr unimp untested s = .raised s' err →
        err ≠ PyError.notSufficient ∧ err ≠ PyError.fuelExhausted := by
  intro fuel
  induction fuel with
  | zero =>
    intro cbr unimp untested s hnd hsub hund hlen hfuel
    exact absurd hfuel (Nat.not_lt_zero _)
  | succ f ih =>
    intro cbr unimp untested s hnd hsub hund hlen hfuel s' err h
    cases untested with
    | nil => simp [importLoop] at h
    | cons r rest =>
      simp only [importLoop] at h
      cases hg : getConceptFromSemanticConnections e
          (importConnections cbr (semanticConnectionReferences trips r)) s with
      | raised s1 e1 =>
        rw [hg] at h
        dsimp only at h
        by_cases he : e1 = PyError.notSufficient
        · rw [if_pos he] at h
          have hnd' := (List.nodup_cons.mp hnd).2
          have hsub' : rest ⊆ unimp := fun x hx => hsub (List.mem_cons_of_mem _ hx)
          refine ih cbr unimp rest s1 hnd' hsub' hund hlen ?_ s' err h
          simp only [List.length_cons] at hfuel
          omega
        · rw [if_neg he] at h
          simp only [PyOutcome.raised.injEq] at h
          obtain ⟨rfl, rfl⟩ := h
          exact ⟨he, getConceptFromSemanticConnections_raised hg⟩
      | ok s1 k =>
        rw [hg] at h
        dsimp only at h
        by_cases hr : r ∈ unimp
        · rw [if_pos hr] at h
          have hrrest : r ∉ rest := (List.nodup_cons.mp hnd).1
          have hndrest : rest.Nodup := (List.nodup_cons.mp hnd).2
          have hsubrest : rest ⊆ unimp.erase r := by
            intro x hx
            have hxu : x ∈ unimp := hsub (List.mem_cons_of_mem _ hx)
            have hxr : x ≠ r := fun hxeq => hrrest (hxeq ▸ hx)
            exact (List.mem_erase_of_ne hxr).mpr hxu
          have hunde : (unimp.erase r).Nodup := hund.erase r
          have hlene : (unimp.erase r).length = unimp.length - 1 :=
            List.length_erase_of_mem hr
          have hconnsub : (((((semanticConnectionReferences trips r).flatMap
              (fun t => [t.1, t.2.1, t.2.2])).filterMap id).filter
                (fun x => decide (x ∈ unimp.erase r))).dedup.filter
                  (fun x => decide (x ∉ rest))) ⊆ unimp.erase r := by
            intro x hx
            have hx1 := (List.mem_filter.mp hx).1
            have hx2 := (List.mem_filter.mp (List.mem_dedup.mp hx1)).2
            exact of_decide_eq_true hx2
          have hconnnd : (((((semanticConnectionReferences trips r).flatMap
              (fun t => [t.1, t.2.1, t.2.2])).filterMap id).filter
                (fun x => decide (x ∈ unimp.erase r))).dedup.filter
                  (fun x => decide (x ∉ rest))).Nodup :=
            List.Nodup.filter _ (List.nodup_dedup _)
          have hconnlen : (((((semanticConnectionReferences trips r).flatMap
              (fun t => [t.1, t.2.1, t.2.2])).filterMap id).filter
                (fun x => decide (x ∈ unimp.erase r))).dedup.filter
                  (fun x => decide (x ∉ rest))).length ≤ (unimp.erase r).length :=
            (hconnnd.subperm hconnsub).length_le
          have hnd' : (rest ++ ((((semanticConnectionReferences trips r).flatMap
              (fun t => [t.1, t.2.1, t.2.2])).filterMap id).filter
                (fun x => decide (x ∈ unimp.erase r))).dedup.filter
                  (fun x => decide (x ∉ rest))).Nodup := by
            refine hndrest.append hconnnd ?_
            intro x hx1 hx2
            have := (List.mem_filter.mp hx2).2
            exact absurd hx1 (of_decide_eq_true this)
          have hsub' : (rest ++ ((((semanticConnectionReferences trips r).flatMap
              (fun t => [t.1, t.2.1, t.2.2])).filterMap id).filter
                (fun x => decide (x ∈ unimp.erase r))).dedup.filter
                  (fun x => decide (x ∉ rest))) ⊆ unimp.erase r := by
            intro x hx
            rcases List.mem_append.mp hx with hx | hx
            · exact hsubrest hx
            · exact hconnsub hx
          have hlen' : (unimp.erase r).length ≤ N := by omega
          have hupos : 0 < unimp.length := List.length_pos_of_mem hr
          have hmul : (unimp.length - 1) * (N + 1) = unimp.length * (N + 1) - (N + 1) := by
            rw [Nat.sub_mul, one_mul]
          have humul : N + 1 ≤ unimp.length * (N + 1) :=
            Nat.le_mul_of_pos_left _ hupos
          rw [hlene] at hconnlen
          refine ih _ _ _ s1 hnd' hsub' hunde hlen' ?_ s' err h
          rw [List.length_append, hlene, hmul]
          simp only [List.length_cons] at hfuel
          omega
        · rw [if_neg hr] at h
          simp only [PyOutcome.raised.injEq] at h
          obtain ⟨rfl, rfl⟩ := h
          exact ⟨by decide, by decide⟩

theorem importLoop_allNotSufficient {e : (ConceptLogicEnv Content Data ImplId IdentId)} {trips : List (Ref × Ref × Ref)}
    (hres : ∀ st conns, e.resolveConnections st conns = .error .notSufficient) :
    ∀ (untested : List Ref) (fuel : Nat) (cbr : List (Ref × Nat)) (unimp : List Ref)
      (s : (ConceptLogicState Content ImplId IdentId)), untested.length < fuel →
      importLoop e trips fuel cbr unimp untested s = .ok s cbr := by
  intro untested
  induction untested with
  | nil =>
    intro fuel cbr unimp s hf
    cases fuel with
    | zero => exact absurd hf (Nat.not_lt_zero _)
    | succ f => rfl
  | cons r rest ih =>
    intro fuel cbr unimp s hf
    cases fuel with
    | zero => exact absurd hf (Nat.not_lt_zero _)
    | succ f =>
      have hg : getConceptFromSemanticConnections e
          (importConnections cbr (semanticConnectionReferences trips r)) s =
          .raised s .notSufficient := by
        unfold getConceptFromSemanticConnections
        rw [hres]
      simp only [importLoop]
      rw [hg]
      dsimp only
      rw [if_pos rfl]
      refine ih f cbr unimp s ?_
      simp only [List.length_cons] at hf
      omega

/-!
### Association-list helpers for the round-trip proof
-/

theorem alookup_mem {α : Type u} {β : Type v} [DecidableEq α] {l : List (α × β)}
    {k : α} {v : β} (h : alookup l k = some v) : (k, v) ∈ l := by
  induction l with
  | nil => simp [alookup] at h
  | cons hd tl ih =>
    obtain ⟨a, b⟩ := hd
    unfold alookup at h
    split at h
    · rename_i heq
      subst heq
      obtain rfl : b = v := Option.some.inj h
      exact List.mem_cons_self _ _
    · exact List.mem_cons_of_mem _ (ih h)

theorem alookup_eq_some_of_mem_nodup {α : Type u} {β : Type v} [DecidableEq α]
    {l : List (α × β)} {k : α} {v : β} (hmem : (k, v) ∈ l)
    (hnd : (l.map Prod.fst).Nodup) : alookup l k = some v := by
  induction l with
  | nil => cases hmem
  | cons hd tl ih =>
    obtain ⟨a, b⟩ := hd
    simp only [List.map_cons, List.nodup_cons] at hnd
    rcases List.mem_cons.mp hmem with heq | hmem'
    · cases heq
      simp [alookup]
    · have ha : a ≠ k := by
        rintro rfl
        exact hnd.1 (List.mem_map.mpr ⟨(a, v), hmem', rfl⟩)
      simp only [alookup, if_neg ha]
      exact ih hmem' hnd.2

theorem alookup_eq_none_iff {α : Type u} {β : Type v} [DecidableEq α]
    {l : List (α × β)} {k : α} : alookup l k = none ↔ k ∉ l.map Prod.fst := by
  induction l with
  | nil => simp [alookup]
  | cons hd tl ih =>
    obtain ⟨a, b⟩ := hd
    by_cases ha : a = k
    · subst ha
      simp [alookup]
    · simp [alookup, ha, ih, Ne.symm ha]

theorem aupdate_of_not_mem {α : Type u} {β : Type v} [DecidableEq α]
    {l : List (α × β)} {k : α} (h : alookup l k = none) (v : β) :
    aupdate l k v = l ++ [(k, v)] := by
  induction l with
  | nil => simp [aupdate]
  | cons hd tl ih =>
    obtain ⟨a, b⟩ := hd
    by_cases ha : a = k
    · subst ha
      simp [alookup] at h
    · simp only [alookup, if_neg ha] at h
      simp [aupdate, ha, ih h]

theorem mem_aupdate {α : Type u} {β : Type v} [DecidableEq α]
    (l : List (α × β)) (a : α) (b : β) :
    ∀ p ∈ aupdate l a b, p ∈ l ∨ p = (a, b) := by
  induction l with
  | nil =>
    intro p hp
    simp only [aupdate, List.mem_singleton] at hp
    exact Or.inr hp
  | cons hd tl ih =>
    obtain ⟨x, y⟩ := hd
    intro p hp
    simp only [aupdate] at hp
    split at hp
    · rcases List.mem_cons.mp hp with h | h
      · exact Or.inr h
      · exact Or.inl (List.mem_cons_of_mem _ h)
    · rcases List.mem_cons.mp hp with h | h
      · exact Or.inl (by rw [h]; exact List.mem_cons_self _ _)
      · rcases ih p h with h2 | h2
        · exact Or.inl (List.mem_cons_of_mem _ h2)
        · exact Or.inr h2

section ExportLemmas

theorem mem_connSlots {j : Nat} {conn : SemanticConnection} :
    j ∈ connSlots conn ↔ conn.1 = some j ∨ conn.2.1 = some j ∨ conn.2.2 = some j := by
  simp only [connSlots, List.mem_filterMap, id_eq, List.mem_cons, List.not_mem_nil, or_false]
  constructor
  · rintro ⟨o, ho, hoj⟩
    subst hoj
    rcases ho with h | h | h
    · exact Or.inl h.symm
    · exact Or.inr (Or.inl h.symm)
    · exact Or.inr (Or.inr h.symm)
  · rintro (h | h | h)
    · exact ⟨conn.1, Or.inl rfl, h⟩
    · exact ⟨conn.2.1, Or.inr (Or.inl rfl), h⟩
    · exact ⟨conn.2.2, Or.inr (Or.inr rfl), h⟩

/-- The `Concept.content` property on a resolved concept returns its content
without touching the store. -/
theorem conceptContent_resolved {e : (ConceptLogicEnv Content Data ImplId IdentId)} {k : Nat} {s : (ConceptLogicState Content ImplId IdentId)}
    {rec : ConceptRecord Content ImplId IdentId} {c : Content}
    (hrec : s.concepts[k]? = some rec) (hraw : rec.raw = false)
    (hc : rec.content = some c) : conceptContent e k s = .ok s c := by
  unfold conceptContent
  rw [hrec]
  dsimp only
  rw [hraw, if_neg Bool.false_ne_true, hc]

theorem exportSlot_spec {R : List Nat} {nc : Nat → Ref} {k : Nat}
    {slot : Option Nat} {es : ExportState Data ImplId Ref}
    (hi1 : ∀ p ∈ es.referenceByConcept, p.2 = nc p.1 ∧ p.1 ∈ R)
    (hi2 : (keysOf es).Nodup)
    (hi3 : es.conceptsToExport.Nodup)
    (hi4 : ∀ j ∈ es.conceptsToExport, j ∈ keysOf es)
    (hslot : ∀ j, slot = some j → j ∈ R) :
    (exportSlot nc (nc k) slot es).1 = substSlot nc k slot ∧
    (∀ p ∈ (exportSlot nc (nc k) slot es).2.referenceByConcept, p.2 = nc p.1 ∧ p.1 ∈ R) ∧
    (keysOf (exportSlot nc (nc k) slot es).2).Nodup ∧
    (exportSlot nc (nc k) slot es).2.conceptsToExport.Nodup ∧
    (∀ j ∈ (exportSlot nc (nc k) slot es).2.conceptsToExport,
      j ∈ keysOf (exportSlot nc (nc k) slot es).2) ∧
    (∀ j ∈ keysOf es, j ∈ keysOf (exportSlot nc (nc k) slot es).2) ∧
    (∀ j ∈ keysOf (exportSlot nc (nc k) slot es).2, j ∈ keysOf es ∨ slot = some j) ∧
    (∀ j ∈ es.conceptsToExport, j ∈ (exportSlot nc (nc k) slot es).2.conceptsToExport) ∧
    (∀ j ∈ (exportSlot nc (nc k) slot es).2.conceptsToExport,
      j ∈ es.conceptsToExport ∨ (slot = some j ∧ j ∉ keysOf es)) ∧
    (exportSlot nc (nc k) slot es).2.byteDataInfoByReference =
      es.byteDataInfoByReference ∧
    (exportSlot nc (nc k) slot es).2.referenceTriples = es.referenceTriples ∧
    (∀ j, slot = some j → j ∈ keysOf (exportSlot nc (nc k) slot es).2) ∧
    ((R.length - (keysOf (exportSlot nc (nc k) slot es).2).length) +
        (exportSlot nc (nc k) slot es).2.conceptsToExport.length =
      (R.length - (keysOf es).length) + es.conceptsToExport.length) ∧
    (∀ j ∈ keysOf (exportSlot nc (nc k) slot es).2, j ∉ keysOf es →
      j ∈ (exportSlot nc (nc k) slot es).2.conceptsToExport) := by
  rcases slot with _ | j0
  · exact ⟨rfl, hi1, hi2, hi3, hi4, fun j0 hj => hj, fun j0 hj => Or.inl hj,
      fun j0 hj => hj, fun j0 hj => Or.inl hj, rfl, rfl,
      fun j0 hj => Option.noConfusion hj, rfl,
      fun j0 hj hnj => absurd hj hnj⟩
  · unfold exportSlot
    dsimp only
    cases hmem : alookup es.referenceByConcept j0 with
    | some r =>
      have hr : r = nc j0 := (hi1 _ (alookup_mem hmem)).1
      have hsub : substSlot nc k (some j0) = r := by rw [hr]; rfl
      refine ⟨hsub.symm, hi1, hi2, hi3, hi4, fun x hx => hx, fun x hx => Or.inl hx,
        fun x hx => hx, fun x hx => Or.inl hx, rfl, rfl, ?_, rfl,
        fun x hx hnx => absurd hx hnx⟩
      rintro x hx
      obtain rfl : x = j0 := (Option.some.inj hx).symm
      exact List.mem_map.mpr ⟨(x, r), alookup_mem hmem, rfl⟩
    | none =>
      have hjk : j0 ∉ keysOf es := alookup_eq_none_iff.mp hmem
      have hup : aupdate es.referenceByConcept j0 (nc j0) =
          es.referenceByConcept ++ [(j0, nc j0)] := aupdate_of_not_mem hmem _
      have hkeys : keysOf { es with
          referenceByConcept := aupdate es.referenceByConcept j0 (nc j0)
          conceptsToExport := es.conceptsToExport ++ [j0] } = keysOf es ++ [j0] := by
        simp [keysOf, hup]
      have hjR : j0 ∈ R := hslot j0 rfl
      have hknd : (keysOf es ++ [j0]).Nodup := by
        refine hi2.append (List.nodup_singleton j0) ?_
        intro x hx hx'
        obtain rfl : x = j0 := by simpa using hx'
        exact hjk hx
      have hjw : j0 ∉ es.conceptsToExport := fun hj => hjk (hi4 j0 hj)
      refine ⟨rfl, ?_, ?_, ?_, ?_, ?_, ?_, ?_, ?_, rfl, rfl, ?_, ?_, ?_⟩
      · intro p hp
        rw [hup] at hp
        rcases List.mem_append.mp hp with hp | hp
        · exact hi1 p hp
        · obtain rfl : p = (j0, nc j0) := by simpa using hp
          exact ⟨rfl, hjR⟩
      · rw [hkeys]; exact hknd
      · refine hi3.append (List.nodup_singleton j0) ?_
        intro x hx hx'
        obtain rfl : x = j0 := by simpa using hx'
        exact hjw hx
      · intro x hx
        rw [hkeys]
        rcases List.mem_append.mp hx with hx | hx
        · exact List.mem_append.mpr (Or.inl (hi4 x hx))
        · exact List.mem_append.mpr (Or.inr hx)
      · intro x hx
        rw [hkeys]
        exact List.mem_append.mpr (Or.inl hx)
      · intro x hx
        rw [hkeys] at hx
        rcases List.mem_append.mp hx with hx | hx
        · exact Or.inl hx
        · obtain rfl : x = j0 := by simpa using hx
          exact Or.inr rfl
      · intro x hx
        exact List.mem_append.mpr (Or.inl hx)
      · intro x hx
        rcases List.mem_append.mp hx with hx | hx
        · exact Or.inl hx
        · obtain rfl : x = j0 := by simpa using hx
          exact Or.inr ⟨rfl, hjk⟩
      · rintro x hx
        obtain rfl : x = j0 := (Option.some.inj hx).symm
        rw [hkeys]
        exact List.mem_append.mpr (Or.inr (List.mem_singleton_self x))
      · rw [hkeys]
        have hsubR : keysOf es ++ [j0] ⊆ R := by
          intro x hx
          rcases List.mem_append.mp hx with hx | hx
          · obtain ⟨p, hp, rfl⟩ := List.mem_map.mp hx
            exact (hi1 p hp).2
          · obtain rfl : x = j0 := by simpa using hx
            exact hjR
        have hlenR : (keysOf es ++ [j0]).length ≤ R.length :=
          (hknd.subperm hsubR).length_le
        simp only [List.length_append, List.length_singleton] at hlenR ⊢
        omega
      · intro x hx hnx
        rw [hkeys] at hx
        rcases List.mem_append.mp hx with hx | hx
        · exact absurd hx hnx
        · obtain rfl : x = j0 := by simpa using hx
          exact List.mem_append.mpr (Or.inr (List.mem_singleton_self x))

theorem exportConnection_spec {R : List Nat} {nc : Nat → Ref} {k : Nat}
    {conn : SemanticConnection} {es es' : ExportState Data ImplId Ref}
    (he : exportConnection nc (nc k) conn es = es')
    (hi1 : ∀ p ∈ es.referenceByConcept, p.2 = nc p.1 ∧ p.1 ∈ R)
    (hi2 : (keysOf es).Nodup)
    (hi3 : es.conceptsToExport.Nodup)
    (hi4 : ∀ j ∈ es.conceptsToExport, j ∈ keysOf es)
    (hconn : ∀ j ∈ connSlots conn, j ∈ R) :
    (∀ p ∈ es'.referenceByConcept, p.2 = nc p.1 ∧ p.1 ∈ R) ∧
    (keysOf es').Nodup ∧
    es'.conceptsToExport.Nodup ∧
    (∀ j ∈ es'.conceptsToExport, j ∈ keysOf es') ∧
    (∀ j ∈ keysOf es, j ∈ keysOf es') ∧
    (∀ j ∈ keysOf es', j ∈ keysOf es ∨ j ∈ connSlots conn) ∧
    (∀ j ∈ es.conceptsToExport, j ∈ es'.conceptsToExport) ∧
    (∀ j ∈ es'.conceptsToExport, j ∈ es.conceptsToExport ∨
      (j ∈ connSlots conn ∧ j ∉ keysOf es)) ∧
    es'.byteDataInfoByReference = es.byteDataInfoByReference ∧
    (∀ t ∈ es.referenceTriples, t ∈ es'.referenceTriples) ∧
    (∀ t ∈ es'.referenceTriples, t ∈ es.referenceTriples ∨ t = substTriple nc k conn) ∧
    substTriple nc k conn ∈ es'.referenceTriples ∧
    (∀ j ∈ connSlots conn, j ∈ keysOf es') ∧
    ((R.length - (keysOf es').length) + es'.conceptsToExport.length =
      (R.length - (keysOf es).length) + es.conceptsToExport.length) ∧
    (∀ j ∈ keysOf es', j ∉ keysOf es → j ∈ es'.conceptsToExport) := by
  subst he
  have hs1 : ∀ j, conn.1 = some j → j ∈ R := fun j hj =>
    hconn j (mem_connSlots.mpr (Or.inl hj))
  have hs2 : ∀ j, conn.2.1 = some j → j ∈ R := fun j hj =>
    hconn j (mem_connSlots.mpr (Or.inr (Or.inl hj)))
  have hs3 : ∀ j, conn.2.2 = some j → j ∈ R := fun j hj =>
    hconn j (mem_connSlots.mpr (Or.inr (Or.inr hj)))
  obtain ⟨e1, i1a, i1b, i1c, i1d, m1, c1, wm1, wc1, b1, t1, sa1, u1, nk1⟩ :=
    exportSlot_spec (k := k) hi1 hi2 hi3 hi4 hs1
  obtain ⟨e2, i2a, i2b, i2c, i2d, m2, c2, wm2, wc2, b2, t2, sa2, u2, nk2⟩ :=
    exportSlot_spec (k := k) i1a i1b i1c i1d hs2
  obtain ⟨e3, i3a, i3b, i3c, i3d, m3, c3, wm3, wc3, b3, t3, sa3, u3, nk3⟩ :=
    exportSlot_spec (k := k) i2a i2b i2c i2d hs3
  unfold exportConnection
  dsimp only
  rw [e1, e2, e3]
  have htr : (exportSlot nc (nc k) conn.2.2
      (exportSlot nc (nc k) conn.2.1
        (exportSlot nc (nc k) conn.1 es).2).2).2.referenceTriples =
      es.referenceTriples := by rw [t3, t2, t1]
  have hkeyschar : ∀ j ∈ keysOf (exportSlot nc (nc k) conn.2.2
      (exportSlot nc (nc k) conn.2.1 (exportSlot nc (nc k) conn.1 es).2).2).2,
      j ∈ keysOf es ∨ j ∈ connSlots conn := by
    intro j hj
    rcases c3 j hj with hj2 | hj2
    · rcases c2 j hj2 with hj3 | hj3
      · rcases c1 j hj3 with hj4 | hj4
        · exact Or.inl hj4
        · exact Or.inr (mem_connSlots.mpr (Or.inl hj4))
      · exact Or.inr (mem_connSlots.mpr (Or.inr (Or.inl hj3)))
    · exact Or.inr (mem_connSlots.mpr (Or.inr (Or.inr hj2)))
  have hworkchar : ∀ j ∈ (exportSlot nc (nc k) conn.2.2
      (exportSlot nc (nc k) conn.2.1 (exportSlot nc (nc k) conn.1 es).2).2).2.conceptsToExport,
      j ∈ es.conceptsToExport ∨ (j ∈ connSlots conn ∧ j ∉ keysOf es) := by
    intro j hj
    rcases wc3 j hj with hj2 | hj2
    · rcases wc2 j hj2 with hj3 | hj3
      · rcases wc1 j hj3 with hj4 | hj4
        · exact Or.inl hj4
        · exact Or.inr ⟨mem_connSlots.mpr (Or.inl hj4.1), hj4.2⟩
      · refine Or.inr ⟨mem_connSlots.mpr (Or.inr (Or.inl hj3.1)), fun hk => hj3.2 (m1 j hk)⟩
    · refine Or.inr ⟨mem_connSlots.mpr (Or.inr (Or.inr hj2.1)),
        fun hk => hj2.2 (m2 j (m1 j hk))⟩
  have hslotassign : ∀ j ∈ connSlots conn, j ∈ keysOf (exportSlot nc (nc k) conn.2.2
      (exportSlot nc (nc k) conn.2.1 (exportSlot nc (nc k) conn.1 es).2).2).2 := by
    intro j hj
    rcases mem_connSlots.mp hj with hj | hj | hj
    · exact m3 j (m2 j (sa1 j hj))
    · exact m3 j (sa2 j hj)
    · exact sa3 j hj
  have hbytes : (exportSlot nc (nc k) conn.2.2
      (exportSlot nc (nc k) conn.2.1
        (exportSlot nc (nc k) conn.1 es).2).2).2.byteDataInfoByReference =
      es.byteDataInfoByReference := by rw [b3, b2, b1]
  have hnkC : ∀ j ∈ keysOf (exportSlot nc (nc k) conn.2.2
      (exportSlot nc (nc k) conn.2.1 (exportSlot nc (nc k) conn.1 es).2).2).2,
      j ∉ keysOf es → j ∈ (exportSlot nc (nc k) conn.2.2
        (exportSlot nc (nc k) conn.2.1
          (exportSlot nc (nc k) conn.1 es).2).2).2.conceptsToExport := by
    intro j hj hnj
    by_cases h2 : j ∈ keysOf (exportSlot nc (nc k) conn.2.1
        (exportSlot nc (nc k) conn.1 es).2).2
    · by_cases h1 : j ∈ keysOf (exportSlot nc (nc k) conn.1 es).2
      · exact wm3 j (wm2 j (nk1 j h1 hnj))
      · exact wm3 j (nk2 j h2 h1)
    · exact nk3 j hj h2
  have umeas : (R.length - (keysOf (exportSlot nc (nc k) conn.2.2
      (exportSlot nc (nc k) conn.2.1 (exportSlot nc (nc k) conn.1 es).2).2).2).length) +
      (exportSlot nc (nc k) conn.2.2
        (exportSlot nc (nc k) conn.2.1
          (exportSlot nc (nc k) conn.1 es).2).2).2.conceptsToExport.length =
      (R.length - (keysOf es).length) + es.conceptsToExport.length := by
    rw [u3, u2, u1]
  split
  · rename_i hin
    rw [htr] at hin
    exact ⟨i3a, i3b, i3c, i3d, fun j hj => m3 j (m2 j (m1 j hj)), hkeyschar,
      fun j hj => wm3 j (wm2 j (wm1 j hj)), hworkchar, hbytes,
      fun t ht => htr ▸ ht, fun t ht => Or.inl (htr ▸ ht), htr ▸ hin,
      hslotassign, umeas, hnkC⟩
  · dsimp only
    refine ⟨i3a, i3b, i3c, ?_, fun j hj => m3 j (m2 j (m1 j hj)), hkeyschar,
      fun j hj => wm3 j (wm2 j (wm1 j hj)), hworkchar, hbytes, ?_, ?_, ?_,
      hslotassign, umeas, hnkC⟩
    · intro j hj
      exact i3d j hj
    · intro t ht
      exact List.mem_append.mpr (Or.inl (htr ▸ ht))
    · intro t ht
      rcases List.mem_append.mp ht with ht | ht
      · exact Or.inl (htr ▸ ht)
      · exact Or.inr (by simpa [substTriple] using ht)
    · exact List.mem_append.mpr (Or.inr (List.mem_singleton_self _))

theorem exportConnectionList_spec {R : List Nat} {nc : Nat → Ref} {k : Nat}
    {conns : List SemanticConnection} {es es' : ExportState Data ImplId Ref}
    (he : exportConnectionList nc (nc k) conns es = es')
    (hi1 : ∀ p ∈ es.referenceByConcept, p.2 = nc p.1 ∧ p.1 ∈ R)
    (hi2 : (keysOf es).Nodup)
    (hi3 : es.conceptsToExport.Nodup)
    (hi4 : ∀ j ∈ es.conceptsToExport, j ∈ keysOf es)
    (hconn : ∀ conn ∈ conns, ∀ j ∈ connSlots conn, j ∈ R) :
    (∀ p ∈ es'.referenceByConcept, p.2 = nc p.1 ∧ p.1 ∈ R) ∧
    (keysOf es').Nodup ∧
    es'.conceptsToExport.Nodup ∧
    (∀ j ∈ es'.conceptsToExport, j ∈ keysOf es') ∧
    (∀ j ∈ keysOf es, j ∈ keysOf es') ∧
    (∀ j ∈ keysOf es', j ∈ keysOf es ∨ ∃ conn ∈ conns, j ∈ connSlots conn) ∧
    (∀ j ∈ es.conceptsToExport, j ∈ es'.conceptsToExport) ∧
    (∀ j ∈ es'.conceptsToExport, j ∈ es.conceptsToExport ∨
      ((∃ conn ∈ conns, j ∈ connSlots conn) ∧ j ∉ keysOf es)) ∧
    es'.byteDataInfoByReference = es.byteDataInfoByReference ∧
    (∀ t ∈ es.referenceTriples, t ∈ es'.referenceTriples) ∧
    (∀ t ∈ es'.referenceTriples, t ∈ es.referenceTriples ∨
      ∃ conn ∈ conns, t = substTriple nc k conn) ∧
    (∀ conn ∈ conns, substTriple nc k conn ∈ es'.referenceTriples) ∧
    (∀ conn ∈ conns, ∀ j ∈ connSlots conn, j ∈ keysOf es') ∧
    ((R.length - (keysOf es').length) + es'.conceptsToExport.length =
      (R.length - (keysOf es).length) + es.conceptsToExport.length) ∧
    (∀ j ∈ keysOf es', j ∉ keysOf es → j ∈ es'.conceptsToExport) := by
  induction conns generalizing es with
  | nil =>
    simp only [exportConnectionList] at he
    subst he
    exact ⟨hi1, hi2, hi3, hi4, fun j hj => hj, fun j hj => Or.inl hj,
      fun j hj => hj, fun j hj => Or.inl hj, rfl, fun t ht => ht,
      fun t ht => Or.inl ht, fun conn hc => absurd hc (List.not_mem_nil _),
      fun conn hc => absurd hc (List.not_mem_nil _), rfl,
      fun j hj hnj => absurd hj hnj⟩
  | cons c cs ih =>
    simp only [exportConnectionList] at he
    obtain ⟨g1, g2, g3, g4, gkm, gkc, gwm, gwc, gb, gtm, gtc, gts, gsa, gu, gnk⟩ :=
      exportConnection_spec (k := k) rfl hi1 hi2 hi3 hi4
        (hconn c (List.mem_cons_self _ _))
    obtain ⟨h1, h2, h3, h4, hkm, hkc, hwm, hwc, hb, htm, htc, hts, hsa, hu, hnk⟩ :=
      ih he g1 g2 g3 g4 (fun conn hc => hconn conn (List.mem_cons_of_mem _ hc))
    refine ⟨h1, h2, h3, h4, fun j hj => hkm j (gkm j hj), ?_,
      fun j hj => hwm j (gwm j hj), ?_, hb.trans gb,
      fun t ht => htm t (gtm t ht), ?_, ?_, ?_, hu.trans gu, ?_⟩
    · intro j hj
      rcases hkc j hj with hj2 | ⟨conn, hc, hj2⟩
      · rcases gkc j hj2 with hj3 | hj3
        · exact Or.inl hj3
        · exact Or.inr ⟨c, List.mem_cons_self _ _, hj3⟩
      · exact Or.inr ⟨conn, List.mem_cons_of_mem _ hc, hj2⟩
    · intro j hj
      rcases hwc j hj with hj2 | ⟨⟨conn, hc, hj2⟩, hnk⟩
      · rcases gwc j hj2 with hj3 | ⟨hj3, hnk⟩
        · exact Or.inl hj3
        · exact Or.inr ⟨⟨c, List.mem_cons_self _ _, hj3⟩, hnk⟩
      · exact Or.inr ⟨⟨conn, List.mem_cons_of_mem _ hc, hj2⟩,
          fun h => hnk (gkm j h)⟩
    · intro t ht
      rcases htc t ht with ht2 | ⟨conn, hc, ht2⟩
      · rcases gtc t ht2 with ht3 | ht3
        · exact Or.inl ht3
        · exact Or.inr ⟨c, List.mem_cons_self _ _, ht3⟩
      · exact Or.inr ⟨conn, List.mem_cons_of_mem _ hc, ht2⟩
    · intro conn hc
      rcases List.mem_cons.mp hc with h | h
      · subst h
        exact htm _ gts
      · exact hts conn h
    · intro conn hc
      rcases List.mem_cons.mp hc with h | h
      · subst h
        exact fun j hj => hkm j (gsa j hj)
      · exact hsa conn h
    · intro j hj hnj
      by_cases hg : j ∈ keysOf (exportConnection nc (nc k) c es)
      · exact hwm j (gnk j hg hnj)
      · exact hnk j hj hg

theorem exportLoop_spec {e : (ConceptLogicEnv Content Data ImplId IdentId)} {s0 : (ConceptLogicState Content ImplId IdentId)} {R : List Nat} {nc : Nat → Ref}
    {rank : Nat → Nat} {cOf : Nat → Content} {iOf : Nat → ImplId}
    {isByte : Nat → Bool} {dOf : Nat → Data} {cnOf : Nat → List SemanticConnection}
    (H : RoundTripHyps e s0 R nc rank cOf iOf isByte dOf cnOf) :
    ∀ (fuel : Nat) (es : ExportState Data ImplId Ref),
      ExportInv R nc iOf isByte dOf cnOf es →
      (R.length - (keysOf es).length) + es.conceptsToExport.length + 1 ≤ fuel →
      ∃ esF : ExportState Data ImplId Ref,
        exportLoop e nc fuel es s0 =
          .ok s0 (esF.byteDataInfoByReference, esF.referenceTriples) ∧
        ExportInv R nc iOf isByte dOf cnOf esF ∧
        esF.conceptsToExport = [] ∧
        (∀ j ∈ keysOf es, j ∈ keysOf esF) := by
  intro fuel
  induction fuel with
  | zero =>
    intro es hinv hfuel
    exact (Nat.not_succ_le_zero _ hfuel).elim
  | succ f ih =>
    intro es hinv hfuel
    cases hww : es.conceptsToExport with
    | nil =>
      refine ⟨es, ?_, hinv, hww, fun j hj => hj⟩
      simp only [exportLoop]
      rw [hww]
    | cons k restWork =>
      obtain ⟨v1, v2, v3, v4, v5, v6, v7⟩ := hinv
      have hkw : k ∈ es.conceptsToExport := by
        rw [hww]; exact List.mem_cons_self _ _
      have hkkeys : k ∈ keysOf es := v4 k hkw
      have hkeysR : ∀ x ∈ keysOf es, x ∈ R := by
        intro x hx
        obtain ⟨q, hq, hqx⟩ := List.mem_map.mp hx
        exact hqx ▸ (v1 q hq).2
      have hkR : k ∈ R := hkeysR k hkkeys
      have hpair : (k, nc k) ∈ es.referenceByConcept := by
        obtain ⟨q, hq, hqk⟩ := List.mem_map.mp hkkeys
        have hq2 := (v1 q hq).1
        have hqe : q = (k, nc k) := by
          obtain ⟨a, b⟩ := q
          dsimp only at hqk hq2 ⊢
          rw [hqk] at hq2 ⊢
          rw [hq2]
        rw [hqe] at hq
        exact hq
      have halook : alookup es.referenceByConcept k = some (nc k) :=
        alookup_eq_some_of_mem_nodup hpair v2
      obtain ⟨ido, hrec⟩ := H.arena k hkR
      have hcc : conceptContent e k s0 = .ok s0 (cOf k) :=
        conceptContent_resolved hrec rfl rfl
      have v3' := v3
      rw [hww] at v3'
      have hnd := List.nodup_cons.mp v3'
      have hlw : es.conceptsToExport.length = restWork.length + 1 := by
        rw [hww]; rfl
      simp only [exportLoop]
      rw [hww]
      dsimp only
      rw [halook]
      dsimp only
      rw [hrec]
      dsimp only
      cases hb : isByte k with
      | true =>
        obtain ⟨enc, henc, hencval⟩ := H.byteEnc k hkR hb
        rw [henc]
        dsimp only
        rw [hcc]
        dsimp only
        rw [hencval]
        have hinvB : ExportInv R nc iOf isByte dOf cnOf
            { es with conceptsToExport := restWork
                      byteDataInfoByReference :=
                        aupdate es.byteDataInfoByReference (nc k) (iOf k, dOf k) } := by
          refine ⟨v1, v2, hnd.2, fun j hj => v4 j (by rw [hww]; exact List.mem_cons_of_mem _ hj),
            ?_, ?_, ?_⟩
          · intro k' hk' hk'nw
            by_cases hkk : k' = k
            · subst hkk
              constructor
              · intro _
                exact alookup_aupdate_self _ _ _
              · intro hbf2
                rw [hbf2] at hb
                exact absurd hb Bool.false_ne_true
            · have hk'w : k' ∉ es.conceptsToExport := by
                intro hm
                rw [hww] at hm
                rcases List.mem_cons.mp hm with h | h
                · exact hkk h
                · exact hk'nw h
              obtain ⟨hbyte, hconn5⟩ := v5 k' hk' hk'w
              constructor
              · intro hbt
                have hne : nc k' ≠ nc k := fun hEq =>
                  hkk (H.ncInj k' (hkeysR k' hk') k hkR hEq)
                rw [alookup_aupdate_ne _ _ hne]
                exact hbyte hbt
              · exact hconn5
          · intro p hp
            rcases mem_aupdate _ _ _ p hp with hp2 | rfl
            · obtain ⟨k'', h1, h2, h3, h4⟩ := v6 p hp2
              exact ⟨k'', h1, fun hm => h2 (by rw [hww]; exact List.mem_cons_of_mem _ hm),
                h3, h4⟩
            · exact ⟨k, hkkeys, hnd.1, hb, rfl⟩
          · exact v7
        have hfuelB : (R.length - (keysOf es).length) + restWork.length + 1 ≤ f := by
          omega
        obtain ⟨esF, hrun, hinvF, hwF, hkF⟩ := ih _ hinvB hfuelB
        exact ⟨esF, hrun, hinvF, hwF, fun j hj => hkF j hj⟩
      | false =>
        have hdc := H.connNoByte k hkR hb
        rw [hdc]
        dsimp only
        obtain ⟨F, hF, hFval⟩ := H.connFn k hkR hb
        rw [hF]
        dsimp only
        rw [hcc]
        dsimp only
        rw [hFval]
        have hconnR : ∀ conn ∈ cnOf k, ∀ j ∈ connSlots conn, j ∈ R :=
          fun conn hc j hj => (H.connClosed k hkR hb conn hc j hj).1
        obtain ⟨L1, L2, L3, L4, Lkm, Lkc, Lwm, Lwc, Lb, Ltm, Ltc, Lts, Lsa, Lu, Lnk⟩ :=
          exportConnectionList_spec (R := R)
            (rfl : exportConnectionList nc (nc k) (cnOf k)
              { es with conceptsToExport := restWork } =
              exportConnectionList nc (nc k) (cnOf k)
                { es with conceptsToExport := restWork }) v1 v2 hnd.2
            (fun j hj => v4 j (by rw [hww]; exact List.mem_cons_of_mem _ hj)) hconnR
        have hinv2 : ExportInv R nc iOf isByte dOf cnOf
            (exportConnectionList nc (nc k) (cnOf k)
              { es with conceptsToExport := restWork }) := by
          refine ⟨L1, L2, L3, L4, ?_, ?_, ?_⟩
          · intro k' hk' hk'nw
            by_cases hko : k' ∈ keysOf es
            · by_cases hkk : k' = k
              · subst hkk
                constructor
                · intro hbt
                  rw [hb] at hbt
                  exact absurd hbt Bool.false_ne_true
                · intro _ conn hc
                  exact ⟨Lts conn hc, Lsa conn hc⟩
              · have hk'w : k' ∉ es.conceptsToExport := by
                  intro hm
                  rw [hww] at hm
                  rcases List.mem_cons.mp hm with h | h
                  · exact hkk h
                  · exact hk'nw (Lwm k' h)
                obtain ⟨hbyte, hconn5⟩ := v5 k' hko hk'w
                constructor
                · intro hbt
                  rw [Lb]
                  exact hbyte hbt
                · intro hbf' conn hc
                  obtain ⟨ht, hks⟩ := hconn5 hbf' conn hc
                  exact ⟨Ltm _ ht, fun j hj => Lkm j (hks j hj)⟩
            · exact absurd (Lnk k' hk' hko) hk'nw
          · intro p hp
            rw [Lb] at hp
            obtain ⟨k'', h1, h2, h3, h4⟩ := v6 p hp
            refine ⟨k'', Lkm _ h1, ?_, h3, h4⟩
            intro hm
            rcases Lwc k'' hm with h | h
            · exact h2 (by rw [hww]; exact List.mem_cons_of_mem _ h)
            · exact h.2 h1
          · intro t ht
            rcases Ltc t ht with h | ⟨conn, hc, rfl⟩
            · obtain ⟨k'', conn, ha2, hb2, hc2, hd2⟩ := v7 t h
              exact ⟨k'', conn, Lkm _ ha2, hb2, hc2, hd2⟩
            · exact ⟨k, conn, Lkm _ hkkeys, hb, hc, rfl⟩
        have hk1 : keysOf ({ es with conceptsToExport := restWork } :
            ExportState Data ImplId Ref) = keysOf es := rfl
        have hw1 : ({ es with conceptsToExport := restWork } :
            ExportState Data ImplId Ref).conceptsToExport = restWork := rfl
        rw [hk1, hw1] at Lu
        have hfuel2 : (R.length - (keysOf (exportConnectionList nc (nc k) (cnOf k)
            { es with conceptsToExport := restWork })).length) +
            (exportConnectionList nc (nc k) (cnOf k)
              { es with conceptsToExport := restWork }).conceptsToExport.length + 1 ≤ f := by
          omega
        obtain ⟨esF, hrun, hinvF, hwF, hkF⟩ := ih _ hinv2 hfuel2
        exact ⟨esF, hrun, hinvF, hwF, fun j hj => hkF j (Lkm j hj)⟩

end ExportLemmas

section ImportRunLemmas

theorem getImplementationDicts_import {e : (ConceptLogicEnv Content Data ImplId IdentId)} {i : ImplId} {st : (ConceptLogicState Content ImplId IdentId)}
    (hstore : StoreInv st)
    (hsup : (e.impls i).implementationSupported ≠ some false) :
    ∃ st1 : (ConceptLogicState Content ImplId IdentId),
      getImplementationDicts e i st = .ok st1 () ∧
      StoreInv st1 ∧
      st1.concepts = st.concepts ∧
      st1.nonRawImplementations = st.nonRawImplementations ∧
      alookup st1.loadedConcepts i = some ((alookup st.loadedConcepts i).getD []) ∧
      (∀ i', i' ≠ i → alookup st1.loadedConcepts i' = alookup st.loadedConcepts i') ∧
      (∀ i', i' ≠ i →
        alookup st1.identifiedConcepts i' = alookup st.identifiedConcepts i') ∧
      (alookup st1.identifiedConcepts i).isSome := by
  obtain ⟨hJ1, hJ2, hJ3⟩ := hstore
  cases hid : alookup st.identifiedConcepts i with
  | some di =>
    have hls : (alookup st.loadedConcepts i).isSome := (hJ3 i).mp (by rw [hid]; rfl)
    obtain ⟨dl, hdl⟩ := Option.isSome_iff_exists.mp hls
    refine ⟨st, ?_, ⟨hJ1, hJ2, hJ3⟩, rfl, rfl, ?_, fun i' _ => rfl, fun i' _ => rfl, ?_⟩
    · unfold getImplementationDicts
      rw [hid, hdl]
    · rw [hdl]
      rfl
    · rw [hid]
      rfl
  | none =>
    have hld : alookup st.loadedConcepts i = none := by
      cases hld : alookup st.loadedConcepts i with
      | none => rfl
      | some d =>
        have := (hJ3 i).mpr (by rw [hld]; rfl)
        rw [hid] at this
        exact absurd this (by simp)
    refine ⟨{ st with identifiedConcepts := aupdate st.identifiedConcepts i []
                      loadedConcepts := aupdate st.loadedConcepts i [] },
      ?_, ⟨?_, ?_, ?_⟩, rfl, rfl, ?_, ?_, ?_, ?_⟩
    · unfold getImplementationDicts
      rw [hid, hld]
      dsimp only
      rw [if_neg hsup]
    · intro i' d hd
      by_cases hii : i' = i
      · subst hii
        rw [alookup_aupdate_self] at hd
        exact (Option.some.inj hd).symm
      · rw [alookup_aupdate_ne _ _ hii] at hd
        exact hJ1 i' d hd
    · intro i' d c k hd hc
      by_cases hii : i' = i
      · subst hii
        rw [alookup_aupdate_self] at hd
        obtain rfl : ([] : List (Content × Nat)) = d := Option.some.inj hd
        simp [alookup] at hc
      · rw [alookup_aupdate_ne _ _ hii] at hd
        exact hJ2 i' d c k hd hc
    · intro i'
      by_cases hii : i' = i
      · subst hii
        rw [alookup_aupdate_self, alookup_aupdate_self]
        exact Iff.rfl
      · rw [alookup_aupdate_ne _ _ hii, alookup_aupdate_ne _ _ hii]
        exact hJ3 i'
    · rw [alookup_aupdate_self, hld]
      rfl
    · intro i' hii
      exact alookup_aupdate_ne _ _ hii
    · intro i' hii
      exact alookup_aupdate_ne _ _ hii
    · rw [alookup_aupdate_self]
      rfl

theorem nonRawStep_import {e : (ConceptLogicEnv Content Data ImplId IdentId)} {i : ImplId} {st1 : (ConceptLogicState Content ImplId IdentId)}
    (hstore1 : StoreInv st1) :
    ∃ st2 : (ConceptLogicState Content ImplId IdentId),
      nonRawStep e i st1 = .ok st2 () ∧
      st2.concepts = st1.concepts ∧
      st2.loadedConcepts = st1.loadedConcepts ∧
      st2.identifiedConcepts = st1.identifiedConcepts := by
  unfold nonRawStep
  split
  · exact ⟨st1, rfl, rfl, rfl, rfl⟩
  · have hids : ((alookup st1.identifiedConcepts i).getD []) = [] := by
      cases hid : alookup st1.identifiedConcepts i with
      | none => rfl
      | some d => simpa using hstore1.1 i d hid
    rw [hids]
    simp only [List.map_nil, forceLoadIdentified]
    exact ⟨_, rfl, rfl, rfl, rfl⟩

theorem storeInv_fields_congr {st st' : (ConceptLogicState Content ImplId IdentId)}
    (hstore : StoreInv st)
    (hc : st'.concepts = st.concepts)
    (hl : st'.loadedConcepts = st.loadedConcepts)
    (hi : st'.identifiedConcepts = st.identifiedConcepts) : StoreInv st' := by
  obtain ⟨hJ1, hJ2, hJ3⟩ := hstore
  refine ⟨?_, ?_, ?_⟩
  · rw [hi]; exact hJ1
  · rw [hl, hc]; exact hJ2
  · rw [hl, hi]; exact hJ3

theorem getConceptFromContent_import {e : (ConceptLogicEnv Content Data ImplId IdentId)} {i : ImplId} {c : Content}
    {st : (ConceptLogicState Content ImplId IdentId)} {v : Content → Bool}
    (hstore : StoreInv st)
    (hv : (e.impls i).contentValid = some v) (hvc : v c = true)
    (hsup : (e.impls i).implementationSupported ≠ some false) :
    ∃ (st' : (ConceptLogicState Content ImplId IdentId)) (k' : Nat),
      getConceptFromContent e i c st = .ok st' k' ∧
      StoreInv st' ∧
      (∃ rec, st'.concepts[k']? = some rec ∧ rec.implementation = i ∧
        rec.content = some c) ∧
      (∀ (j : Nat) (rec : ConceptRecord Content ImplId IdentId),
        st.concepts[j]? = some rec → st'.concepts[j]? = some rec) := by
  obtain ⟨st1, hgid, hstore1, hc1, hn1, hl1, hl1', hi1', hid1⟩ :=
    getImplementationDicts_import (e := e) hstore hsup
  obtain ⟨st2, hnrs, hc2, hl2, hi2⟩ := nonRawStep_import (e := e) (i := i) hstore1
  have hstore2 : StoreInv st2 := storeInv_fields_congr hstore1 hc2 hl2 hi2
  have hc20 : st2.concepts = st.concepts := by rw [hc2, hc1]
  have hl2i : alookup st2.loadedConcepts i =
      some ((alookup st.loadedConcepts i).getD []) := by rw [hl2]; exact hl1
  have hdl0 : ∀ c'' k'', alookup ((alookup st.loadedConcepts i).getD []) c'' = some k'' →
      ∃ rec, st.concepts[k'']? = some rec ∧ rec.implementation = i ∧
        rec.content = some c'' := by
    intro c'' k'' h
    cases hstl : alookup st.loadedConcepts i with
    | none =>
      rw [hstl] at h
      simp [alookup] at h
    | some d =>
      rw [hstl] at h
      simp only [Option.getD_some] at h
      exact hstore.2.1 i d c'' k'' hstl h
  unfold getConceptFromContent
  rw [hv]
  dsimp only
  rw [hvc]
  rw [if_neg (fun h => Bool.noConfusion h)]
  rw [hgid]
  dsimp only
  rw [hnrs]
  dsimp only
  rw [hl2i]
  simp only [Option.getD_some]
  cases hlk : alookup ((alookup st.loadedConcepts i).getD []) c with
  | some k' =>
    dsimp only
    refine ⟨st2, k', rfl, hstore2, ?_, ?_⟩
    · obtain ⟨rec, hrec, hreci, hrecc⟩ := hdl0 c k' hlk
      exact ⟨rec, by rw [hc20]; exact hrec, hreci, hrecc⟩
    · intro j rec hj
      rw [hc20]
      exact hj
  | none =>
    dsimp only
    unfold conceptInit
    dsimp only
    simp only [conceptRegisterIdentity]
    rw [if_neg Bool.false_ne_true]
    rw [hl2i]
    dsimp only
    rw [hlk]
    simp only [Option.isSome_none]
    rw [if_neg Bool.false_ne_true]
    have hInv : StoreInv { st2 with
        concepts := st2.concepts ++
          [{ implementation := i, content := some c
             identity := (none : Option IdentId), raw := false }]
        loadedConcepts := aupdate st2.loadedConcepts i
          (aupdate ((alookup st.loadedConcepts i).getD []) c st2.concepts.length) } := by
      refine ⟨?_, ?_, ?_⟩
      · intro i' d hd
        exact hstore2.1 i' d hd
      · intro i' d' c'' k'' hd' hc''
        by_cases hii : i' = i
        · subst hii
          rw [alookup_aupdate_self] at hd'
          obtain rfl := (Option.some.inj hd').symm
          by_cases hcc : c'' = c
          · subst hcc
            rw [alookup_aupdate_self] at hc''
            obtain rfl : st2.concepts.length = k'' := Option.some.inj hc''
            exact ⟨_, List.getElem?_concat_length _ _, rfl, rfl⟩
          · rw [alookup_aupdate_ne _ _ hcc] at hc''
            obtain ⟨rec, hrec, hreci, hrecc⟩ := hdl0 c'' k'' hc''
            have hlt : k'' < st2.concepts.length := by
              rw [hc20]
              exact (List.getElem?_eq_some.mp hrec).1
            refine ⟨rec, ?_, hreci, hrecc⟩
            rw [List.getElem?_append_left hlt, hc20]
            exact hrec
        · rw [alookup_aupdate_ne _ _ hii, hl2] at hd'
          rw [hl1' i' hii] at hd'
          obtain ⟨rec, hrec, hreci, hrecc⟩ := hstore.2.1 i' d' c'' k'' hd' hc''
          have hlt : k'' < st2.concepts.length := by
            rw [hc20]
            exact (List.getElem?_eq_some.mp hrec).1
          refine ⟨rec, ?_, hreci, hrecc⟩
          rw [List.getElem?_append_left hlt, hc20]
          exact hrec
      · intro i'
        by_cases hii : i' = i
        · subst hii
          rw [alookup_aupdate_self]
          constructor
          · intro _
            rfl
          · intro _
            rw [hi2]
            exact hid1
        · rw [alookup_aupdate_ne _ _ hii]
          exact hstore2.2.2 i'
    have hRec : ∃ rec, ((st2.concepts ++
          [{ implementation := i, content := some c
             identity := (none : Option IdentId), raw := false }] :
            List (ConceptRecord Content ImplId IdentId))[st2.concepts.length]?) =
          some rec ∧ rec.implementation = i ∧ rec.content = some c :=
      ⟨_, List.getElem?_concat_length _ _, rfl, rfl⟩
    have hExt : ∀ (j : Nat) (rec : ConceptRecord Content ImplId IdentId),
        st.concepts[j]? = some rec →
        ((st2.concepts ++
          [{ implementation := i, content := some c
             identity := (none : Option IdentId), raw := false }] :
            List (ConceptRecord Content ImplId IdentId))[j]?) = some rec := by
      intro j rec hj
      have hlt : j < st2.concepts.length := by
        rw [hc20]
        exact (List.getElem?_eq_some.mp hj).1
      rw [List.getElem?_append_left hlt, hc20]
      exact hj
    split
    · exact ⟨_, _, rfl, hInv, hRec, hExt⟩
    · exact ⟨_, _, rfl, hInv, hRec, hExt⟩

theorem getConceptFromData_import {e : (ConceptLogicEnv Content Data ImplId IdentId)} {i : ImplId} {d : Data} {c : Content}
    {st : (ConceptLogicState Content ImplId IdentId)} {dec : Data → Content} {v : Content → Bool}
    (hdec : (e.impls i).getContentFromData = some dec) (hdval : dec d = c)
    (hstore : StoreInv st)
    (hv : (e.impls i).contentValid = some v) (hvc : v c = true)
    (hsup : (e.impls i).implementationSupported ≠ some false) :
    ∃ (st' : (ConceptLogicState Content ImplId IdentId)) (k' : Nat),
      getConceptFromData e i d st = .ok st' k' ∧
      StoreInv st' ∧
      (∃ rec, st'.concepts[k']? = some rec ∧ rec.implementation = i ∧
        rec.content = some c) ∧
      (∀ (j : Nat) (rec : ConceptRecord Content ImplId IdentId),
        st.concepts[j]? = some rec → st'.concepts[j]? = some rec) := by
  unfold getConceptFromData
  rw [hdec]
  dsimp only
  rw [hdval]
  exact getConceptFromContent_import hstore hv hvc hsup

theorem importBytePhase_spec {e : (ConceptLogicEnv Content Data ImplId IdentId)} {R : List Nat} {nc : Nat → Ref}
    {cOf : Nat → Content} {iOf : Nat → ImplId} {isByte : Nat → Bool} {dOf : Nat → Data}
    (hbyteDec : ∀ k ∈ R, isByte k = true →
      ∃ dec, (e.impls (iOf k)).getContentFromData = some dec ∧ dec (dOf k) = cOf k)
    (hvalid : ∀ k ∈ R, ∃ v, (e.impls (iOf k)).contentValid = some v ∧ v (cOf k) = true)
    (hsup : ∀ k ∈ R, (e.impls (iOf k)).implementationSupported ≠ some false) :
    ∀ (bs : List (Ref × ImplId × Data)) (cbr : List (Ref × Nat)) (unimp : List Ref)
      (st : (ConceptLogicState Content ImplId IdentId)),
      (∀ p ∈ bs, ∃ k, k ∈ R ∧ isByte k = true ∧ p = (nc k, iOf k, dOf k)) →
      StoreInv st →
      unimp.Nodup →
      ∃ (st' : (ConceptLogicState Content ImplId IdentId)) (cbr' : List (Ref × Nat)) (unimp' : List Ref),
        importBytePhase e bs cbr unimp st = .ok st' (cbr', unimp') ∧
        StoreInv st' ∧
        (∀ (j : Nat) (rec : ConceptRecord Content ImplId IdentId),
          st.concepts[j]? = some rec → st'.concepts[j]? = some rec) ∧
        unimp'.Nodup ∧
        (∀ r ∈ unimp', r ∈ unimp) ∧
        (∀ r ∈ unimp, r ∉ bs.map (fun p => p.1) → r ∈ unimp') ∧
        (∀ r ∈ unimp', r ∉ bs.map (fun p => p.1)) ∧
        (∀ (r : Ref) (k' : Nat), alookup cbr' r = some k' → alookup cbr r = some k' ∨
          ∃ k, k ∈ R ∧ isByte k = true ∧ r = nc k ∧
            ∃ rec, st'.concepts[k']? = some rec ∧ rec.implementation = iOf k ∧
              rec.content = some (cOf k)) ∧
        (∀ p ∈ bs, (alookup cbr' p.1).isSome) ∧
        (∀ r : Ref, (alookup cbr r).isSome → (alookup cbr' r).isSome) := by
  intro bs
  induction bs with
  | nil =>
    intro cbr unimp st hbs hstore hnd
    exact ⟨st, cbr, unimp, rfl, hstore, fun j rec hj => hj, hnd,
      fun r hr => hr, fun r hr _ => hr, fun r hr => List.not_mem_nil _,
      fun r k' h => Or.inl h, fun p hp => absurd hp (List.not_mem_nil _),
      fun r h => h⟩
  | cons b rest ih =>
    intro cbr unimp st hbs hstore hnd
    obtain ⟨r0, i0, d0⟩ := b
    obtain ⟨k0, hk0R, hk0b, heq⟩ := hbs _ (List.mem_cons_self _ _)
    simp only [Prod.mk.injEq] at heq
    obtain ⟨rfl, rfl, rfl⟩ := heq
    obtain ⟨dec, hdec, hdval⟩ := hbyteDec k0 hk0R hk0b
    obtain ⟨v, hv, hvc⟩ := hvalid k0 hk0R
    obtain ⟨st1, k', hrun, hstore1, ⟨rec1, hrec1, hrec1i, hrec1c⟩, hext1⟩ :=
      getConceptFromData_import hdec hdval hstore hv hvc (hsup k0 hk0R)
    simp only [importBytePhase]
    rw [hrun]
    dsimp only
    have hnd1 : (if nc k0 ∈ unimp then unimp.erase (nc k0) else unimp).Nodup := by
      split
      · exact hnd.erase _
      · exact hnd
    obtain ⟨stF, cbrF, unimpF, hrunF, hstoreF, hextF, hndF, hsubF, hkeepF, hnobF,
        hcbrF, hbsF, hmonoF⟩ :=
      ih (aupdate cbr (nc k0) k') (if nc k0 ∈ unimp then unimp.erase (nc k0) else unimp)
        st1 (fun p hp => hbs p (List.mem_cons_of_mem _ hp)) hstore1 hnd1
    have hr0out : nc k0 ∉ (if nc k0 ∈ unimp then unimp.erase (nc k0) else unimp) := by
      split
      · exact hnd.not_mem_erase
      · rename_i h
        exact h
    refine ⟨stF, cbrF, unimpF, hrunF, hstoreF,
      fun j rec hj => hextF j rec (hext1 j rec hj), hndF, ?_, ?_, ?_, ?_, ?_, ?_⟩
    · intro r hr
      have := hsubF r hr
      split at this
      · exact List.mem_of_mem_erase this
      · exact this
    · intro r hr hnb
      simp only [List.map_cons, List.mem_cons] at hnb
      push_neg at hnb
      refine hkeepF r ?_ ?_
      · split
        · exact (List.mem_erase_of_ne hnb.1).mpr hr
        · exact hr
      · simpa using hnb.2
    · intro r hr
      simp only [List.map_cons, List.mem_cons]
      push_neg
      constructor
      · intro hre
        subst hre
        exact hr0out (hsubF _ hr)
      · simpa using hnobF r hr
    · intro r k'' h
      rcases hcbrF r k'' h with h2 | h2
      · by_cases hrr : r = nc k0
        · subst hrr
          rw [alookup_aupdate_self] at h2
          obtain rfl : k' = k'' := Option.some.inj h2
          refine Or.inr ⟨k0, hk0R, hk0b, rfl, rec1, hextF _ _ hrec1, hrec1i, hrec1c⟩
        · rw [alookup_aupdate_ne _ _ hrr] at h2
          exact Or.inl h2
      · exact Or.inr h2
    · intro p hp
      rcases List.mem_cons.mp hp with hp2 | hp2
      · subst hp2
        refine hmonoF _ ?_
        rw [alookup_aupdate_self]
        rfl
      · exact hbsF p hp2
    · intro r h
      exact hmonoF r (alookup_aupdate_isSome _ h)

theorem oneHole_cases {conn : SemanticConnection} (h : oneHole conn) :
    (conn.1 = none ∧ (∃ x, conn.2.1 = some x) ∧ (∃ y, conn.2.2 = some y)) ∨
    ((∃ x, conn.1 = some x) ∧ conn.2.1 = none ∧ (∃ y, conn.2.2 = some y)) ∨
    ((∃ x, conn.1 = some x) ∧ (∃ y, conn.2.1 = some y) ∧ conn.2.2 = none) := by
  obtain ⟨a, b, c⟩ := conn
  rcases a with _ | x <;> rcases b with _ | y <;> rcases c with _ | z <;>
    simp [oneHole, List.filter] at h ⊢

theorem mem_semanticConnectionReferences {trips : List (Ref × Ref × Ref)} {r : Ref}
    {tp : Option Ref × Option Ref × Option Ref} :
    tp ∈ semanticConnectionReferences trips r ↔
      ∃ t ∈ trips,
        (t.1 = r ∧ tp = (none, some t.2.1, some t.2.2)) ∨
        (t.2.1 = r ∧ tp = (some t.1, none, some t.2.2)) ∨
        (t.2.2 = r ∧ tp = (some t.1, some t.2.1, none)) := by
  unfold semanticConnectionReferences
  rw [List.mem_dedup]
  simp only [List.mem_append, List.mem_map, List.mem_filter, decide_eq_true_eq]
  constructor
  · rintro ((⟨t, ⟨ht, hr⟩, rfl⟩ | ⟨t, ⟨ht, hr⟩, rfl⟩) | ⟨t, ⟨ht, hr⟩, rfl⟩)
    · exact ⟨t, ht, Or.inl ⟨hr, rfl⟩⟩
    · exact ⟨t, ht, Or.inr (Or.inl ⟨hr, rfl⟩)⟩
    · exact ⟨t, ht, Or.inr (Or.inr ⟨hr, rfl⟩)⟩
  · rintro ⟨t, ht, (⟨hr, rfl⟩ | ⟨hr, rfl⟩ | ⟨hr, rfl⟩)⟩
    · exact Or.inl (Or.inl ⟨t, ⟨ht, hr⟩, rfl⟩)
    · exact Or.inl (Or.inr ⟨t, ⟨ht, hr⟩, rfl⟩)
    · exact Or.inr ⟨t, ⟨ht, hr⟩, rfl⟩

theorem mem_importConnections {cbr : List (Ref × Nat)}
    {scr : List (Option Ref × Option Ref × Option Ref)} {conn : SemanticConnection} :
    conn ∈ importConnections cbr scr ↔
      ∃ tp ∈ scr, resolveSlotRef cbr tp.1 = some conn.1 ∧
        resolveSlotRef cbr tp.2.1 = some conn.2.1 ∧
        resolveSlotRef cbr tp.2.2 = some conn.2.2 := by
  unfold importConnections
  rw [List.mem_dedup, List.mem_filterMap]
  constructor
  · rintro ⟨tp, htp, hf⟩
    try dsimp only at hf
    cases h1 : resolveSlotRef cbr tp.1 <;>
      cases h2 : resolveSlotRef cbr tp.2.1 <;>
      cases h3 : resolveSlotRef cbr tp.2.2 <;>
      rw [h1, h2, h3] at hf <;> try dsimp only at hf
    all_goals first
      | (obtain rfl := Option.some.inj hf; exact ⟨tp, htp, h1, h2, h3⟩)
      | exact absurd hf (by simp)
  · rintro ⟨tp, htp, h1, h2, h3⟩
    refine ⟨tp, htp, ?_⟩
    dsimp only
    rw [h1, h2, h3]

theorem mem_patternsAt {st : (ConceptLogicState Content ImplId IdentId)} {T : List SemanticConnection}
    {p : Option Content × Option Content × Option Content} :
    p ∈ patternsAt st T ↔ ∃ conn ∈ T, connPatternAt st conn = some p :=
  List.mem_filterMap

theorem import_survivors_char {e : (ConceptLogicEnv Content Data ImplId IdentId)} {s0 : (ConceptLogicState Content ImplId IdentId)} {R : List Nat} {nc : Nat → Ref}
    {rank : Nat → Nat} {cOf : Nat → Content} {iOf : Nat → ImplId}
    {isByte : Nat → Bool} {dOf : Nat → Data} {cnOf : Nat → List SemanticConnection}
    (H : RoundTripHyps e s0 R nc rank cOf iOf isByte dOf cnOf)
    {E : List Nat} {tripsF : List (Ref × Ref × Ref)}
    (hER : ∀ k ∈ E, k ∈ R)
    (htrip : ∀ t ∈ tripsF, ∃ k conn, k ∈ E ∧ isByte k = false ∧ conn ∈ cnOf k ∧
      t = substTriple nc k conn)
    {cbr : List (Ref × Nat)} {unimp : List Ref} {st : (ConceptLogicState Content ImplId IdentId)}
    (hI5 : ∀ k ∈ E, nc k ∉ unimp → ∃ k', alookup cbr (nc k) = some k' ∧
      ∃ rec, st.concepts[k']? = some rec ∧ rec.implementation = iOf k ∧
        rec.content = some (cOf k))
    (hI6 : ∀ (r : Ref) (k' : Nat), alookup cbr r = some k' →
      ∃ k, k ∈ E ∧ r = nc k ∧ nc k ∉ unimp)
    (hI9 : ∀ k ∈ E, isByte k = false → nc k ∉ unimp →
      ∀ conn ∈ cnOf k, ∀ j ∈ connSlots conn, nc j ∉ unimp)
    {k0 : Nat} (hk0E : k0 ∈ E) (hk0u : nc k0 ∈ unimp) :
    ∀ conn' ∈ importConnections cbr (semanticConnectionReferences tripsF (nc k0)),
      ∃ conn2, conn2 ∈ cnOf k0 ∧
        connPatternAt st conn' = some (connContentOf cOf conn2) ∧
        ∀ j ∈ connSlots conn2, nc j ∉ unimp := by
  intro conn' hconn'
  obtain ⟨tp, htp, h1, h2, h3⟩ := mem_importConnections.mp hconn'
  obtain ⟨t, ht, hcase⟩ := mem_semanticConnectionReferences.mp htp
  obtain ⟨k1, conn1, hk1E, hk1b, hc1, rfl⟩ := htrip t ht
  have hk1R : k1 ∈ R := hER k1 hk1E
  have hk0R : k0 ∈ R := hER k0 hk0E
  have hslotsR : ∀ j ∈ connSlots conn1, j ∈ R := fun j hj =>
    (H.connClosed k1 hk1R hk1b conn1 hc1 j hj).1
  have hres : ∀ (j : Nat), j ∈ R → ∀ (oj : Option Nat),
      resolveSlotRef cbr (some (nc j)) = some oj →
      nc j ∉ unimp ∧ j ∈ E ∧ ∃ kj, oj = some kj ∧
        ∃ rec, st.concepts[kj]? = some rec ∧ rec.implementation = iOf j ∧
          rec.content = some (cOf j) := by
    intro j hjR oj hoj
    simp only [resolveSlotRef] at hoj
    cases halo : alookup cbr (nc j) with
    | none =>
      rw [halo] at hoj
      simp at hoj
    | some kj =>
      rw [halo] at hoj
      simp only [Option.map_some'] at hoj
      obtain rfl : some kj = oj := Option.some.inj hoj
      obtain ⟨k2, hk2E, hr, hnu⟩ := hI6 _ _ halo
      have hjk2 : j = k2 := H.ncInj j hjR k2 (hER k2 hk2E) hr
      subst hjk2
      obtain ⟨k'', halo2, rec, hrec, hreci, hrecc⟩ := hI5 j hk2E hnu
      rw [halo] at halo2
      obtain rfl : kj = k'' := Option.some.inj halo2
      exact ⟨hnu, hk2E, kj, rfl, rec, hrec, hreci, hrecc⟩
  have howner : (alookup cbr (nc k1)).isSome → k0 ∈ connSlots conn1 → False := by
    intro hsome hk0S
    obtain ⟨kk, halo⟩ := Option.isSome_iff_exists.mp hsome
    obtain ⟨k2, hk2E, hr, hnu⟩ := hI6 _ _ halo
    have hnk1 : nc k1 ∉ unimp := hr ▸ hnu
    exact (hI9 k1 hk1E hk1b hnk1 conn1 hc1 k0 hk0S) hk0u
  have hsomeOf : ∀ (oc : Option Nat), resolveSlotRef cbr (some (nc k1)) = some oc →
      (alookup cbr (nc k1)).isSome := by
    intro oc hoc
    simp only [resolveSlotRef] at hoc
    cases halo : alookup cbr (nc k1) with
    | none =>
      rw [halo] at hoc
      simp at hoc
    | some kk => rfl
  simp only [substTriple] at hcase
  rcases oneHole_cases (H.connHole k1 hk1R hk1b conn1 hc1) with
      ⟨hn1, ⟨y, hy⟩, ⟨z, hz⟩⟩ | ⟨⟨x, hx⟩, hn2, ⟨z, hz⟩⟩ | ⟨⟨x, hx⟩, ⟨y, hy⟩, hn3⟩
  · -- hole in the first position
    rcases hcase with ⟨hpos, htpEq⟩ | ⟨hpos, htpEq⟩ | ⟨hpos, htpEq⟩
    · -- the popped reference sits at the hole: this is an own triple of k0
      have hkk : k1 = k0 := by
        refine H.ncInj k1 hk1R k0 hk0R ?_
        rw [hn1] at hpos
        exact hpos
      subst hkk
      rw [hy, hz] at htpEq
      simp only [substSlot] at htpEq
      subst htpEq
      have hc'1 : conn'.1 = none := by
        simp only [resolveSlotRef] at h1
        exact (Option.some.inj h1).symm
      obtain ⟨hyu, hyE, ky, hky, recy, hrecy, hrecyi, hrecyc⟩ :=
        hres y (hslotsR y (mem_connSlots.mpr (Or.inr (Or.inl hy)))) _ h2
      obtain ⟨hzu, hzE, kz, hkz, recz, hrecz, hreczi, hreczc⟩ :=
        hres z (hslotsR z (mem_connSlots.mpr (Or.inr (Or.inr hz)))) _ h3
      refine ⟨conn1, hc1, ?_, ?_⟩
      · have e1 : slotPatternAt st conn'.1 = some none := by
          rw [hc'1]
          rfl
        have e2 : slotPatternAt st conn'.2.1 = some (some (cOf y)) := by
          rw [hky]
          simp [slotPatternAt, hrecy, hrecyc]
        have e3 : slotPatternAt st conn'.2.2 = some (some (cOf z)) := by
          rw [hkz]
          simp [slotPatternAt, hrecz, hreczc]
        unfold connPatternAt
        rw [e1, e2, e3]
        unfold connContentOf
        rw [hn1, hy, hz]
        rfl
      · intro j hj
        rcases mem_connSlots.mp hj with hj2 | hj2 | hj2
        · rw [hn1] at hj2
          exact Option.noConfusion hj2
        · rw [hy] at hj2
          obtain rfl : y = j := Option.some.inj hj2
          exact hyu
        · rw [hz] at hj2
          obtain rfl : z = j := Option.some.inj hj2
          exact hzu
    · -- the popped reference sits at an occupied slot: the owner would have to
      -- be imported already, contradicting downward closure
      exfalso
      rw [hy] at hpos
      simp only [substSlot] at hpos
      have hyk0 : y = k0 :=
        H.ncInj y (hslotsR y (mem_connSlots.mpr (Or.inr (Or.inl hy)))) k0 hk0R hpos
      subst hyk0
      rw [hn1] at htpEq
      simp only [substSlot] at htpEq
      subst htpEq
      exact howner (hsomeOf _ h1) (mem_connSlots.mpr (Or.inr (Or.inl hy)))
    · exfalso
      rw [hz] at hpos
      simp only [substSlot] at hpos
      have hzk0 : z = k0 :=
        H.ncInj z (hslotsR z (mem_connSlots.mpr (Or.inr (Or.inr hz)))) k0 hk0R hpos
      subst hzk0
      rw [hn1] at htpEq
      simp only [substSlot] at htpEq
      subst htpEq
      exact howner (hsomeOf _ h1) (mem_connSlots.mpr (Or.inr (Or.inr hz)))
  · -- hole in the second position
    rcases hcase with ⟨hpos, htpEq⟩ | ⟨hpos, htpEq⟩ | ⟨hpos, htpEq⟩
    · exfalso
      rw [hx] at hpos
      simp only [substSlot] at hpos
      have hxk0 : x = k0 :=
        H.ncInj x (hslotsR x (mem_connSlots.mpr (Or.inl hx))) k0 hk0R hpos
      subst hxk0
      rw [hn2] at htpEq
      simp only [substSlot] at htpEq
      subst htpEq
      exact howner (hsomeOf _ h2) (mem_connSlots.mpr (Or.inl hx))
    · have hkk : k1 = k0 := by
        refine H.ncInj k1 hk1R k0 hk0R ?_
        rw [hn2] at hpos
        exact hpos
      subst hkk
      rw [hx, hz] at htpEq
      simp only [substSlot] at htpEq
      subst htpEq
      have hc'2 : conn'.2.1 = none := by
        simp only [resolveSlotRef] at h2
        exact (Option.some.inj h2).symm
      obtain ⟨hxu, hxE, kx, hkx, recx, hrecx, hrecxi, hrecxc⟩ :=
        hres x (hslotsR x (mem_connSlots.mpr (Or.inl hx))) _ h1
      obtain ⟨hzu, hzE, kz, hkz, recz, hrecz, hreczi, hreczc⟩ :=
        hres z (hslotsR z (mem_connSlots.mpr (Or.inr (Or.inr hz)))) _ h3
      refine ⟨conn1, hc1, ?_, ?_⟩
      · have e1 : slotPatternAt st conn'.1 = some (some (cOf x)) := by
          rw [hkx]
          simp [slotPatternAt, hrecx, hrecxc]
        have e2 : slotPatternAt st conn'.2.1 = some none := by
          rw [hc'2]
          rfl
        have e3 : slotPatternAt st conn'.2.2 = some (some (cOf z)) := by
          rw [hkz]
          simp [slotPatternAt, hrecz, hreczc]
        unfold connPatternAt
        rw [e1, e2, e3]
        unfold connContentOf
        rw [hn2, hx, hz]
        rfl
      · intro j hj
        rcases mem_connSlots.mp hj with hj2 | hj2 | hj2
        · rw [hx] at hj2
          obtain rfl : x = j := Option.some.inj hj2
          exact hxu
        · rw [hn2] at hj2
          exact Option.noConfusion hj2
        · rw [hz] at hj2
          obtain rfl : z = j := Option.some.inj hj2
          exact hzu
    · exfalso
      rw [hz] at hpos
      simp only [substSlot] at hpos
      have hzk0 : z = k0 :=
        H.ncInj z (hslotsR z (mem_connSlots.mpr (Or.inr (Or.inr hz)))) k0 hk0R hpos
      subst hzk0
      rw [hn2] at htpEq
      simp only [substSlot] at htpEq
      subst htpEq
      exact howner (hsomeOf _ h2) (mem_connSlots.mpr (Or.inr (Or.inr hz)))
  · -- hole in the third position
    rcases hcase with ⟨hpos, htpEq⟩ | ⟨hpos, htpEq⟩ | ⟨hpos, htpEq⟩
    · exfalso
      rw [hx] at hpos
      simp only [substSlot] at hpos
      have hxk0 : x = k0 :=
        H.ncInj x (hslotsR x (mem_connSlots.mpr (Or.inl hx))) k0 hk0R hpos
      subst hxk0
      rw [hn3] at htpEq
      simp only [substSlot] at htpEq
      subst htpEq
      exact howner (hsomeOf _ h3) (mem_connSlots.mpr (Or.inl hx))
    · exfalso
      rw [hy] at hpos
      simp only [substSlot] at hpos
      have hyk0 : y = k0 :=
        H.ncInj y (hslotsR y (mem_connSlots.mpr (Or.inr (Or.inl hy)))) k0 hk0R hpos
      subst hyk0
      rw [hn3] at htpEq
      simp only [substSlot] at htpEq
      subst htpEq
      exact howner (hsomeOf _ h3) (mem_connSlots.mpr (Or.inr (Or.inl hy)))
    · have hkk : k1 = k0 := by
        refine H.ncInj k1 hk1R k0 hk0R ?_
        rw [hn3] at hpos
        exact hpos
      subst hkk
      rw [hx, hy] at htpEq
      simp only [substSlot] at htpEq
      subst htpEq
      have hc'3 : conn'.2.2 = none := by
        simp only [resolveSlotRef] at h3
        exact (Option.some.inj h3).symm
      obtain ⟨hxu, hxE, kx, hkx, recx, hrecx, hrecxi, hrecxc⟩ :=
        hres x (hslotsR x (mem_connSlots.mpr (Or.inl hx))) _ h1
      obtain ⟨hyu, hyE, ky, hky, recy, hrecy, hrecyi, hrecyc⟩ :=
        hres y (hslotsR y (mem_connSlots.mpr (Or.inr (Or.inl hy)))) _ h2
      refine ⟨conn1, hc1, ?_, ?_⟩
      · have e1 : slotPatternAt st conn'.1 = some (some (cOf x)) := by
          rw [hkx]
          simp [slotPatternAt, hrecx, hrecxc]
        have e2 : slotPatternAt st conn'.2.1 = some (some (cOf y)) := by
          rw [hky]
          simp [slotPatternAt, hrecy, hrecyc]
        have e3 : slotPatternAt st conn'.2.2 = some none := by
          rw [hc'3]
          rfl
        unfold connPatternAt
        rw [e1, e2, e3]
        unfold connContentOf
        rw [hn3, hx, hy]
        rfl
      · intro j hj
        rcases mem_connSlots.mp hj with hj2 | hj2 | hj2
        · rw [hx] at hj2
          obtain rfl : x = j := Option.some.inj hj2
          exact hxu
        · rw [hy] at hj2
          obtain rfl : y = j := Option.some.inj hj2
          exact hyu
        · rw [hn3] at hj2
          exact Option.noConfusion hj2

theorem import_presence {e : (ConceptLogicEnv Content Data ImplId IdentId)} {s0 : (ConceptLogicState Content ImplId IdentId)} {R : List Nat} {nc : Nat → Ref}
    {rank : Nat → Nat} {cOf : Nat → Content} {iOf : Nat → ImplId}
    {isByte : Nat → Bool} {dOf : Nat → Data} {cnOf : Nat → List SemanticConnection}
    (H : RoundTripHyps e s0 R nc rank cOf iOf isByte dOf cnOf)
    {E : List Nat} {tripsF : List (Ref × Ref × Ref)}
    (hER : ∀ k ∈ E, k ∈ R)
    (hproc : ∀ k ∈ E, isByte k = false → ∀ conn ∈ cnOf k,
      substTriple nc k conn ∈ tripsF ∧ ∀ j ∈ connSlots conn, j ∈ E)
    {cbr : List (Ref × Nat)} {unimp : List Ref} {st : (ConceptLogicState Content ImplId IdentId)}
    (hI5 : ∀ k ∈ E, nc k ∉ unimp → ∃ k', alookup cbr (nc k) = some k' ∧
      ∃ rec, st.concepts[k']? = some rec ∧ rec.implementation = iOf k ∧
        rec.content = some (cOf k))
    {k0 : Nat} (hk0E : k0 ∈ E) (hk0b : isByte k0 = false)
    (himp : ∀ conn ∈ cnOf k0, ∀ j ∈ connSlots conn, nc j ∉ unimp) :
    ∀ p ∈ ownPatterns cOf cnOf k0,
      p ∈ patternsAt st (importConnections cbr
        (semanticConnectionReferences tripsF (nc k0))) := by
  intro p hp
  obtain ⟨conn, hc, rfl⟩ := List.mem_map.mp hp
  obtain ⟨ht, hslotsE⟩ := hproc k0 hk0E hk0b conn hc
  rcases oneHole_cases (H.connHole k0 (hER k0 hk0E) hk0b conn hc) with
      ⟨hn1, ⟨y, hy⟩, ⟨z, hz⟩⟩ | ⟨⟨x, hx⟩, hn2, ⟨z, hz⟩⟩ | ⟨⟨x, hx⟩, ⟨y, hy⟩, hn3⟩
  · obtain ⟨ky, hky, recy, hrecy, hrecyi, hrecyc⟩ :=
      hI5 y (hslotsE y (mem_connSlots.mpr (Or.inr (Or.inl hy))))
        (himp conn hc y (mem_connSlots.mpr (Or.inr (Or.inl hy))))
    obtain ⟨kz, hkz, recz, hrecz, hreczi, hreczc⟩ :=
      hI5 z (hslotsE z (mem_connSlots.mpr (Or.inr (Or.inr hz))))
        (himp conn hc z (mem_connSlots.mpr (Or.inr (Or.inr hz))))
    refine mem_patternsAt.mpr ⟨(none, some ky, some kz), ?_, ?_⟩
    · refine mem_importConnections.mpr
        ⟨(none, some (nc y), some (nc z)), ?_, ?_, ?_, ?_⟩
      · refine mem_semanticConnectionReferences.mpr
          ⟨substTriple nc k0 conn, ht, Or.inl ⟨?_, ?_⟩⟩
        · simp [substTriple, substSlot, hn1]
        · simp [substTriple, substSlot, hy, hz]
      · rfl
      · simp [resolveSlotRef, hky]
      · simp [resolveSlotRef, hkz]
    · simp [connPatternAt, slotPatternAt, hrecy, hrecyc, hrecz, hreczc,
        connContentOf, hn1, hy, hz]
  · obtain ⟨kx, hkx, recx, hrecx, hrecxi, hrecxc⟩ :=
      hI5 x (hslotsE x (mem_connSlots.mpr (Or.inl hx)))
        (himp conn hc x (mem_connSlots.mpr (Or.inl hx)))
    obtain ⟨kz, hkz, recz, hrecz, hreczi, hreczc⟩ :=
      hI5 z (hslotsE z (mem_connSlots.mpr (Or.inr (Or.inr hz))))
        (himp conn hc z (mem_connSlots.mpr (Or.inr (Or.inr hz))))
    refine mem_patternsAt.mpr ⟨(some kx, none, some kz), ?_, ?_⟩
    · refine mem_importConnections.mpr
        ⟨(some (nc x), none, some (nc z)), ?_, ?_, ?_, ?_⟩
      · refine mem_semanticConnectionReferences.mpr
          ⟨substTriple nc k0 conn, ht, Or.inr (Or.inl ⟨?_, ?_⟩)⟩
        · simp [substTriple, substSlot, hn2]
        · simp [substTriple, substSlot, hx, hz]
      · simp [resolveSlotRef, hkx]
      · rfl
      · simp [resolveSlotRef, hkz]
    · simp [connPatternAt, slotPatternAt, hrecx, hrecxc, hrecz, hreczc,
        connContentOf, hn2, hx, hz]
  · obtain ⟨kx, hkx, recx, hrecx, hrecxi, hrecxc⟩ :=
      hI5 x (hslotsE x (mem_connSlots.mpr (Or.inl hx)))
        (himp conn hc x (mem_connSlots.mpr (Or.inl hx)))
    obtain ⟨ky, hky, recy, hrecy, hrecyi, hrecyc⟩ :=
      hI5 y (hslotsE y (mem_connSlots.mpr (Or.inr (Or.inl hy))))
        (himp conn hc y (mem_connSlots.mpr (Or.inr (Or.inl hy))))
    refine mem_patternsAt.mpr ⟨(some kx, some ky, none), ?_, ?_⟩
    · refine mem_importConnections.mpr
        ⟨(some (nc x), some (nc y), none), ?_, ?_, ?_, ?_⟩
      · refine mem_semanticConnectionReferences.mpr
          ⟨substTriple nc k0 conn, ht, Or.inr (Or.inr ⟨?_, ?_⟩)⟩
        · simp [substTriple, substSlot, hn3]
        · simp [substTriple, substSlot, hx, hy]
      · simp [resolveSlotRef, hkx]
      · simp [resolveSlotRef, hky]
      · rfl
    · simp [connPatternAt, slotPatternAt, hrecx, hrecxc, hrecy, hrecyc,
        connContentOf, hn3, hx, hy]

theorem connContentOf_inj {e : (ConceptLogicEnv Content Data ImplId IdentId)} {s0 : (ConceptLogicState Content ImplId IdentId)} {R : List Nat} {nc : Nat → Ref}
    {rank : Nat → Nat} {cOf : Nat → Content} {iOf : Nat → ImplId}
    {isByte : Nat → Bool} {dOf : Nat → Data} {cnOf : Nat → List SemanticConnection}
    (H : RoundTripHyps e s0 R nc rank cOf iOf isByte dOf cnOf)
    {k0 : Nat} (hk0R : k0 ∈ R) (hk0b : isByte k0 = false)
    {conn conn2 : SemanticConnection}
    (hc : conn ∈ cnOf k0) (hc2 : conn2 ∈ cnOf k0)
    (h : connContentOf cOf conn = connContentOf cOf conn2) : conn = conn2 := by
  have hcomp : ∀ (o o2 : Option Nat), (∀ j, o = some j → j ∈ R) →
      (∀ j, o2 = some j → j ∈ R) → o.map cOf = o2.map cOf → o = o2 := by
    intro o o2 ho ho2 hmap
    cases o with
    | none =>
      cases o2 with
      | none => rfl
      | some b => simp at hmap
    | some a =>
      cases o2 with
      | none => simp at hmap
      | some b =>
        simp only [Option.map_some', Option.some.injEq] at hmap
        rw [H.distinct a (ho a rfl) b (ho2 b rfl) hmap]
  have hsR : ∀ j ∈ connSlots conn, j ∈ R := fun j hj =>
    (H.connClosed k0 hk0R hk0b conn hc j hj).1
  have hsR2 : ∀ j ∈ connSlots conn2, j ∈ R := fun j hj =>
    (H.connClosed k0 hk0R hk0b conn2 hc2 j hj).1
  obtain ⟨a, b, c⟩ := conn
  obtain ⟨a2, b2, c2⟩ := conn2
  simp only [connContentOf, Prod.mk.injEq] at h
  obtain ⟨h1, h2, h3⟩ := h
  have e1 : a = a2 := hcomp a a2
    (fun j hj => hsR j (mem_connSlots.mpr (Or.inl hj)))
    (fun j hj => hsR2 j (mem_connSlots.mpr (Or.inl hj))) h1
  have e2 : b = b2 := hcomp b b2
    (fun j hj => hsR j (mem_connSlots.mpr (Or.inr (Or.inl hj))))
    (fun j hj => hsR2 j (mem_connSlots.mpr (Or.inr (Or.inl hj)))) h2
  have e3 : c = c2 := hcomp c c2
    (fun j hj => hsR j (mem_connSlots.mpr (Or.inr (Or.inr hj))))
    (fun j hj => hsR2 j (mem_connSlots.mpr (Or.inr (Or.inr hj)))) h3
  rw [e1, e2, e3]

theorem template_slot_of_ref {e : (ConceptLogicEnv Content Data ImplId IdentId)} {s0 : (ConceptLogicState Content ImplId IdentId)} {R : List Nat} {nc : Nat → Ref}
    {rank : Nat → Nat} {cOf : Nat → Content} {iOf : Nat → ImplId}
    {isByte : Nat → Bool} {dOf : Nat → Data} {cnOf : Nat → List SemanticConnection}
    (H : RoundTripHyps e s0 R nc rank cOf iOf isByte dOf cnOf)
    {k : Nat} (hkR : k ∈ R) (hkb : isByte k = false)
    {conn : SemanticConnection} (hc : conn ∈ cnOf k)
    {j : Nat} (hjS : j ∈ connSlots conn)
    {tripsF : List (Ref × Ref × Ref)} (ht : substTriple nc k conn ∈ tripsF) :
    ∃ tp ∈ semanticConnectionReferences tripsF (nc j),
      tp.1 = some (nc k) ∨ tp.2.1 = some (nc k) ∨ tp.2.2 = some (nc k) := by
  rcases oneHole_cases (H.connHole k hkR hkb conn hc) with
      ⟨hn1, ⟨y, hy⟩, ⟨z, hz⟩⟩ | ⟨⟨x, hx⟩, hn2, ⟨z, hz⟩⟩ | ⟨⟨x, hx⟩, ⟨y, hy⟩, hn3⟩ <;>
    rcases mem_connSlots.mp hjS with hj | hj | hj
  · rw [hn1] at hj
    exact Option.noConfusion hj
  · obtain rfl : y = j := Option.some.inj (hy ▸ hj)
    refine ⟨(some (nc k), none, some (nc z)), ?_, Or.inl rfl⟩
    refine mem_semanticConnectionReferences.mpr
      ⟨substTriple nc k conn, ht, Or.inr (Or.inl ⟨?_, ?_⟩)⟩
    · simp [substTriple, substSlot, hy]
    · simp [substTriple, substSlot, hn1, hz]
  · obtain rfl : z = j := Option.some.inj (hz ▸ hj)
    refine ⟨(some (nc k), some (nc y), none), ?_, Or.inl rfl⟩
    refine mem_semanticConnectionReferences.mpr
      ⟨substTriple nc k conn, ht, Or.inr (Or.inr ⟨?_, ?_⟩)⟩
    · simp [substTriple, substSlot, hz]
    · simp [substTriple, substSlot, hn1, hy]
  · obtain rfl : x = j := Option.some.inj (hx ▸ hj)
    refine ⟨(none, some (nc k), some (nc z)), ?_, Or.inr (Or.inl rfl)⟩
    refine mem_semanticConnectionReferences.mpr
      ⟨substTriple nc k conn, ht, Or.inl ⟨?_, ?_⟩⟩
    · simp [substTriple, substSlot, hx]
    · simp [substTriple, substSlot, hn2, hz]
  · rw [hn2] at hj
    exact Option.noConfusion hj
  · obtain rfl : z = j := Option.some.inj (hz ▸ hj)
    refine ⟨(some (nc x), some (nc k), none), ?_, Or.inr (Or.inl rfl)⟩
    refine mem_semanticConnectionReferences.mpr
      ⟨substTriple nc k conn, ht, Or.inr (Or.inr ⟨?_, ?_⟩)⟩
    · simp [substTriple, substSlot, hz]
    · simp [substTriple, substSlot, hn2, hx]
  · obtain rfl : x = j := Option.some.inj (hx ▸ hj)
    refine ⟨(none, some (nc y), some (nc k)), ?_, Or.inr (Or.inr rfl)⟩
    refine mem_semanticConnectionReferences.mpr
      ⟨substTriple nc k conn, ht, Or.inl ⟨?_, ?_⟩⟩
    · simp [substTriple, substSlot, hx]
    · simp [substTriple, substSlot, hn3, hy]
  · obtain rfl : y = j := Option.some.inj (hy ▸ hj)
    refine ⟨(some (nc x), none, some (nc k)), ?_, Or.inr (Or.inr rfl)⟩
    refine mem_semanticConnectionReferences.mpr
      ⟨substTriple nc k conn, ht, Or.inr (Or.inl ⟨?_, ?_⟩)⟩
    · simp [substTriple, substSlot, hy]
    · simp [substTriple, substSlot, hn3, hx]
  · rw [hn3] at hj
    exact Option.noConfusion hj

theorem importLoop_spec {e : (ConceptLogicEnv Content Data ImplId IdentId)} {s0 : (ConceptLogicState Content ImplId IdentId)} {R : List Nat} {nc : Nat → Ref}
    {rank : Nat → Nat} {cOf : Nat → Content} {iOf : Nat → ImplId}
    {isByte : Nat → Bool} {dOf : Nat → Data} {cnOf : Nat → List SemanticConnection}
    (H : RoundTripHyps e s0 R nc rank cOf iOf isByte dOf cnOf)
    {E : List Nat} {tripsF : List (Ref × Ref × Ref)}
    (hER : ∀ k ∈ E, k ∈ R)
    (htrip : ∀ t ∈ tripsF, ∃ k conn, k ∈ E ∧ isByte k = false ∧ conn ∈ cnOf k ∧
      t = substTriple nc k conn)
    (hproc : ∀ k ∈ E, isByte k = false → ∀ conn ∈ cnOf k,
      substTriple nc k conn ∈ tripsF ∧ ∀ j ∈ connSlots conn, j ∈ E)
    (N : Nat) :
    ∀ (fuel : Nat) (cbr : List (Ref × Nat)) (unimp untested : List Ref) (st : (ConceptLogicState Content ImplId IdentId)),
      untested.Nodup → untested ⊆ unimp → unimp.Nodup → unimp.length ≤ N →
      unimp.length * (N + 1) + untested.length < fuel →
      (∀ r ∈ unimp, ∃ k, k ∈ E ∧ isByte k = false ∧ r = nc k) →
      (∀ k ∈ E, nc k ∉ unimp → ∃ k', alookup cbr (nc k) = some k' ∧
        ∃ rec, st.concepts[k']? = some rec ∧ rec.implementation = iOf k ∧
          rec.content = some (cOf k)) →
      (∀ (r : Ref) (k' : Nat), alookup cbr r = some k' →
        ∃ k, k ∈ E ∧ r = nc k ∧ nc k ∉ unimp) →
      StoreInv st →
      (∀ k ∈ E, nc k ∈ unimp → nc k ∈ untested ∨
        ∃ conn ∈ cnOf k, ∃ j ∈ connSlots conn, nc j ∈ unimp) →
      (∀ k ∈ E, isByte k = false → nc k ∉ unimp →
        ∀ conn ∈ cnOf k, ∀ j ∈ connSlots conn, nc j ∉ unimp) →
      ∃ (st' : (ConceptLogicState Content ImplId IdentId)) (cbr' : List (Ref × Nat)),
        importLoop e tripsF fuel cbr unimp untested st = .ok st' cbr' ∧
        (∀ k ∈ E, ∃ k', alookup cbr' (nc k) = some k' ∧
          ∃ rec, st'.concepts[k']? = some rec ∧ rec.implementation = iOf k ∧
            rec.content = some (cOf k)) := by
  intro fuel
  induction fuel with
  | zero =>
    intro cbr unimp untested st hnd hsub hund hlen hfuel
    exact absurd hfuel (Nat.not_lt_zero _)
  | succ f ih =>
    intro cbr unimp untested st hnd hsub hund hlen hfuel hI4 hI5 hI6 hI7 hI8 hI9
    cases untested with
    | nil =>
      have hempty : unimp = [] := by
        have hdesc : ∀ n, ∀ k, k ∈ E → nc k ∈ unimp → rank k < n → False := by
          intro n
          induction n with
          | zero =>
            intro k _ _ h
            exact absurd h (Nat.not_lt_zero _)
          | succ m ihm =>
            intro k hkE hku hrk
            obtain ⟨k3, hk3E, hk3b, hkeq⟩ := hI4 (nc k) hku
            have hk3 : k = k3 := H.ncInj k (hER k hkE) k3 (hER k3 hk3E) hkeq
            subst hk3
            rcases hI8 k hkE hku with hun | ⟨conn, hc, j, hjS, hju⟩
            · exact absurd hun (List.not_mem_nil _)
            · have hjE : j ∈ E := (hproc k hkE hk3b conn hc).2 j hjS
              have hrj : rank j < rank k :=
                (H.connClosed k (hER k hkE) hk3b conn hc j hjS).2
              exact ihm j hjE hju (by omega)
        cases hu : unimp with
        | nil => rfl
        | cons r rest =>
          exfalso
          have hrm : r ∈ unimp := by
            rw [hu]
            exact List.mem_cons_self _ _
          obtain ⟨k3, hk3E, hk3b, hkeq⟩ := hI4 r hrm
          subst hkeq
          exact hdesc (rank k3 + 1) k3 hk3E hrm (Nat.lt_succ_self _)
      subst hempty
      refine ⟨st, cbr, rfl, ?_⟩
      intro k hkE
      exact hI5 k hkE (List.not_mem_nil _)
    | cons r rest =>
      have hr : r ∈ unimp := hsub (List.mem_cons_self _ _)
      obtain ⟨k0, hk0E, hk0b, rfl⟩ := hI4 r hr
      have hk0R : k0 ∈ R := hER k0 hk0E
      have hsurv := import_survivors_char H hER htrip hI5 hI6 hI9 hk0E hr
      have ha : ∀ conn' ∈ importConnections cbr
          (semanticConnectionReferences tripsF (nc k0)),
          (connPatternAt st conn').isSome := by
        intro conn' hc'
        obtain ⟨conn2, -, hpat2, -⟩ := hsurv conn' hc'
        rw [hpat2]
        rfl
      have hbsub : ∀ p ∈ patternsAt st (importConnections cbr
          (semanticConnectionReferences tripsF (nc k0))),
          p ∈ ownPatterns cOf cnOf k0 := by
        intro p hp
        obtain ⟨conn', hc', hpat⟩ := mem_patternsAt.mp hp
        obtain ⟨conn2, hc2, hpat2, -⟩ := hsurv conn' hc'
        rw [hpat] at hpat2
        exact List.mem_map.mpr ⟨conn2, hc2, (Option.some.inj hpat2).symm⟩
      obtain ⟨hok, hfail⟩ := H.resolver k0 hk0R hk0b st _ ha hbsub
      by_cases hall : ∀ p ∈ ownPatterns cOf cnOf k0,
          p ∈ patternsAt st (importConnections cbr
            (semanticConnectionReferences tripsF (nc k0)))
      · -- the resolver reconstructs the concept: the reference is imported
        have hresolve := hok hall
        have hclosure : ∀ conn ∈ cnOf k0, ∀ j ∈ connSlots conn, nc j ∉ unimp := by
          intro conn hc j hjS
          have hp : connContentOf cOf conn ∈ ownPatterns cOf cnOf k0 :=
            List.mem_map.mpr ⟨conn, hc, rfl⟩
          obtain ⟨conn', hc', hpat⟩ := mem_patternsAt.mp (hall _ hp)
          obtain ⟨conn2, hc2, hpat2, himp2⟩ := hsurv conn' hc'
          have hce : conn = conn2 := by
            refine connContentOf_inj H hk0R hk0b hc hc2 ?_
            rw [hpat] at hpat2
            exact Option.some.inj hpat2
          exact himp2 j (hce ▸ hjS)
        obtain ⟨vv, hv, hvc⟩ := H.valid k0 hk0R
        obtain ⟨st1, k', hrunC, hstore1, ⟨rec1, hrec1, hrec1i, hrec1c⟩, hext1⟩ :=
          getConceptFromContent_import hI7 hv hvc (H.supported k0 hk0R)
        have hg : getConceptFromSemanticConnections e (importConnections cbr
            (semanticConnectionReferences tripsF (nc k0))) st = .ok st1 k' := by
          unfold getConceptFromSemanticConnections
          rw [hresolve]
          exact hrunC
        simp only [importLoop]
        rw [hg]
        dsimp only
        rw [if_pos hr]
        have hrrest : nc k0 ∉ rest := (List.nodup_cons.mp hnd).1
        have hndrest : rest.Nodup := (List.nodup_cons.mp hnd).2
        have hsubrest : rest ⊆ unimp.erase (nc k0) := by
          intro x hx
          have hxu : x ∈ unimp := hsub (List.mem_cons_of_mem _ hx)
          have hxr : x ≠ nc k0 := fun hxeq => hrrest (hxeq ▸ hx)
          exact (List.mem_erase_of_ne hxr).mpr hxu
        have hunde : (unimp.erase (nc k0)).Nodup := hund.erase _
        have hlene : (unimp.erase (nc k0)).length = unimp.length - 1 :=
          List.length_erase_of_mem hr
        have hconnsub : (((((semanticConnectionReferences tripsF (nc k0)).flatMap
            (fun t => [t.1, t.2.1, t.2.2])).filterMap id).filter
              (fun x => decide (x ∈ unimp.erase (nc k0)))).dedup.filter
                (fun x => decide (x ∉ rest))) ⊆ unimp.erase (nc k0) := by
          intro x hx
          have hx1 := (List.mem_filter.mp hx).1
          have hx2 := (List.mem_filter.mp (List.mem_dedup.mp hx1)).2
          exact of_decide_eq_true hx2
        have hconnnd : (((((semanticConnectionReferences tripsF (nc k0)).flatMap
            (fun t => [t.1, t.2.1, t.2.2])).filterMap id).filter
              (fun x => decide (x ∈ unimp.erase (nc k0)))).dedup.filter
                (fun x => decide (x ∉ rest))).Nodup :=
          List.Nodup.filter _ (List.nodup_dedup _)
        have hconnlen : (((((semanticConnectionReferences tripsF (nc k0)).flatMap
            (fun t => [t.1, t.2.1, t.2.2])).filterMap id).filter
              (fun x => decide (x ∈ unimp.erase (nc k0)))).dedup.filter
                (fun x => decide (x ∉ rest))).length ≤ (unimp.erase (nc k0)).length :=
          (hconnnd.subperm hconnsub).length_le
        have hnd' : (rest ++ ((((semanticConnectionReferences tripsF (nc k0)).flatMap
            (fun t => [t.1, t.2.1, t.2.2])).filterMap id).filter
              (fun x => decide (x ∈ unimp.erase (nc k0)))).dedup.filter
                (fun x => decide (x ∉ rest))).Nodup := by
          refine hndrest.append hconnnd ?_
          intro x hx1 hx2
          have := (List.mem_filter.mp hx2).2
          exact absurd hx1 (of_decide_eq_true this)
        have hsub' : (rest ++ ((((semanticConnectionReferences tripsF (nc k0)).flatMap
            (fun t => [t.1, t.2.1, t.2.2])).filterMap id).filter
              (fun x => decide (x ∈ unimp.erase (nc k0)))).dedup.filter
                (fun x => decide (x ∉ rest))) ⊆ unimp.erase (nc k0) := by
          intro x hx
          rcases List.mem_append.mp hx with hx | hx
          · exact hsubrest hx
          · exact hconnsub hx
        have hlen' : (unimp.erase (nc k0)).length ≤ N := by omega
        have hupos : 0 < unimp.length := List.length_pos_of_mem hr
        have hmul : (unimp.length - 1) * (N + 1) = unimp.length * (N + 1) - (N + 1) := by
          rw [Nat.sub_mul, one_mul]
        have humul : N + 1 ≤ unimp.length * (N + 1) :=
          Nat.le_mul_of_pos_left _ hupos
        rw [hlene] at hconnlen
        have hmeas : (unimp.erase (nc k0)).length * (N + 1) +
            (rest ++ ((((semanticConnectionReferences tripsF (nc k0)).flatMap
              (fun t => [t.1, t.2.1, t.2.2])).filterMap id).filter
                (fun x => decide (x ∈ unimp.erase (nc k0)))).dedup.filter
                  (fun x => decide (x ∉ rest))).length < f := by
          rw [List.length_append, hlene, hmul]
          simp only [List.length_cons] at hfuel
          omega
        have hrequeue : ∀ k2, k2 ∈ E → nc k2 ∈ unimp.erase (nc k0) →
            (∃ conn ∈ cnOf k2, ∃ j ∈ connSlots conn, nc j = nc k0) →
            nc k2 ∈ rest ++ ((((semanticConnectionReferences tripsF (nc k0)).flatMap
              (fun t => [t.1, t.2.1, t.2.2])).filterMap id).filter
                (fun x => decide (x ∈ unimp.erase (nc k0)))).dedup.filter
                  (fun x => decide (x ∉ rest)) := by
          rintro k2 hk2E hk2u ⟨conn, hc, j, hjS, hjeq⟩
          by_cases hin : nc k2 ∈ rest
          · exact List.mem_append.mpr (Or.inl hin)
          · refine List.mem_append.mpr (Or.inr (List.mem_filter.mpr
              ⟨List.mem_dedup.mpr (List.mem_filter.mpr ⟨?_, decide_eq_true hk2u⟩),
                decide_eq_true hin⟩))
            have hk2u0 : nc k2 ∈ unimp := List.mem_of_mem_erase hk2u
            obtain ⟨k3, hk3E, hk3b, hkeq3⟩ := hI4 (nc k2) hk2u0
            have hk23 : k2 = k3 := H.ncInj k2 (hER k2 hk2E) k3 (hER k3 hk3E) hkeq3
            subst hk23
            obtain ⟨ht2, -⟩ := hproc k2 hk2E hk3b conn hc
            obtain ⟨tp, htpm, hcomp⟩ :=
              template_slot_of_ref H (hER k2 hk2E) hk3b hc hjS ht2
            rw [hjeq] at htpm
            refine List.mem_filterMap.mpr ⟨some (nc k2), ?_, rfl⟩
            refine List.mem_flatMap.mpr ⟨tp, htpm, ?_⟩
            rcases hcomp with h | h | h
            · exact List.mem_cons.mpr (Or.inl h.symm)
            · exact List.mem_cons.mpr (Or.inr (List.mem_cons.mpr (Or.inl h.symm)))
            · exact List.mem_cons.mpr (Or.inr (List.mem_cons.mpr
                (Or.inr (List.mem_cons.mpr (Or.inl h.symm)))))
        have hI4' : ∀ r2 ∈ unimp.erase (nc k0),
            ∃ k, k ∈ E ∧ isByte k = false ∧ r2 = nc k :=
          fun r2 hr2 => hI4 r2 (List.mem_of_mem_erase hr2)
        have hI5' : ∀ k ∈ E, nc k ∉ unimp.erase (nc k0) →
            ∃ k'', alookup (aupdate cbr (nc k0) k') (nc k) = some k'' ∧
              ∃ rec, st1.concepts[k'']? = some rec ∧ rec.implementation = iOf k ∧
                rec.content = some (cOf k) := by
          intro k hkE2 hknu
          by_cases hkeq : nc k = nc k0
          · have hkk : k = k0 := H.ncInj k (hER k hkE2) k0 hk0R hkeq
            subst hkk
            exact ⟨k', alookup_aupdate_self _ _ _, rec1, hrec1, hrec1i, hrec1c⟩
          · have hknu0 : nc k ∉ unimp := fun hmem =>
              hknu ((List.mem_erase_of_ne hkeq).mpr hmem)
            obtain ⟨k'', hlook, rec, hrec, hreci, hrecc⟩ := hI5 k hkE2 hknu0
            refine ⟨k'', ?_, rec, hext1 _ _ hrec, hreci, hrecc⟩
            rw [alookup_aupdate_ne _ _ hkeq]
            exact hlook
        have hI6' : ∀ (r2 : Ref) (k2' : Nat),
            alookup (aupdate cbr (nc k0) k') r2 = some k2' →
            ∃ k, k ∈ E ∧ r2 = nc k ∧ nc k ∉ unimp.erase (nc k0) := by
          intro r2 k2' h2
          by_cases hr2 : r2 = nc k0
          · subst hr2
            exact ⟨k0, hk0E, rfl, hund.not_mem_erase⟩
          · rw [alookup_aupdate_ne _ _ hr2] at h2
            obtain ⟨k, hkE2, rfl, hknu⟩ := hI6 r2 k2' h2
            exact ⟨k, hkE2, rfl, fun hmem => hknu (List.mem_of_mem_erase hmem)⟩
        have hI8' : ∀ k ∈ E, nc k ∈ unimp.erase (nc k0) →
            nc k ∈ rest ++ ((((semanticConnectionReferences tripsF (nc k0)).flatMap
              (fun t => [t.1, t.2.1, t.2.2])).filterMap id).filter
                (fun x => decide (x ∈ unimp.erase (nc k0)))).dedup.filter
                  (fun x => decide (x ∉ rest)) ∨
            ∃ conn ∈ cnOf k, ∃ j ∈ connSlots conn, nc j ∈ unimp.erase (nc k0) := by
          intro k hkE2 hku1
          have hku0 : nc k ∈ unimp := List.mem_of_mem_erase hku1
          rcases hI8 k hkE2 hku0 with hun | ⟨conn, hc, j, hjS, hju⟩
          · rcases List.mem_cons.mp hun with heq | hin
            · exfalso
              rw [heq] at hku1
              exact hund.not_mem_erase hku1
            · exact Or.inl (List.mem_append.mpr (Or.inl hin))
          · by_cases hjr : nc j = nc k0
            · exact Or.inl (hrequeue k hkE2 hku1 ⟨conn, hc, j, hjS, hjr⟩)
            · exact Or.inr ⟨conn, hc, j, hjS, (List.mem_erase_of_ne hjr).mpr hju⟩
        have hI9' : ∀ k ∈ E, isByte k = false → nc k ∉ unimp.erase (nc k0) →
            ∀ conn ∈ cnOf k, ∀ j ∈ connSlots conn,
              nc j ∉ unimp.erase (nc k0) := by
          intro k hkE2 hkb2 hknu conn hc j hjS
          by_cases hkeq : nc k = nc k0
          · have hkk : k = k0 := H.ncInj k (hER k hkE2) k0 hk0R hkeq
            subst hkk
            exact fun hmem => (hclosure conn hc j hjS) (List.mem_of_mem_erase hmem)
          · have hknu0 : nc k ∉ unimp := fun hmem =>
              hknu ((List.mem_erase_of_ne hkeq).mpr hmem)
            exact fun hmem =>
              (hI9 k hkE2 hkb2 hknu0 conn hc j hjS) (List.mem_of_mem_erase hmem)
        obtain ⟨st', cbr', hrun', hfin'⟩ :=
          ih (aupdate cbr (nc k0) k') (unimp.erase (nc k0))
            (rest ++ ((((semanticConnectionReferences tripsF (nc k0)).flatMap
              (fun t => [t.1, t.2.1, t.2.2])).filterMap id).filter
                (fun x => decide (x ∈ unimp.erase (nc k0)))).dedup.filter
                  (fun x => decide (x ∉ rest))) st1
            hnd' hsub' hunde hlen' hmeas hI4' hI5' hI6' hstore1 hI8' hI9'
        exact ⟨st', cbr', hrun', hfin'⟩
      · -- the pattern set is incomplete: NotSufficient, the reference is retried later
        have hresolve := hfail hall
        have hg : getConceptFromSemanticConnections e (importConnections cbr
            (semanticConnectionReferences tripsF (nc k0))) st =
            .raised st .notSufficient := by
          unfold getConceptFromSemanticConnections
          rw [hresolve]
        simp only [importLoop]
        rw [hg]
        dsimp only
        rw [if_pos rfl]
        have hnd2 := (List.nodup_cons.mp hnd).2
        have hsub2 : rest ⊆ unimp := fun x hx => hsub (List.mem_cons_of_mem _ hx)
        have hmeas : unimp.length * (N + 1) + rest.length < f := by
          simp only [List.length_cons] at hfuel
          omega
        have hI8' : ∀ k ∈ E, nc k ∈ unimp → nc k ∈ rest ∨
            ∃ conn ∈ cnOf k, ∃ j ∈ connSlots conn, nc j ∈ unimp := by
          intro k hkE2 hku
          rcases hI8 k hkE2 hku with hun | hblocked
          · rcases List.mem_cons.mp hun with heq | hin
            · have hkk : k = k0 := H.ncInj k (hER k hkE2) k0 hk0R heq
              subst hkk
              right
              by_contra hno
              push_neg at hno
              exact hall (import_presence H hER hproc hI5 hkE2 hk0b hno)
            · exact Or.inl hin
          · exact Or.inr hblocked
        obtain ⟨st', cbr', hrun', hfin'⟩ :=
          ih cbr unimp rest st hnd2 hsub2 hund hlen hmeas hI4 hI5 hI6 hI7 hI8' hI9
        exact ⟨st', cbr', hrun', hfin'⟩

theorem importSemanticData_spec {e : (ConceptLogicEnv Content Data ImplId IdentId)} {s0 : (ConceptLogicState Content ImplId IdentId)} {R : List Nat} {nc : Nat → Ref}
    {rank : Nat → Nat} {cOf : Nat → Content} {iOf : Nat → ImplId}
    {isByte : Nat → Bool} {dOf : Nat → Data} {cnOf : Nat → List SemanticConnection}
    (H : RoundTripHyps e s0 R nc rank cOf iOf isByte dOf cnOf)
    {E : List Nat} {bytesF : List (Ref × ImplId × Data)}
    {tripsF : List (Ref × Ref × Ref)}
    (hER : ∀ k ∈ E, k ∈ R)
    (hbytesChar : ∀ p ∈ bytesF, ∃ k, k ∈ E ∧ isByte k = true ∧ p = (nc k, iOf k, dOf k))
    (hbytesAll : ∀ k ∈ E, isByte k = true → (nc k, iOf k, dOf k) ∈ bytesF)
    (htrip : ∀ t ∈ tripsF, ∃ k conn, k ∈ E ∧ isByte k = false ∧ conn ∈ cnOf k ∧
      t = substTriple nc k conn)
    (hproc : ∀ k ∈ E, isByte k = false → ∀ conn ∈ cnOf k,
      substTriple nc k conn ∈ tripsF ∧ ∀ j ∈ connSlots conn, j ∈ E)
    {st0 : (ConceptLogicState Content ImplId IdentId)} (hst0 : StoreInv st0) :
    ∃ (st' : (ConceptLogicState Content ImplId IdentId)) (m : List (Ref × Nat)),
      importSemanticData e (bytesF, tripsF) st0 = .ok st' m ∧
      ∀ k ∈ E, ∃ k', alookup m (nc k) = some k' ∧
        ∃ rec, st'.concepts[k']? = some rec ∧ rec.implementation = iOf k ∧
          rec.content = some (cOf k) := by
  have hnd0 : ((tripsF.flatMap (fun t => [t.1, t.2.1, t.2.2])).dedup).Nodup :=
    List.nodup_dedup _
  obtain ⟨st1, cbr1, unimp1, hrunB, hstore1, hext1, hnd1, hsub1, hkeep1, hnob1,
      hcbr1, hbs1, hmono1⟩ :=
    importBytePhase_spec (R := E)
      (fun k hk => H.byteDec k (hER k hk))
      (fun k hk => H.valid k (hER k hk))
      (fun k hk => H.supported k (hER k hk))
      bytesF [] ((tripsF.flatMap (fun t => [t.1, t.2.1, t.2.2])).dedup) st0
      hbytesChar hst0 hnd0
  have hrefE : ∀ r ∈ (tripsF.flatMap (fun t => [t.1, t.2.1, t.2.2])).dedup,
      ∃ k, k ∈ E ∧ r = nc k := by
    intro r hr
    obtain ⟨t, ht, hmem⟩ := List.mem_flatMap.mp (List.mem_dedup.mp hr)
    obtain ⟨k1, conn1, hk1E, hk1b, hc1, rfl⟩ := htrip t ht
    have hslotE : ∀ j ∈ connSlots conn1, j ∈ E :=
      (hproc k1 hk1E hk1b conn1 hc1).2
    have hone : ∀ (sl : Option Nat), (∀ j, sl = some j → j ∈ connSlots conn1) →
        r = substSlot nc k1 sl → ∃ k, k ∈ E ∧ r = nc k := by
      intro sl hsl hrs
      cases hslv : sl with
      | none =>
        subst hslv
        exact ⟨k1, hk1E, hrs⟩
      | some j =>
        subst hslv
        exact ⟨j, hslotE j (hsl j rfl), hrs⟩
    simp only [substTriple, List.mem_cons, List.not_mem_nil, or_false] at hmem
    rcases hmem with hmem | hmem | hmem
    · exact hone conn1.1 (fun j hj => mem_connSlots.mpr (Or.inl hj)) hmem
    · exact hone conn1.2.1 (fun j hj => mem_connSlots.mpr (Or.inr (Or.inl hj))) hmem
    · exact hone conn1.2.2 (fun j hj => mem_connSlots.mpr (Or.inr (Or.inr hj))) hmem
  have hbyteOut : ∀ k ∈ E, isByte k = true → nc k ∉ unimp1 := by
    intro k hkE hbk hmem
    exact (hnob1 _ hmem) (List.mem_map.mpr ⟨(nc k, iOf k, dOf k), hbytesAll k hkE hbk, rfl⟩)
  have hI4 : ∀ r ∈ unimp1, ∃ k, k ∈ E ∧ isByte k = false ∧ r = nc k := by
    intro r hr
    obtain ⟨k, hkE, rfl⟩ := hrefE r (hsub1 r hr)
    refine ⟨k, hkE, ?_, rfl⟩
    cases hbk : isByte k with
    | false => rfl
    | true => exact absurd hr (hbyteOut k hkE hbk)
  have hconnIn : ∀ k ∈ E, isByte k = false → nc k ∈ unimp1 := by
    intro k hkE hkb
    have hkR : k ∈ R := hER k hkE
    obtain ⟨conn, hc⟩ : ∃ conn, conn ∈ cnOf k := by
      cases hcn : cnOf k with
      | nil => exact absurd hcn (H.connNonempty k hkR hkb)
      | cons conn rest2 =>
        refine ⟨conn, ?_⟩
        exact List.mem_cons_self _ _
    obtain ⟨htt, -⟩ := hproc k hkE hkb conn hc
    have hmem0 : nc k ∈ (tripsF.flatMap (fun t => [t.1, t.2.1, t.2.2])).dedup := by
      refine List.mem_dedup.mpr (List.mem_flatMap.mpr ⟨substTriple nc k conn, htt, ?_⟩)
      rcases oneHole_cases (H.connHole k hkR hkb conn hc) with
          ⟨hn1, -, -⟩ | ⟨-, hn2, -⟩ | ⟨-, -, hn3⟩
      · exact List.mem_cons.mpr (Or.inl (by simp [substTriple, substSlot, hn1]))
      · exact List.mem_cons.mpr (Or.inr (List.mem_cons.mpr
          (Or.inl (by simp [substTriple, substSlot, hn2]))))
      · exact List.mem_cons.mpr (Or.inr (List.mem_cons.mpr
          (Or.inr (List.mem_cons.mpr (Or.inl (by simp [substTriple, substSlot, hn3]))))))
    refine hkeep1 _ hmem0 ?_
    intro hmemb
    obtain ⟨p, hp, hp1⟩ := List.mem_map.mp hmemb
    obtain ⟨k2, hk2E, hk2b, rfl⟩ := hbytesChar p hp
    have hkk : k2 = k := H.ncInj k2 (hER k2 hk2E) k hkR hp1
    subst hkk
    rw [hk2b] at hkb
    exact Bool.noConfusion hkb
  have hI5 : ∀ k ∈ E, nc k ∉ unimp1 → ∃ k', alookup cbr1 (nc k) = some k' ∧
      ∃ rec, st1.concepts[k']? = some rec ∧ rec.implementation = iOf k ∧
        rec.content = some (cOf k) := by
    intro k hkE hknu
    cases hbk : isByte k with
    | false => exact absurd (hconnIn k hkE hbk) hknu
    | true =>
      have hsome := hbs1 _ (hbytesAll k hkE hbk)
      obtain ⟨k', hlook⟩ := Option.isSome_iff_exists.mp hsome
      rcases hcbr1 _ _ hlook with hold | ⟨k2, hk2E, hk2b, hkeq, rec, hrec, hreci, hrecc⟩
      · simp [alookup] at hold
      · have hkk : k = k2 := H.ncInj k (hER k hkE) k2 (hER k2 hk2E) hkeq
        subst hkk
        exact ⟨k', hlook, rec, hrec, hreci, hrecc⟩
  have hI6 : ∀ (r : Ref) (k' : Nat), alookup cbr1 r = some k' →
      ∃ k, k ∈ E ∧ r = nc k ∧ nc k ∉ unimp1 := by
    intro r k' hlook
    rcases hcbr1 r k' hlook with hold | ⟨k2, hk2E, hk2b, rfl, -⟩
    · simp [alookup] at hold
    · exact ⟨k2, hk2E, rfl, hbyteOut k2 hk2E hk2b⟩
  have hI8 : ∀ k ∈ E, nc k ∈ unimp1 → nc k ∈ unimp1 ∨
      ∃ conn ∈ cnOf k, ∃ j ∈ connSlots conn, nc j ∈ unimp1 :=
    fun k _ hm => Or.inl hm
  have hI9 : ∀ k ∈ E, isByte k = false → nc k ∉ unimp1 →
      ∀ conn ∈ cnOf k, ∀ j ∈ connSlots conn, nc j ∉ unimp1 := by
    intro k hkE hkb hknu
    exact (hknu (hconnIn k hkE hkb)).elim
  have hle : unimp1.length ≤ (tripsF.flatMap (fun t => [t.1, t.2.1, t.2.2])).dedup.length :=
    (hnd1.subperm hsub1).length_le
  have hmeas : unimp1.length *
      ((tripsF.flatMap (fun t => [t.1, t.2.1, t.2.2])).dedup.length + 1) +
      unimp1.length <
      ((tripsF.flatMap (fun t => [t.1, t.2.1, t.2.2])).dedup.length + 1) *
      ((tripsF.flatMap (fun t => [t.1, t.2.1, t.2.2])).dedup.length + 1) := by
    have h1 : unimp1.length *
        ((tripsF.flatMap (fun t => [t.1, t.2.1, t.2.2])).dedup.length + 1) ≤
        (tripsF.flatMap (fun t => [t.1, t.2.1, t.2.2])).dedup.length *
        ((tripsF.flatMap (fun t => [t.1, t.2.1, t.2.2])).dedup.length + 1) :=
      Nat.mul_le_mul_right _ hle
    have h2 : ((tripsF.flatMap (fun t => [t.1, t.2.1, t.2.2])).dedup.length + 1) *
        ((tripsF.flatMap (fun t => [t.1, t.2.1, t.2.2])).dedup.length + 1) =
        (tripsF.flatMap (fun t => [t.1, t.2.1, t.2.2])).dedup.length *
        ((tripsF.flatMap (fun t => [t.1, t.2.1, t.2.2])).dedup.length + 1) +
        ((tripsF.flatMap (fun t => [t.1, t.2.1, t.2.2])).dedup.length + 1) :=
      Nat.succ_mul _ _
    omega
  obtain ⟨st', m, hrunL, hfin⟩ :=
    importLoop_spec H hER htrip hproc
      ((tripsF.flatMap (fun t => [t.1, t.2.1, t.2.2])).dedup.length)
      (((tripsF.flatMap (fun t => [t.1, t.2.1, t.2.2])).dedup.length + 1) *
        ((tripsF.flatMap (fun t => [t.1, t.2.1, t.2.2])).dedup.length + 1))
      cbr1 unimp1 unimp1 st1 hnd1 (fun x hx => hx) hnd1 hle hmeas
      hI4 hI5 hI6 hstore1 hI8 hI9
  refine ⟨st', m, ?_, hfin⟩
  unfold importSemanticData
  dsimp only
  rw [hrunB]
  dsimp only
  exact hrunL

theorem exportSemanticData_spec {e : (ConceptLogicEnv Content Data ImplId IdentId)} {s0 : (ConceptLogicState Content ImplId IdentId)} {R : List Nat} {nc : Nat → Ref}
    {rank : Nat → Nat} {cOf : Nat → Content} {iOf : Nat → ImplId}
    {isByte : Nat → Bool} {dOf : Nat → Data} {cnOf : Nat → List SemanticConnection}
    (H : RoundTripHyps e s0 R nc rank cOf iOf isByte dOf cnOf)
    {concepts : List Nat} (hcR : ∀ k ∈ concepts, k ∈ R) :
    ∃ esF : ExportState Data ImplId Ref,
      exportSemanticData e concepts nc s0 =
        .ok s0 (esF.byteDataInfoByReference, esF.referenceTriples) ∧
      ExportInv R nc iOf isByte dOf cnOf esF ∧
      esF.conceptsToExport = [] ∧
      (∀ k ∈ concepts, k ∈ keysOf esF) := by
  have hmap : ∀ l : List Nat, List.map Prod.fst (l.map (fun k => (k, nc k))) = l := by
    intro l
    induction l with
    | nil => rfl
    | cons a t ih => simp [ih]
  have hkeys0 : keysOf
      ({ referenceByConcept := concepts.dedup.map (fun k => (k, nc k))
         byteDataInfoByReference := [], referenceTriples := []
         conceptsToExport := concepts.dedup } : ExportState Data ImplId Ref) =
      concepts.dedup := hmap _
  have hinv0 : ExportInv R nc iOf isByte dOf cnOf
      ({ referenceByConcept := concepts.dedup.map (fun k => (k, nc k))
         byteDataInfoByReference := [], referenceTriples := []
         conceptsToExport := concepts.dedup } : ExportState Data ImplId Ref) := by
    refine ⟨?_, ?_, ?_, ?_, ?_, ?_, ?_⟩
    · intro p hp
      obtain ⟨k, hk, rfl⟩ := List.mem_map.mp hp
      exact ⟨rfl, hcR k (List.mem_dedup.mp hk)⟩
    · rw [hkeys0]
      exact List.nodup_dedup _
    · exact List.nodup_dedup _
    · intro k hk
      rw [hkeys0]
      exact hk
    · intro k hk hnk
      rw [hkeys0] at hk
      exact absurd hk hnk
    · intro p hp
      exact absurd hp (List.not_mem_nil _)
    · intro t ht
      exact absurd ht (List.not_mem_nil _)
  have hRlen : R.length ≤ s0.concepts.length := by
    have hsubR : R ⊆ List.range s0.concepts.length := by
      intro k hk
      obtain ⟨ido, hrec⟩ := H.arena k hk
      exact List.mem_range.mpr (List.getElem?_eq_some.mp hrec).1
    refine le_trans (H.rnd.subperm hsubR).length_le ?_
    simp
  have hfb : (R.length - (keysOf
      ({ referenceByConcept := concepts.dedup.map (fun k => (k, nc k))
         byteDataInfoByReference := [], referenceTriples := []
         conceptsToExport := concepts.dedup } : ExportState Data ImplId Ref)).length) +
      ({ referenceByConcept := concepts.dedup.map (fun k => (k, nc k))
         byteDataInfoByReference := [], referenceTriples := []
         conceptsToExport := concepts.dedup } :
          ExportState Data ImplId Ref).conceptsToExport.length + 1 ≤
      s0.concepts.length + concepts.dedup.length + 1 := by
    rw [hkeys0]
    show (R.length - concepts.dedup.length) + concepts.dedup.length + 1 ≤
      s0.concepts.length + concepts.dedup.length + 1
    omega
  obtain ⟨esF, hrun, hinvF, hwF, hkF⟩ :=
    exportLoop_spec H (s0.concepts.length + concepts.dedup.length + 1)
      ({ referenceByConcept := concepts.dedup.map (fun k => (k, nc k))
         byteDataInfoByReference := [], referenceTriples := []
         conceptsToExport := concepts.dedup } : ExportState Data ImplId Ref)
      hinv0 hfb
  refine ⟨esF, ?_, hinvF, hwF, ?_⟩
  · unfold exportSemanticData
    dsimp only
    exact hrun
  · intro k hk
    refine hkF k ?_
    rw [hkeys0]
    exact List.mem_dedup.mpr hk

end ImportRunLemmas

/-- The fresh importing store satisfies the Importer store invariant. -/
theorem rtStoreInv_empty : StoreInv (emptyConceptLogicState Nat Nat Nat) := by
  refine ⟨?_, ?_, ?_⟩
  · intro i d h
    simp [emptyConceptLogicState, alookup] at h
  · intro i d c k h
    simp [emptyConceptLogicState, alookup] at h
  · intro i
    simp [emptyConceptLogicState, alookup]

/-- The concrete two-concept instance satisfies every round-trip side
condition. -/
theorem rtHyps : RoundTripHyps rtE rtS0 [0, 1] (fun r => r) (fun k => k)
    (fun k => 100 + k) (fun k => 10 + k) (fun k => decide (k = 0))
    (fun k => 100 + k)
    (fun k => if k = 1 then [((none : Option Nat), some 0, some 0)] else []) := by
  refine ⟨?_, ?_, ?_, ?_, ?_, ?_, ?_, ?_, ?_, ?_, ?_, ?_, ?_, ?_⟩
  · decide
  · intro k hk
    fin_cases hk
    · exact ⟨none, rfl⟩
    · exact ⟨none, rfl⟩
  · exact fun j _ k _ h => h
  · intro k hk hb
    fin_cases hk
    · exact ⟨id, rfl, rfl⟩
    · exact absurd hb (by decide)
  · intro k hk hb
    fin_cases hk
    · exact ⟨id, rfl, rfl⟩
    · exact absurd hb (by decide)
  · intro k hk hb
    fin_cases hk
    · exact absurd hb (by decide)
    · rfl
  · intro k hk hb
    fin_cases hk
    · exact absurd hb (by decide)
    · exact ⟨fun c => if c = 101 then [((none : Option Nat), some 0, some 0)] else [],
        rfl, rfl⟩
  · intro k hk
    fin_cases hk
    · exact ⟨fun _ => true, rfl, rfl⟩
    · exact ⟨fun _ => true, rfl, rfl⟩
  · intro k hk
    fin_cases hk
    · decide
    · decide
  · intro k hk hb
    fin_cases hk
    · exact absurd hb (by decide)
    · decide
  · intro k hk hb conn hc
    fin_cases hk
    · exact absurd hb (by decide)
    · simp at hc
      subst hc
      rfl
  · intro k hk hb conn hc j hj
    fin_cases hk
    · exact absurd hb (by decide)
    · simp at hc
      subst hc
      simp only [connSlots, List.filterMap, id] at hj
      rcases List.mem_cons.mp hj with rfl | hj2
      · exact ⟨by decide, by decide⟩
      · rcases List.mem_cons.mp hj2 with rfl | hj3
        · exact ⟨by decide, by decide⟩
        · exact absurd hj3 (List.not_mem_nil _)
  · intro j hj k hk h
    fin_cases hj <;> fin_cases hk <;> omega
  · intro k hk hb st T ha hbp
    fin_cases hk
    · exact absurd hb (by decide)
    · have hown : ownPatterns (fun k => 100 + k)
          (fun k => if k = 1 then [((none : Option Nat), some 0, some 0)] else []) 1 =
          [((none : Option Nat), some 100, some 100)] := rfl
      constructor
      · intro hall
        have hmem := hall _ (by rw [hown]; exact List.mem_cons_self _ _)
        show rtResolve st T = .ok (11, 101)
        unfold rtResolve
        rw [if_pos hmem]
      · intro hnall
        have hno : ((none : Option Nat), some 100, some 100) ∉ patternsAt st T := by
          intro hmem
          refine hnall ?_
          intro p hp
          rw [hown] at hp
          rcases List.mem_cons.mp hp with rfl | hp2
          · exact hmem
          · exact absurd hp2 (List.not_mem_nil _)
        show rtResolve st T = .error .notSufficient
        unfold rtResolve
        rw [if_neg hno]

end Lemmas

/-!
## The claim theorems
-/

section Claims

variable {Content Data ImplId IdentId Ref : Type}
variable [DecidableEq Content] [DecidableEq Data] [DecidableEq ImplId]
variable [DecidableEq IdentId] [DecidableEq Ref]


/-- C1: contrary to the claim, `getRawConceptFromIdentity` on a fresh store and
an identity with no existing Concept does not construct a raw Concept and does
invoke the identity's content-creation function: `_getImplementationDicts` has
already created the (empty) `_loadedConcepts` entry, so the test
`implementation in self._loadedConcepts` is true and the call falls through to
`getConceptFromIdentity`.  The evaluation shows the returned Concept resolved
(`raw = false`, content 42 computed by the factory) and the ghost factory
counter at 1 instead of 0. -/
theorem claimC1_getRaw_resolves_and_invokes_factory :
    getRawConceptFromIdentity natEnv 0 (emptyConceptLogicState Nat Nat Nat) =
      .ok { concepts := [{ implementation := 0, content := some 42, identity := some 0
                           raw := false }]
            loadedConcepts := [(0, [(42, 0)])], identifiedConcepts := [(0, [(0, 0)])]
            nonRawImplementations := [], activated := false, factoryCalls := 1
            initTrace := [] } 0 := rfl

/-- C2: contrary to the claim, `getConceptFromIdentity` on a store holding a
raw Concept for the identity does not resolve and return that Concept: after
setting the content (factory invoked, counter 1) and clearing the raw flag, the
source reads the never-assigned local variable `content` (line 140) and raises
`UnboundLocalError`; the Concept is neither indexed by content nor initialized
nor returned. -/
theorem claimC2_raw_resolution_raises_unbound_local :
    getConceptFromIdentity natEnv 0 rawStore =
      .raised { concepts := [{ implementation := 0, content := some 42, identity := some 0
                               raw := false }]
                loadedConcepts := [(0, [])], identifiedConcepts := [(0, [(0, 0)])]
                nonRawImplementations := [], activated := false, factoryCalls := 1
                initTrace := [] } .unboundLocalError := rfl

/-- C5: two calls of `getConceptFromContent` with the same implementation and
content return the same Concept instance: if the first call succeeds with
concept index `k` and final state `s1`, the second call on `s1` returns the
same index `k` and leaves the state unchanged (get-or-create is idempotent; no
garbage collection happens in the model, matching the claim's liveness side
condition). -/
theorem claimC5_getConceptFromContent_idempotent {e : (ConceptLogicEnv Content Data ImplId IdentId)} {impl : ImplId} {c : Content}
    {s s1 : (ConceptLogicState Content ImplId IdentId)} {k : Nat} (h : getConceptFromContent e impl c s = .ok s1 k) :
    getConceptFromContent e impl c s1 = .ok s1 k := by
  unfold getConceptFromContent at h ⊢
  cases hv : (e.impls impl).contentValid with
  | none => rw [hv] at h; simp at h
  | some valid =>
    rw [hv] at h
    dsimp only at h ⊢
    by_cases hb : valid c = false
    · rw [if_pos hb] at h; simp at h
    · rw [if_neg hb] at h ⊢
      cases hd : getImplementationDicts e impl s with
      | raised sE err => rw [hd] at h; simp at h
      | ok sA uA =>
        rw [hd] at h
        dsimp only at h
        obtain ⟨hiA, hlA⟩ := getImplementationDicts_ok_present hd
        cases hn : nonRawStep e impl sA with
        | raised sE err => rw [hn] at h; simp at h
        | ok sB uB =>
          rw [hn] at h
          dsimp only at h
          obtain ⟨hmemB, pidB, ploB⟩ := nonRawStep_ok hn
          have hiB : (alookup sB.identifiedConcepts impl).isSome := pidB impl hiA
          have hlB : (alookup sB.loadedConcepts impl).isSome := ploB impl hlA
          cases hl : alookup ((alookup sB.loadedConcepts impl).getD []) c with
          | some k0 =>
            rw [hl] at h
            simp only [PyOutcome.ok.injEq] at h
            obtain ⟨rfl, rfl⟩ := h
            obtain ⟨dI, hdI⟩ := Option.isSome_iff_exists.mp hiB
            obtain ⟨dL, hdL⟩ := Option.isSome_iff_exists.mp hlB
            rw [getImplementationDicts_of_present e impl sB hdI hdL]
            dsimp only
            rw [nonRawStep_of_mem hmemB]
            dsimp only
            rw [hl]
          | none =>
            rw [hl] at h
            obtain ⟨d, hdL, hlo1, hid1, hnr1⟩ := conceptInit_none_ok h
            obtain ⟨dI, hdI⟩ := Option.isSome_iff_exists.mp hiB
            have hdI1 : alookup s1.identifiedConcepts impl = some dI := hid1 ▸ hdI
            have hdL1 : alookup s1.loadedConcepts impl = some (aupdate d c k) := by
              rw [hlo1]
              exact alookup_aupdate_self _ _ _
            rw [getImplementationDicts_of_present e impl s1 hdI1 hdL1]
            dsimp only
            rw [nonRawStep_of_mem (hnr1 ▸ hmemB)]
            dsimp only
            rw [hdL1]
            dsimp only [Option.getD]
            rw [alookup_aupdate_self]

/-- Witness for C5 at a concrete input: creating content 1 under implementation
2 in the empty store succeeds, and the theorem yields that repeating the call
returns the same Concept index 0 and the same state. -/
theorem claimC5_witness :
    getConceptFromContent natEnv 2 1
        { concepts := [{ implementation := 2, content := some 1, identity := none
                         raw := false }]
          loadedConcepts := [(2, [(1, 0)])], identifiedConcepts := [(2, [])]
          nonRawImplementations := [2], activated := false, factoryCalls := 0
          initTrace := [] } =
      .ok { concepts := [{ implementation := 2, content := some 1, identity := none
                           raw := false }]
            loadedConcepts := [(2, [(1, 0)])], identifiedConcepts := [(2, [])]
            nonRawImplementations := [2], activated := false, factoryCalls := 0
            initTrace := [] } 0 :=
  claimC5_getConceptFromContent_idempotent
    (s := emptyConceptLogicState Nat Nat Nat) (by rfl)

/-- C6 counterexample: the claim says `getConceptFromIdentity(i)` fails when
the factory's content belongs to a Concept that already carries a different
identity.  On `identifiedStore` (one Concept, content 42, identity 1) with
identity 0 whose factory yields 42, the call succeeds, overwrites
`_conceptIdentity` with identity 0, registers a second identity entry for the
same Concept, and returns it — no failure. -/
theorem claimC6_counterexample_attach_succeeds :
    getConceptFromIdentity natEnv 0 identifiedStore =
      .ok { concepts := [{ implementation := 0, content := some 42, identity := some 0
                           raw := false }]
            loadedConcepts := [(0, [(42, 0)])]
            identifiedConcepts := [(0, [(1, 0), (0, 0)])]
            nonRawImplementations := [0], activated := false, factoryCalls := 1
            initTrace := [] } 0 := rfl

/-- C6 amended: when no Concept exists for identity `i` and the factory's
content belongs to an existing Concept, `getConceptFromIdentity` does not fail:
it attaches `i` to that Concept by overwriting its previous identity field
(the old identity's index entry keeps pointing at the Concept) and returns the
Concept. -/
theorem claimC6_amended_attach_overwrites (e : (ConceptLogicEnv Content Data ImplId IdentId)) (identId : IdentId) (s : (ConceptLogicState Content ImplId IdentId))
    (bi : List (IdentId × Nat)) (bc : List (Content × Nat)) (c : Content) (k : Nat)
    (record : ConceptRecord Content ImplId IdentId)
    (himpl : alookup s.identifiedConcepts (e.idents identId).implementation = some bi)
    (hloaded : alookup s.loadedConcepts (e.idents identId).implementation = some bc)
    (hnew : alookup bi identId = none)
    (hfac : (e.idents identId).contentCreationFunction s = c)
    (hcontent : alookup bc c = some k)
    (hrec : s.concepts[k]? = some record) :
    getConceptFromIdentity e identId s =
      .ok { s with concepts := s.concepts.set k { record with identity := some identId }
                   identifiedConcepts := aupdate s.identifiedConcepts
                     (e.idents identId).implementation (aupdate bi identId k)
                   factoryCalls := s.factoryCalls + 1 } k := by
  unfold getConceptFromIdentity
  dsimp only
  rw [getImplementationDicts_of_present e _ s himpl hloaded]
  dsimp only
  rw [himpl, hloaded]
  dsimp only [Option.getD]
  rw [hnew, hfac, hcontent]
  dsimp only
  rw [hrec]

/-- Witness for the amended C6 on `identifiedStoreB` (previous identity 2):
identity 0 is attached by overwriting, and the Concept is returned. -/
theorem claimC6_amended_witness :
    getConceptFromIdentity natEnv 0 identifiedStoreB =
      .ok { concepts := [{ implementation := 0, content := some 42, identity := some 0
                           raw := false }]
            loadedConcepts := [(0, [(42, 0)])]
            identifiedConcepts := [(0, [(2, 0), (0, 0)])]
            nonRawImplementations := [0], activated := false, factoryCalls := 1
            initTrace := [] } 0 :=
  claimC6_amended_attach_overwrites natEnv 0 identifiedStoreB
    [(2, 0)] [(42, 0)] 42 0
    { implementation := 0, content := some 42, identity := some 2, raw := false }
    rfl rfl rfl rfl rfl rfl

/-- C7: contrary to the claim, the first identity-less `getConceptFromContent`
for an implementation that has a currently-raw Concept does not force that
Concept's resolution and proceed: the forcing loop's `getConceptFromIdentity`
hits the unbound local variable `content` (source line 140) and the whole call
raises `UnboundLocalError` before the implementation is marked
identity-less-eligible and before the new content is indexed. -/
theorem claimC7_forcing_loop_crashes_on_raw :
    getConceptFromContent natEnv 0 7 rawStore =
      .raised { concepts := [{ implementation := 0, content := some 42, identity := some 0
                               raw := false }]
                loadedConcepts := [(0, [])], identifiedConcepts := [(0, [(0, 0)])]
                nonRawImplementations := [], activated := false, factoryCalls := 1
                initTrace := [] } .unboundLocalError := rfl

/-- C8: the validity check of `getConceptFromContent` evaluated at the three
relevant inputs.  With `contentValid` absent (implementation 1) the call does
not proceed — Python calls `None` and raises `TypeError` — contradicting the
claim's second half; with a predicate present the invalid-content failure is
raised exactly on rejection (implementation 2 accepts only content 1). -/
theorem claimC8_validity_check_evaluations :
    getConceptFromContent natEnv 1 5 (emptyConceptLogicState Nat Nat Nat) =
      .raised (emptyConceptLogicState Nat Nat Nat) .typeError ∧
    getConceptFromContent natEnv 2 2 (emptyConceptLogicState Nat Nat Nat) =
      .raised (emptyConceptLogicState Nat Nat Nat) .invalidContent ∧
    getConceptFromContent natEnv 2 1 (emptyConceptLogicState Nat Nat Nat) =
      .ok { concepts := [{ implementation := 2, content := some 1, identity := none
                           raw := false }]
            loadedConcepts := [(2, [(1, 0)])], identifiedConcepts := [(2, [])]
            nonRawImplementations := [2], activated := false, factoryCalls := 0
            initTrace := [] } 0 :=
  ⟨rfl, rfl, rfl⟩

/-- C9 counterexample: `midResolutionState` is exactly the store state a
re-entrant call observes while identity 0's content factory is being evaluated
by an outer `getConceptFromIdentity` on a fresh store (nothing is registered
for the identity before the factory runs).  The re-entrant call is not detected
and not rejected: it succeeds, invoking the content-creation function again
(ghost counter 0 to 1) and constructing the Concept. -/
theorem claimC9_counterexample_reentry_not_rejected :
    alookup ((alookup midResolutionState.identifiedConcepts 0).getD []) 0 = none ∧
    getConceptFromIdentity natEnv 0 midResolutionState =
      .ok { concepts := [{ implementation := 0, content := some 42, identity := some 0
                           raw := false }]
            loadedConcepts := [(0, [(42, 0)])], identifiedConcepts := [(0, [(0, 0)])]
            nonRawImplementations := [], activated := false, factoryCalls := 1
            initTrace := [] } 0 :=
  ⟨rfl, rfl⟩

/-- C9 amended: re-entrant resolution is not detected.  Any
`getConceptFromIdentity` call made while the identity is still unregistered —
in particular a re-entrant call issued during the evaluation of that identity's
own content-creation function, which runs before anything is registered —
re-invokes the content-creation function: whatever the outcome, the state it
carries shows exactly one additional factory invocation, and no dedicated
re-entrancy failure exists. -/
theorem claimC9_amended_reentry_reinvokes_factory (e : (ConceptLogicEnv Content Data ImplId IdentId)) (identId : IdentId) (s : (ConceptLogicState Content ImplId IdentId))
    (bi : List (IdentId × Nat)) (bc : List (Content × Nat))
    (himpl : alookup s.identifiedConcepts (e.idents identId).implementation = some bi)
    (hloaded : alookup s.loadedConcepts (e.idents identId).implementation = some bc)
    (hnew : alookup bi identId = none) :
    (getConceptFromIdentity e identId s).state.factoryCalls = s.factoryCalls + 1 := by
  unfold getConceptFromIdentity
  dsimp only
  rw [getImplementationDicts_of_present e _ s himpl hloaded]
  dsimp only
  rw [himpl, hloaded]
  dsimp only [Option.getD]
  rw [hnew]
  dsimp only
  cases hb : alookup bc ((e.idents identId).contentCreationFunction s) with
  | some k =>
    dsimp only
    cases hr : s.concepts[k]? with
    | none => rfl
    | some record => rfl
  | none =>
    dsimp only
    exact conceptInit_state_factoryCalls e _ _ _ _ _

/-- Witness for the amended C9 at the concrete mid-resolution state: the
re-entrant call's outcome carries factory counter 1 = 0 + 1. -/
theorem claimC9_amended_witness :
    (getConceptFromIdentity natEnv 0 midResolutionState).state.factoryCalls =
      midResolutionState.factoryCalls + 1 :=
  claimC9_amended_reentry_reinvokes_factory natEnv 0 midResolutionState [] []
    rfl rfl rfl

/-- C4: for every finite `SemanticData` value, `importSemanticData` terminates
(the internally supplied fuel is always sufficient: the `fuelExhausted` model
artifact never occurs); a `semanticConnectionsNotSufficient` signal raised
during a resolution attempt is always handled inside the fixpoint loop and
never escapes `importSemanticData`; and unresolved references are not reported
as an error: when no reference is resolvable at all (no byte payloads, resolver
always signalling NotSufficient), the import still returns an ordinary result
map that simply omits every reference. -/
theorem claimC4_importSemanticData_terminates (e : (ConceptLogicEnv Content Data ImplId IdentId))
    (sd : SemanticData Ref ImplId Data) (s : (ConceptLogicState Content ImplId IdentId)) :
    (∀ s', importSemanticData e sd s ≠ .raised s' PyError.fuelExhausted) ∧
    (∀ s', importSemanticData e sd s ≠ .raised s' PyError.notSufficient) ∧
    ((∀ st conns, e.resolveConnections st conns = .error .notSufficient) → sd.1 = [] →
      ∃ s', importSemanticData e sd s = .ok s' []) := by
  obtain ⟨bytes, trips⟩ := sd
  have hmain : ∀ (s' : (ConceptLogicState Content ImplId IdentId)) (err : PyError),
      importSemanticData e (bytes, trips) s = .raised s' err →
      err ≠ PyError.notSufficient ∧ err ≠ PyError.fuelExhausted := by
    intro s' err h
    unfold importSemanticData at h
    dsimp only at h
    cases hb : importBytePhase e bytes []
        ((trips.flatMap (fun t => [t.1, t.2.1, t.2.2])).dedup) s with
    | raised s1 e1 =>
      rw [hb] at h
      dsimp only at h
      simp only [PyOutcome.raised.injEq] at h
      obtain ⟨rfl, rfl⟩ := h
      exact importBytePhase_raised hb
    | ok s1 out =>
      obtain ⟨cbr, unimp⟩ := out
      rw [hb] at h
      dsimp only at h
      have hsubl := importBytePhase_ok_sublist hb
      have hnd0 : ((trips.flatMap (fun t => [t.1, t.2.1, t.2.2])).dedup).Nodup :=
        List.nodup_dedup _
      have hnd : unimp.Nodup := hsubl.nodup hnd0
      have hlen : unimp.length ≤
          ((trips.flatMap (fun t => [t.1, t.2.1, t.2.2])).dedup).length :=
        hsubl.length_le
      have hfuel : unimp.length *
            (((trips.flatMap (fun t => [t.1, t.2.1, t.2.2])).dedup).length + 1) +
            unimp.length <
          (((trips.flatMap (fun t => [t.1, t.2.1, t.2.2])).dedup).length + 1) *
            (((trips.flatMap (fun t => [t.1, t.2.1, t.2.2])).dedup).length + 1) := by
        have h1 : unimp.length *
              (((trips.flatMap (fun t => [t.1, t.2.1, t.2.2])).dedup).length + 1) ≤
            ((trips.flatMap (fun t => [t.1, t.2.1, t.2.2])).dedup).length *
              (((trips.flatMap (fun t => [t.1, t.2.1, t.2.2])).dedup).length + 1) :=
          Nat.mul_le_mul_right _ hlen
        have h2 : (((trips.flatMap (fun t => [t.1, t.2.1, t.2.2])).dedup).length + 1) *
              (((trips.flatMap (fun t => [t.1, t.2.1, t.2.2])).dedup).length + 1) =
            ((trips.flatMap (fun t => [t.1, t.2.1, t.2.2])).dedup).length *
              (((trips.flatMap (fun t => [t.1, t.2.1, t.2.2])).dedup).length + 1) +
              (((trips.flatMap (fun t => [t.1, t.2.1, t.2.2])).dedup).length + 1) :=
          Nat.succ_mul _ _
        omega
      exact importLoop_raised _ _ cbr unimp unimp s1 hnd (fun x hx => hx) hnd hlen hfuel
        s' err h
  refine ⟨fun s' h => (hmain s' _ h).2 rfl, fun s' h => (hmain s' _ h).1 rfl, ?_⟩
  intro hres hempty
  have hb : bytes = [] := hempty
  subst hb
  refine ⟨s, ?_⟩
  unfold importSemanticData
  simp only [importBytePhase]
  have hlt : ((trips.flatMap (fun t => [t.1, t.2.1, t.2.2])).dedup).length <
      (((trips.flatMap (fun t => [t.1, t.2.1, t.2.2])).dedup).length + 1) *
        (((trips.flatMap (fun t => [t.1, t.2.1, t.2.2])).dedup).length + 1) := by
    have hstep : ((trips.flatMap (fun t => [t.1, t.2.1, t.2.2])).dedup).length + 1 ≤
        (((trips.flatMap (fun t => [t.1, t.2.1, t.2.2])).dedup).length + 1) *
          (((trips.flatMap (fun t => [t.1, t.2.1, t.2.2])).dedup).length + 1) :=
      Nat.le_mul_of_pos_left _
        (Nat.succ_pos ((trips.flatMap (fun t => [t.1, t.2.1, t.2.2])).dedup).length)
    omega
  exact importLoop_allNotSufficient hres _ _ [] _ s hlt

/-- Witness for C4 at a concrete input: the one-triple, no-byte-payload
`demoImportData` under `natEnv` (whose resolver always signals NotSufficient)
terminates without fuel exhaustion, never surfaces NotSufficient, and returns
the empty map with all three references simply absent. -/
theorem claimC4_witness :
    (∀ s', importSemanticData natEnv demoImportData (emptyConceptLogicState Nat Nat Nat) ≠
        .raised s' PyError.fuelExhausted) ∧
    (∀ s', importSemanticData natEnv demoImportData (emptyConceptLogicState Nat Nat Nat) ≠
        .raised s' PyError.notSufficient) ∧
    ∃ s', importSemanticData natEnv demoImportData (emptyConceptLogicState Nat Nat Nat) =
        .ok s' [] := by
  obtain ⟨h1, h2, h3⟩ := claimC4_importSemanticData_terminates natEnv demoImportData
    (emptyConceptLogicState Nat Nat Nat)
  exact ⟨h1, h2, h3 (fun st conns => rfl) rfl⟩

/-- C10: whenever the global `conceptLogicSet` is non-empty, constructing a
`ConceptIdentity` raises in its pre-existing-concept collision check — the
check reads the attribute `conceptLogic.loadedConcepts`, which does not exist
on `ConceptLogic` objects (the field is `_loadedConcepts`), so the first
iteration raises `AttributeError` regardless of what is actually loaded. -/
theorem claimC10_conceptIdentityInit_raises {Content ImplId IdentId : Type}
    (impl : ImplId) (factory : ConceptLogicState Content ImplId IdentId → Content)
    (logics : List (ConceptLogicState Content ImplId IdentId)) (h : logics ≠ []) :
    conceptIdentityInit impl factory logics = .error .attributeError := by
  cases logics with
  | nil => exact absurd rfl h
  | cons a l => rfl

/-- Witness for C10 at a concrete input: one (empty) store exists and the
identity constructor raises the attribute error. -/
theorem claimC10_witness :
    conceptIdentityInit (0 : Nat) (fun _ => (42 : Nat))
      [emptyConceptLogicState Nat Nat Nat] = .error .attributeError :=
  claimC10_conceptIdentityInit_raises 0 (fun _ => 42)
    [emptyConceptLogicState Nat Nat Nat] (by simp)

/-- C3: the round-trip contract.  For any set `S` of resolved concepts whose
reachable closure `R` is acyclic (witnessed by `rank`) through byte-encodable
leaves, with one-hole connections, injective reference naming, mutually
inverse byte codecs, distinct contents and a resolver that reconstructs a
concept from its full own content pattern (the `RoundTripHyps` record),
exporting `S` succeeds without touching the store, importing the resulting
`SemanticData` into any store satisfying the Importer invariant (for instance
a fresh one) succeeds, and for every concept `k` of `S` the reference the
export assigned to it (`nc k`) is mapped by the returned dictionary to a
Concept of the importing store whose content equals `k`'s original content
(and whose implementation is `k`'s implementation). -/
theorem claimC3_export_import_round_trip {e : (ConceptLogicEnv Content Data ImplId IdentId)} {s0 st0 : (ConceptLogicState Content ImplId IdentId)}
    {R S : List Nat} {nc : Nat → Ref} {rank : Nat → Nat} {cOf : Nat → Content}
    {iOf : Nat → ImplId} {isByte : Nat → Bool} {dOf : Nat → Data}
    {cnOf : Nat → List SemanticConnection}
    (H : RoundTripHyps e s0 R nc rank cOf iOf isByte dOf cnOf)
    (hS : ∀ k ∈ S, k ∈ R) (hst0 : StoreInv st0) :
    ∃ (sd : SemanticData Ref ImplId Data) (st' : (ConceptLogicState Content ImplId IdentId)) (m : List (Ref × Nat)),
      exportSemanticData e S nc s0 = .ok s0 sd ∧
      importSemanticData e sd st0 = .ok st' m ∧
      ∀ k ∈ S, ∃ k', alookup m (nc k) = some k' ∧
        ∃ rec, st'.concepts[k']? = some rec ∧
          rec.content = some (cOf k) ∧ rec.implementation = iOf k := by
  obtain ⟨esF, hrunE, hinvF, hwF, hkF⟩ := exportSemanticData_spec H hS
  obtain ⟨v1, v2, v3, v4, v5, v6, v7⟩ := hinvF
  have hER : ∀ k ∈ keysOf esF, k ∈ R := by
    intro k hk
    obtain ⟨p, hp, rfl⟩ := List.mem_map.mp hk
    exact (v1 p hp).2
  have hnw : ∀ k : Nat, k ∉ esF.conceptsToExport := by
    intro k
    rw [hwF]
    exact List.not_mem_nil _
  have hbytesChar : ∀ p ∈ esF.byteDataInfoByReference,
      ∃ k, k ∈ keysOf esF ∧ isByte k = true ∧ p = (nc k, iOf k, dOf k) := by
    intro p hp
    obtain ⟨k, hk1, hk2, hk3, hk4⟩ := v6 p hp
    exact ⟨k, hk1, hk3, hk4⟩
  have hbytesAll : ∀ k ∈ keysOf esF, isByte k = true →
      (nc k, iOf k, dOf k) ∈ esF.byteDataInfoByReference := by
    intro k hk hb
    exact alookup_mem ((v5 k hk (hnw k)).1 hb)
  have hproc : ∀ k ∈ keysOf esF, isByte k = false → ∀ conn ∈ cnOf k,
      substTriple nc k conn ∈ esF.referenceTriples ∧
        ∀ j ∈ connSlots conn, j ∈ keysOf esF := by
    intro k hk hb conn hc
    exact (v5 k hk (hnw k)).2 hb conn hc
  obtain ⟨st', m, hrunI, hfin⟩ :=
    importSemanticData_spec H hER hbytesChar hbytesAll v7 hproc hst0
  refine ⟨(esF.byteDataInfoByReference, esF.referenceTriples), st', m,
    hrunE, hrunI, ?_⟩
  intro k hk
  obtain ⟨k', hlook, rec, hrec, hreci, hrecc⟩ := hfin k (hkF k hk)
  exact ⟨k', hlook, rec, hrec, hrecc, hreci⟩

/-- Witness for C3: the concrete two-concept instance (byte leaf 0 with
content 100, connection concept 1 with content 101 referencing the leaf
twice), exported from `rtS0` and imported into a fresh store. -/
theorem claimC3_witness :
    RoundTripHyps rtE rtS0 [0, 1] (fun r => r) (fun k => k) (fun k => 100 + k)
      (fun k => 10 + k) (fun k => decide (k = 0)) (fun k => 100 + k)
      (fun k => if k = 1 then [((none : Option Nat), some 0, some 0)] else []) ∧
    StoreInv (emptyConceptLogicState Nat Nat Nat) ∧
    (∀ k ∈ ([0, 1] : List Nat), k ∈ ([0, 1] : List Nat)) ∧
    ∃ (sd : SemanticData Nat Nat Nat) (st' : ConceptLogicState Nat Nat Nat)
      (m : List (Nat × Nat)),
      exportSemanticData rtE [0, 1] (fun r => r) rtS0 = .ok rtS0 sd ∧
      importSemanticData rtE sd (emptyConceptLogicState Nat Nat Nat) = .ok st' m ∧
      ∀ k ∈ ([0, 1] : List Nat), ∃ k', alookup m k = some k' ∧
        ∃ rec, st'.concepts[k']? = some rec ∧
          rec.content = some (100 + k) ∧ rec.implementation = 10 + k :=
  ⟨rtHyps, rtStoreInv_empty, fun _ hk => hk,
    claimC3_export_import_round_trip rtHyps (fun _ hk => hk) rtStoreInv_empty⟩

end Claims

end ConceptLogicPy
